import Mathlib

/-!
# Rucbase storage core: B+tree index, replacers, record manager

A shallow embedding of `IxIndexHandle` (`in_index_handle.cpp`), of the two replacers
(`lru_replacer.cpp`, `clock_replacer.cpp`) and of the record manager
(`rm_file_handle.cpp`, `rm_scan.cpp`).  A node handle of
the source is a pointer into a buffer-pool frame, so two handles of one page
alias each other; here a handle is the page number and every field access goes
through the page store of `IxState`.

The methods of `IxNodeHandle`, the buffer pool and the constants of `defs.h`
are not part of the sources at hand.  Their definitions below follow the
specification and are marked as such.  `UnpinPage` writes no page and no header
field; the pin counts of the buffer pool are not part of `IxState`, and the
calls of `UnpinPage` do not appear below.

A loop or a recursion of the source runs under a bound `fuel` on its iterations
or its depth.
-/

namespace Rucbase

/-- Modelled from the spec: the constant `INVALID_PAGE_ID` of `defs.h` (§3: `INVALID_PAGE_ID` = −1
denotes "none"). -/
def INVALID_PAGE_ID : Int := -1

/-- Modelled from the spec: the constant `IX_NO_PAGE` of the index headers, the "none" page number
of the index layer (§3 and §4.5.3 use `INVALID_PAGE_ID` for it). -/
def IX_NO_PAGE : Int := -1

/-- A key is the `col_len` bytes of the indexed column. -/
abbrev Key := List Nat

/-- The record identifier `Rid{page_no, slot_no}`. -/
structure Rid where
  page_no : Int
  slot_no : Int
deriving DecidableEq, Repr, Inhabited

/-- The index cursor `Iid{page_no, slot_no}`. -/
structure Iid where
  page_no : Int
  slot_no : Int
deriving DecidableEq, Repr, Inhabited

/-- The C library function `memcmp` on the first `n` bytes; a byte past the end of
a buffer reads as zero. -/
def memcmp (a b : List Nat) : Nat → Int
  | 0 => 0
  | n + 1 =>
    if a.headD 0 < b.headD 0 then -1
    else if b.headD 0 < a.headD 0 then 1
    else memcmp a.tail b.tail n

/-- The C library function `memcpy` of `n` bytes from `src` over the start of `dst`. -/
def memcpy (dst src : List Nat) (n : Nat) : List Nat :=
  (List.range n).map (fun i => src.getD i 0) ++ dst.drop n

/-- Modelled from the spec: the node page of §3,
`page_hdr{is_leaf, num_key, parent, next_leaf, prev_leaf, next_free_page_no} · keys · rids`.
The slots `0 .. num_key - 1` of the two arrays are the list `pairs`, so `num_key` is its length. -/
structure IxNode where
  is_leaf : Bool
  parent : Int
  next_leaf : Int
  prev_leaf : Int
  next_free_page_no : Int
  pairs : List (Key × Rid)
deriving DecidableEq, Repr

/-- A zero-filled page, as the buffer pool hands out for a new page. -/
def IxNode.zero : IxNode :=
  { is_leaf := false, parent := 0, next_leaf := 0, prev_leaf := 0, next_free_page_no := 0, pairs := [] }

/-- Modelled from the spec: the index file header of §3,
`{col_len, btree_order, num_pages, root_page, first_leaf, last_leaf}`. -/
structure IxFileHdr where
  col_len : Nat
  btree_order : Nat
  num_pages : Int
  root_page : Int
  first_leaf : Int
  last_leaf : Int
deriving DecidableEq, Repr

/-- The state an `IxIndexHandle` works on: its `file_hdr_`, the page counter
`fd2pageno_[fd_]` of the disk manager, and the node pages of the file as the buffer pool
presents them (`none`: no such page). -/
structure IxState where
  file_hdr : IxFileHdr
  fd2pageno : Int
  pages : Int → Option IxNode

/-- How an operation of the model can stop without a result: a page that does not exist was
fetched (`DiskManager::read_page` throws on it), or the bound on loop iterations and
recursion depth ran out. -/
inductive IxError where
  | ioError
  | outOfFuel
deriving DecidableEq, Repr

/-- Write the page with number `p`. -/
def IxState.setPage (s : IxState) (p : Int) (n : IxNode) : IxState :=
  { s with pages := fun q => if q = p then some n else s.pages q }

/-- Update the page behind the handle `p` in place. -/
def IxState.modify (s : IxState) (p : Int) (f : IxNode → IxNode) : IxState :=
  match s.pages p with
  | some n => s.setPage p (f n)
  | none => s

/-! ## `IxNodeHandle` -/

namespace IxNodeHandle

/-- Number of pairs in the node, `page_hdr->num_key`. -/
def GetSize (n : IxNode) : Nat := n.pairs.length

/-- Modelled from the spec: `GetMaxSize` of `IxNodeHandle` (§3: `max_size` = btree_order). -/
def GetMaxSize (hdr : IxFileHdr) : Nat := hdr.btree_order

/-- Modelled from the spec: `GetMinSize` of `IxNodeHandle` (§3: `min_size = ⌈max_size/2⌉`). -/
def GetMinSize (hdr : IxFileHdr) : Nat := (GetMaxSize hdr + 1) / 2

/-- Modelled from the spec: `IsRootPage` of `IxNodeHandle`; the root is the node without a
parent (§4.5.3 `adjust_root` gives the new root the parent `INVALID_PAGE_ID`, and
`maintain_parent` stops at the node whose parent is `IX_NO_PAGE`). -/
def IsRootPage (n : IxNode) : Bool := n.parent == IX_NO_PAGE

/-- Modelled from the spec: `get_key(i)` of `IxNodeHandle`; a slot past `num_key` reads as the
empty key. -/
def get_key (n : IxNode) (i : Nat) : Key := ((n.pairs.get? i).map Prod.fst).getD []

/-- Modelled from the spec: `get_rid(i)` of `IxNodeHandle`; a slot past `num_key` reads as
zero bytes. -/
def get_rid (n : IxNode) (i : Nat) : Rid := ((n.pairs.get? i).map Prod.snd).getD ⟨0, 0⟩

/-- Modelled from the spec: `ValueAt(i)` of `IxNodeHandle`, the child page number stored in
slot `i` (§3: in an internal node `rid.page_no` is the child page id). -/
def ValueAt (n : IxNode) (i : Nat) : Int := (get_rid n i).page_no

/-- Modelled from the spec: `lower_bound` of `IxNodeHandle` (§4.5.1: the least index `i` with
`keys[i] ≥ key`, `num_key` when there is none). -/
def lower_bound (col_len : Nat) (n : IxNode) (target : Key) : Nat :=
  n.pairs.findIdx fun p => decide (0 ≤ memcmp p.1 target col_len)

/-- Modelled from the spec: `upper_bound` of `IxNodeHandle` (§4.5.1: the least index `i` with
`keys[i] > key`, `num_key` when there is none). -/
def upper_bound (col_len : Nat) (n : IxNode) (target : Key) : Nat :=
  n.pairs.findIdx fun p => decide (0 < memcmp p.1 target col_len)

/-- The largest index `i` of `ps` (counted from `i`) with `keys[i] ≤ key`, `best` when there is
none. -/
def lookupIdx (col_len : Nat) (key : Key) : List (Key × Rid) → Nat → Nat → Nat
  | [], _, best => best
  | p :: ps, i, best =>
    lookupIdx col_len key ps (i + 1) (if memcmp p.1 key col_len ≤ 0 then i else best)

/-- Modelled from the spec: `InternalLookup` of `IxNodeHandle` (§4.5.1: the largest `i` such
that `keys[i] ≤ key` under the byte-wise comparator, or `i = 0` if `key < keys[0]`; the result
is that child's page). -/
def InternalLookup (col_len : Nat) (n : IxNode) (key : Key) : Int :=
  ValueAt n (lookupIdx col_len key n.pairs 0 0)

/-- Modelled from the spec: `LeafLookup` of `IxNodeHandle` (§4.5.1: search for the exact key
under the comparator; the associated RID or none). -/
def LeafLookup (col_len : Nat) (n : IxNode) (key : Key) : Option Rid :=
  let pos := lower_bound col_len n key
  if pos < GetSize n ∧ memcmp (get_key n pos) key col_len = 0 then some (get_rid n pos) else none

/-- Modelled from the spec: `insert_pairs(pos, key, rid, n)` of `IxNodeHandle`; the `n` pairs
`src` go in front of slot `pos`. -/
def insert_pairs (n : IxNode) (pos : Nat) (src : List (Key × Rid)) : IxNode :=
  { n with pairs := n.pairs.take pos ++ src ++ n.pairs.drop pos }

/-- The `cnt` pairs of a node from slot `pos` on, what `get_key(pos)`, `get_rid(pos)` point at
when they are passed to `insert_pairs` with the count `cnt`. -/
def pairs_from (n : IxNode) (pos cnt : Nat) : List (Key × Rid) := (n.pairs.drop pos).take cnt

/-- Modelled from the spec: `erase_pair(pos)` of `IxNodeHandle`. -/
def erase_pair (n : IxNode) (pos : Nat) : IxNode :=
  { n with pairs := n.pairs.eraseIdx pos }

/-- Modelled from the spec: `set_key(i, key)` of `IxNodeHandle`; a slot past `num_key` is not
part of the node. -/
def set_key (n : IxNode) (i : Nat) (key : Key) : IxNode :=
  { n with pairs := n.pairs.set i (key, get_rid n i) }

/-- Modelled from the spec: `SetSize(size)` of `IxNodeHandle`, used to cut a node down. -/
def SetSize (n : IxNode) (size : Nat) : IxNode :=
  { n with pairs := n.pairs.take size }

/-- Modelled from the spec: `Insert(key, rid)` of `IxNodeHandle` (§4.5.2 `leaf_insert`: if the
key already exists, return unchanged size; otherwise insert in sorted position; return new
size).  The result is the node after the call; the returned size is its `GetSize`. -/
def Insert (col_len : Nat) (n : IxNode) (key : Key) (value : Rid) : IxNode :=
  let pos := lower_bound col_len n key
  if pos < GetSize n ∧ memcmp (get_key n pos) key col_len = 0 then n
  else insert_pairs n pos [(key, value)]

/-- Modelled from the spec: `Remove(key)` of `IxNodeHandle` (§4.5.3 `leaf_remove`); the result
is the node after the call, the returned size is its `GetSize`. -/
def Remove (col_len : Nat) (n : IxNode) (key : Key) : IxNode :=
  let pos := lower_bound col_len n key
  if pos < GetSize n ∧ memcmp (get_key n pos) key col_len = 0 then erase_pair n pos else n

/-- Modelled from the spec: `find_child(child)` of `IxNodeHandle` (§4.5.3: the position of
`child` in its parent), the first slot whose `rid.page_no` is the child's page number and
`num_key` when no slot has it. -/
def find_child (n : IxNode) (child_page_no : Int) : Nat :=
  n.pairs.findIdx fun p => decide (p.2.page_no = child_page_no)

end IxNodeHandle

/-! ## `IxIndexHandle` -/

namespace IxIndexHandle

open IxNodeHandle

/-- `IxIndexHandle::FetchNode`.
Modelled from the spec: `BufferPoolManager::FetchPage` (§4.3: a frame containing the page's
bytes, read from disk on a miss); a page that does not exist cannot be read. -/
def FetchNode (s : IxState) (page_no : Int) : Except IxError IxNode :=
  match s.pages page_no with
  | some n => .ok n
  | none => .error .ioError

/-- `IxIndexHandle::CreateNode`: `file_hdr_.num_pages++`, then a new page.
Modelled from the spec: `BufferPoolManager::NewPage` (§4.3: a fresh page id from the disk
manager, a zero-filled frame); the id is `fd2pageno_[fd]++` of `DiskManager::AllocatePage`. -/
def CreateNode (s : IxState) : Int × IxState :=
  (s.fd2pageno,
    { file_hdr := { s.file_hdr with num_pages := s.file_hdr.num_pages + 1 }
      fd2pageno := s.fd2pageno + 1
      pages := fun q => if q = s.fd2pageno then some IxNode.zero else s.pages q })

/-- The loop of `IxIndexHandle::FindLeafPage`, entered with the page number of the node to
fetch. -/
def FindLeafPage_loop (s : IxState) (key : Key) : Nat → Int → Except IxError Int
  | 0, _ => .error .outOfFuel
  | fuel + 1, page_no => do
    let node ← FetchNode s page_no
    if node.is_leaf then pure page_no
    else FindLeafPage_loop s key fuel (InternalLookup s.file_hdr.col_len node key)

/-- `IxIndexHandle::FindLeafPage`: from the root down to the leaf for `key`. -/
def FindLeafPage (s : IxState) (key : Key) (fuel : Nat) : Except IxError Int :=
  FindLeafPage_loop s key fuel s.file_hdr.root_page

/-- `IxIndexHandle::GetValue`: the returned flag and the rids pushed to `result`. -/
def GetValue (s : IxState) (key : Key) (fuel : Nat) : Except IxError (Bool × List Rid) := do
  let leaf_node ← FindLeafPage s key fuel
  let leaf ← FetchNode s leaf_node
  match LeafLookup s.file_hdr.col_len leaf key with
  | some rid => pure (true, [rid])
  | none => pure (false, [])

/-- `IxIndexHandle::maintain_child`: the parent field of child `child_idx` of `node` becomes
`node`. -/
def maintain_child (s : IxState) (node : Int) (child_idx : Nat) : Except IxError IxState := do
  let nd ← FetchNode s node
  if !nd.is_leaf then
    let child_page_no := ValueAt nd child_idx
    let _ ← FetchNode s child_page_no
    pure (s.modify child_page_no fun c => { c with parent := node })
  else pure s

/-- The loop `for (i = start; i < start + cnt; i++) maintain_child(node, i)`. -/
def maintain_child_range (node : Int) : Nat → Nat → IxState → Except IxError IxState
  | _, 0, s => pure s
  | start, cnt + 1, s => do
    let s ← maintain_child s node start
    maintain_child_range node (start + 1) cnt s

/-- `IxIndexHandle::Split`: the new right sibling and the state after the split. -/
def Split (s : IxState) (node : Int) : Except IxError (Int × IxState) := do
  let (new_node, s) := CreateNode s
  let s := s.modify new_node fun n =>
    { n with next_free_page_no := IX_NO_PAGE, pairs := [], parent := IX_NO_PAGE }
  let nd ← FetchNode s node
  let s ←
    (if nd.is_leaf then do
      let s := s.modify new_node fun n => { n with is_leaf := true }
      let _ ← FetchNode s nd.next_leaf
      let s := s.modify new_node fun n => { n with next_leaf := nd.next_leaf }
      let s := s.modify nd.next_leaf fun n => { n with prev_leaf := new_node }
      let s := s.modify new_node fun n => { n with prev_leaf := node }
      let s := s.modify node fun n => { n with next_leaf := new_node }
      pure s
    else pure s)
  let mid := GetMaxSize s.file_hdr / 2
  let pos := (GetMaxSize s.file_hdr + 1) / 2
  let nd ← FetchNode s node
  let s := s.modify new_node fun n => insert_pairs n 0 (pairs_from nd pos mid)
  let s := s.modify node fun n => SetSize n pos
  let nd ← FetchNode s node
  let nw ← FetchNode s new_node
  let s ← (if !nd.is_leaf then maintain_child_range new_node 0 (GetSize nw) s else pure s)
  pure (new_node, s)

/-- `IxIndexHandle::InsertIntoParent`; `key` is the first key of `new_node`. -/
def InsertIntoParent : Nat → IxState → Int → Key → Int → Except IxError IxState
  | 0, _, _, _, _ => .error .outOfFuel
  | fuel + 1, s, old_node, key, new_node => do
    let old ← FetchNode s old_node
    let (father, s) ←
      (if IsRootPage old then do
        let (new_root, s) := CreateNode s
        let s := s.modify new_root fun n =>
          { n with is_leaf := false, next_free_page_no := IX_NO_PAGE, next_leaf := IX_NO_PAGE,
                   prev_leaf := IX_NO_PAGE, pairs := [], parent := IX_NO_PAGE }
        let s := { s with file_hdr := { s.file_hdr with root_page := new_root } }
        let s := s.modify new_root fun n =>
          Insert s.file_hdr.col_len n (get_key old 0) ⟨old_node, -1⟩
        let s := s.modify old_node fun n => { n with parent := new_root }
        pure (new_root, s)
      else do
        let _ ← FetchNode s old.parent
        pure (old.parent, s))
    let s := s.modify father fun n => Insert s.file_hdr.col_len n key ⟨new_node, -1⟩
    let s := s.modify new_node fun n => { n with parent := father }
    let fa ← FetchNode s father
    if GetSize fa = GetMaxSize s.file_hdr then do
      let (new_new_node, s) ← Split s father
      let nn ← FetchNode s new_new_node
      InsertIntoParent fuel s father (get_key nn 0) new_new_node
    else pure s

/-- `IxIndexHandle::insert_entry`: the returned flag and the state after the call. -/
def insert_entry (s : IxState) (key : Key) (value : Rid) (fuel : Nat) :
    Except IxError (Bool × IxState) := do
  let leaf_node ← FindLeafPage s key fuel
  let leaf ← FetchNode s leaf_node
  let old_size := GetSize leaf
  let s := s.modify leaf_node fun n => Insert s.file_hdr.col_len n key value
  let leaf ← FetchNode s leaf_node
  let new_size := GetSize leaf
  if old_size = new_size then pure (false, s)
  else do
    let page_no := leaf_node
    if new_size = GetMaxSize s.file_hdr then do
      let (new_node, s) ← Split s leaf_node
      let nw ← FetchNode s new_node
      let s ← InsertIntoParent fuel s leaf_node (get_key nw 0) new_node
      let s :=
        if page_no = s.file_hdr.last_leaf then
          { s with file_hdr := { s.file_hdr with last_leaf := new_node } }
        else s
      pure (true, s)
    else pure (true, s)

/-- `IxIndexHandle::maintain_parent`: copy the first key of `node` up while the parent's copy
of it differs. -/
def maintain_parent : Nat → IxState → Int → Except IxError IxState
  | 0, _, _ => .error .outOfFuel
  | fuel + 1, s, curr => do
    let cu ← FetchNode s curr
    if cu.parent ≠ IX_NO_PAGE then do
      let parent ← FetchNode s cu.parent
      let rank := find_child parent curr
      let parent_key := get_key parent rank
      let child_first_key := get_key cu 0
      if memcmp parent_key child_first_key s.file_hdr.col_len = 0 then pure s
      else do
        let s := s.modify cu.parent fun n =>
          set_key n rank (memcpy parent_key child_first_key s.file_hdr.col_len)
        maintain_parent fuel s cu.parent
    else pure s

/-- `IxIndexHandle::erase_leaf`: take `leaf` out of the leaf list. -/
def erase_leaf (s : IxState) (leaf : Int) : Except IxError IxState := do
  let lf ← FetchNode s leaf
  let _ ← FetchNode s lf.prev_leaf
  let s := s.modify lf.prev_leaf fun n => { n with next_leaf := lf.next_leaf }
  let lf ← FetchNode s leaf
  let _ ← FetchNode s lf.next_leaf
  let s := s.modify lf.next_leaf fun n => { n with prev_leaf := lf.prev_leaf }
  pure s

/-- `IxIndexHandle::release_node_handle`: `file_hdr_.num_pages--`. -/
def release_node_handle (s : IxState) : IxState :=
  { s with file_hdr := { s.file_hdr with num_pages := s.file_hdr.num_pages - 1 } }

/-- `IxIndexHandle::AdjustRoot`: the returned flag and the state after the call.
Modelled from the spec: `RemoveAndReturnOnlyChild` of `IxNodeHandle`, which takes the only
pair out of the old root and returns its child page (§4.5.3 `adjust_root`). -/
def AdjustRoot (s : IxState) (old_root_node : Int) : Except IxError (Bool × IxState) := do
  let old ← FetchNode s old_root_node
  if old.is_leaf ∧ GetSize old = 0 then
    pure (false, { s with file_hdr := { s.file_hdr with root_page := INVALID_PAGE_ID } })
  else if ¬ old.is_leaf ∧ GetSize old = 1 then do
    let child := ValueAt old 0
    let s := s.modify old_root_node fun n => erase_pair n 0
    let s := { s with file_hdr := { s.file_hdr with root_page := child } }
    let _ ← FetchNode s s.file_hdr.root_page
    let s := s.modify s.file_hdr.root_page fun n => { n with parent := IX_NO_PAGE }
    pure (true, release_node_handle s)
  else pure (false, s)

/-- `IxIndexHandle::Redistribute`: one pair moves from `neighbor_node` to `node`. -/
def Redistribute (s : IxState) (neighbor_node node parent : Int) (index : Nat) :
    Except IxError IxState := do
  let s ←
    (if index = 0 then do
      let nd ← FetchNode s node
      let nb ← FetchNode s neighbor_node
      let s := s.modify node fun n => insert_pairs n (GetSize nd) (pairs_from nb 0 1)
      let s := s.modify neighbor_node fun n => erase_pair n 0
      let pa ← FetchNode s parent
      let nb ← FetchNode s neighbor_node
      pure (s.modify parent fun n => set_key n (find_child pa neighbor_node) (get_key nb 0))
    else do
      let nb ← FetchNode s neighbor_node
      let s := s.modify node fun n => insert_pairs n 0 (pairs_from nb (GetSize nb - 1) 1)
      let nb ← FetchNode s neighbor_node
      let s := s.modify neighbor_node fun n => erase_pair n (GetSize nb - 1)
      let nd ← FetchNode s node
      pure (s.modify parent fun n => set_key n index (get_key nd 0)))
  let nd ← FetchNode s node
  maintain_child s node (GetSize nd - 1)

/-- `IxIndexHandle::Coalesce`: the right one of the two siblings is merged into the left one;
`recurse` is the call `CoalesceOrRedistribute(*parent)` at its end. -/
def Coalesce (recurse : IxState → Int → Except IxError (Bool × IxState))
    (s : IxState) (neighbor_node node parent : Int) (index : Nat) :
    Except IxError (Bool × IxState) := do
  let (node, neighbor_node) := if index = 0 then (neighbor_node, node) else (node, neighbor_node)
  let s :=
    if node = s.file_hdr.last_leaf then
      { s with file_hdr := { s.file_hdr with last_leaf := neighbor_node } }
    else s
  let nb ← FetchNode s neighbor_node
  let nd ← FetchNode s node
  let pos := GetSize nb
  let num := GetSize nd
  let s := s.modify neighbor_node fun n => insert_pairs n pos (pairs_from nd 0 num)
  let s ← maintain_child_range neighbor_node pos num s
  let nd ← FetchNode s node
  let s ← (if nd.is_leaf then erase_leaf s node else pure s)
  let s := release_node_handle s
  let pa ← FetchNode s parent
  let s := s.modify parent fun n => erase_pair n (find_child pa node)
  recurse s parent

/-- `IxIndexHandle::CoalesceOrRedistribute`: the returned flag and the state after the
call. -/
def CoalesceOrRedistribute : Nat → IxState → Int → Except IxError (Bool × IxState)
  | 0, _, _ => .error .outOfFuel
  | fuel + 1, s, node => do
    let nd ← FetchNode s node
    if IsRootPage nd then AdjustRoot s node
    else if GetSize nd ≥ GetMinSize s.file_hdr then pure (false, s)
    else do
      let father ← FetchNode s nd.parent
      let index := find_child father node
      let brother :=
        if index = 0 then (get_rid father (index + 1)).page_no
        else (get_rid father (index - 1)).page_no
      let br ← FetchNode s brother
      if GetSize nd + GetSize br ≥ GetMinSize s.file_hdr * 2 then do
        let s ← Redistribute s brother node nd.parent index
        pure (false, s)
      else do
        let (_, s) ← Coalesce (CoalesceOrRedistribute fuel) s brother node nd.parent index
        pure (true, s)

/-- `IxIndexHandle::delete_entry`: the returned flag and the state after the call. -/
def delete_entry (s : IxState) (key : Key) (fuel : Nat) : Except IxError (Bool × IxState) := do
  let node ← FindLeafPage s key fuel
  let nd ← FetchNode s node
  let old_size := GetSize nd
  let s := s.modify node fun n => Remove s.file_hdr.col_len n key
  let nd ← FetchNode s node
  let new_size := GetSize nd
  let s ← maintain_parent fuel s node
  if old_size ≠ new_size then do
    let (_, s) ← CoalesceOrRedistribute fuel s node
    pure (true, s)
  else pure (false, s)

/-- `IxIndexHandle::leaf_end`: the position after the last pair of the last leaf. -/
def leaf_end (s : IxState) : Except IxError Iid := do
  let node ← FetchNode s s.file_hdr.last_leaf
  pure ⟨s.file_hdr.last_leaf, GetSize node⟩

/-- `IxIndexHandle::leaf_begin`: the first slot of the first leaf. -/
def leaf_begin (s : IxState) : Iid := ⟨s.file_hdr.first_leaf, 0⟩

/-- `IxIndexHandle::lower_bound`: `FindLeafPage`, then `lower_bound` in the leaf. -/
def lower_bound (s : IxState) (key : Key) (fuel : Nat) : Except IxError Iid := do
  let node ← FindLeafPage s key fuel
  let nd ← FetchNode s node
  let key_idx := IxNodeHandle.lower_bound s.file_hdr.col_len nd key
  pure ⟨node, key_idx⟩

/-- `IxIndexHandle::upper_bound`: `FindLeafPage`, then `upper_bound` in the leaf; the end of
the leaf list when that is the size of the leaf. -/
def upper_bound (s : IxState) (key : Key) (fuel : Nat) : Except IxError Iid := do
  let node ← FindLeafPage s key fuel
  let nd ← FetchNode s node
  let key_idx := IxNodeHandle.upper_bound s.file_hdr.col_len nd key
  if key_idx = GetSize nd then leaf_end s
  else pure ⟨node, key_idx⟩

/-- `IxIndexHandle::get_rid`: the rid in the slot an `Iid` points at; a slot past the size of
its node is the error `IndexEntryNotFoundError`, given as `none`. -/
def get_rid (s : IxState) (iid : Iid) : Except IxError (Option Rid) := do
  let node ← FetchNode s iid.page_no
  if iid.slot_no ≥ GetSize node then pure none
  else pure (some (IxNodeHandle.get_rid node iid.slot_no.toNat))

end IxIndexHandle

/-! ## Index files and the states the operations reach -/

/-- The page of the leaf list header.  `Split` and `erase_leaf` fetch the neighbours of a leaf
without a test, so the leaf list of a file they work on is closed by a page that exists: the
list header, in the page after the file header. -/
def leaf_header_page : Int := 1

/-- The page of the first root, the page after the list header; `CreateNode` hands out pages
from 3 on ("从3开始分配page_no"). -/
def init_root_page : Int := 2

/-- An index file whose tree is a single leaf with the pairs `pairs`: the file header in
page 0, the list header in page 1 and the root leaf in page 2, the two neighbours of each
other in the leaf list; three pages, so that `CreateNode` hands out page 3 next.  The index
manager, which makes this file, is not part of the sources at hand. -/
def single_leaf (col_len btree_order : Nat) (pairs : List (Key × Rid)) : IxState :=
  { file_hdr :=
      { col_len := col_len, btree_order := btree_order, num_pages := 3,
        root_page := init_root_page, first_leaf := init_root_page, last_leaf := init_root_page }
    fd2pageno := 3
    pages := fun q =>
      if q = init_root_page then
        some { is_leaf := true, parent := IX_NO_PAGE, next_leaf := leaf_header_page,
               prev_leaf := leaf_header_page, next_free_page_no := IX_NO_PAGE, pairs := pairs }
      else if q = leaf_header_page then
        some { is_leaf := true, parent := IX_NO_PAGE, next_leaf := init_root_page,
               prev_leaf := init_root_page, next_free_page_no := IX_NO_PAGE, pairs := [] }
      else none }

/-- A call of one of the two mutating operations of the index. -/
inductive IxOp where
  | insert (key : Key) (value : Rid)
  | delete (key : Key)
deriving DecidableEq, Repr

/-- Run one call; the flag it returns and the state after it. -/
def IxOp.run (s : IxState) (fuel : Nat) : IxOp → Except IxError (Bool × IxState)
  | .insert key value => IxIndexHandle.insert_entry s key value fuel
  | .delete key => IxIndexHandle.delete_entry s key fuel

/-- Run a sequence of calls, each with the bound `fuel`; the state after the last one. -/
def run_ops (fuel : Nat) : IxState → List IxOp → Except IxError IxState
  | s, [] => .ok s
  | s, op :: ops => do
    let (_, s) ← op.run s fuel
    run_ops fuel s ops

/-- The leaf flag and the pairs of a page, the part of a page that the sizes of the nodes
depend on. -/
def IxState.shape (s : IxState) (p : Int) : Option (Bool × List (Key × Rid)) :=
  (s.pages p).map fun n => (n.is_leaf, n.pairs)

/-- A single-leaf tree: the root is a leaf without parent holding fewer than `btree_order`
pairs, it is the first and the last leaf, every other page of the file is an empty leaf
without parent (the list header, when the file has one), and no page exists from the page
counter of the disk manager on. -/
structure SingleLeafTree (s : IxState) : Prop where
  first : s.file_hdr.first_leaf = s.file_hdr.root_page
  last : s.file_hdr.last_leaf = s.file_hdr.root_page
  root : ∃ n, s.pages s.file_hdr.root_page = some n ∧ n.is_leaf = true ∧
    n.parent = IX_NO_PAGE ∧ n.pairs.length < s.file_hdr.btree_order
  rest : ∀ p n, p ≠ s.file_hdr.root_page → s.pages p = some n →
    n.is_leaf = true ∧ n.parent = IX_NO_PAGE ∧ n.pairs = []
  fresh : ∀ p, s.fd2pageno ≤ p → s.pages p = none

/-- The states reached from `s₀` by calls of `insert_entry` that return. -/
inductive InsertReachable (s₀ : IxState) : IxState → Prop where
  | init : InsertReachable s₀ s₀
  | insert {s s' : IxState} {key : Key} {value : Rid} {fuel : Nat} {inserted : Bool} :
      InsertReachable s₀ s →
      IxIndexHandle.insert_entry s key value fuel = .ok (inserted, s') →
      InsertReachable s₀ s'

/-- The nodes of the tree: the root, and the children of the internal nodes of the tree. -/
inductive InTree (s : IxState) : Int → Prop where
  | root : InTree s s.file_hdr.root_page
  | child {p : Int} {n : IxNode} {pr : Key × Rid} :
      InTree s p → s.pages p = some n → n.is_leaf = false → pr ∈ n.pairs →
      InTree s pr.2.page_no

/-- The size invariant of the insert path: no page holds more than `btree_order` pairs and
only the page `x` may hold that many, the pages an internal page points to exist and hold
at least `btree_order / 2` pairs, and no page exists from the page counter on. -/
structure SizeInv (s : IxState) (x : Option Int) : Prop where
  order : 2 ≤ s.file_hdr.btree_order
  le : ∀ p b ps, s.shape p = some (b, ps) → ps.length ≤ s.file_hdr.btree_order
  lt : ∀ p b ps, s.shape p = some (b, ps) → x ≠ some p → ps.length < s.file_hdr.btree_order
  child : ∀ p ps, s.shape p = some (false, ps) → ∀ pr ∈ ps,
    ∃ b cs, s.shape pr.2.page_no = some (b, cs) ∧ s.file_hdr.btree_order / 2 ≤ cs.length
  fresh : ∀ p, s.fd2pageno ≤ p → s.shape p = none

/-- What the size invariant reads of a state: the order, the key length, the page counter
and the shapes of the pages. -/
def SameFrame (s s' : IxState) : Prop :=
  s'.file_hdr.btree_order = s.file_hdr.btree_order ∧ s'.file_hdr.col_len = s.file_hdr.col_len ∧
    s'.fd2pageno = s.fd2pageno ∧ s'.shape = s.shape

/-- Modelled from the spec: `IxScan::next` (§4.5.4: `next` advances `slot_no`; at
`slot_no == num_key` it moves to `node.next_leaf` with `slot_no = 0`). -/
def IxScan_next (s : IxState) (iid : Iid) : Except IxError Iid := do
  let node ← IxIndexHandle.FetchNode s iid.page_no
  if iid.slot_no + 1 = IxNodeHandle.GetSize node then pure ⟨node.next_leaf, 0⟩
  else pure ⟨iid.page_no, iid.slot_no + 1⟩

/-- The first positions, at most `n` of them, that a forward iteration from `cur` visits
before the cursor equals `stop`. -/
def scan_positions (s : IxState) (stop : Iid) : Nat → Iid → Except IxError (List Iid)
  | 0, _ => .ok []
  | n + 1, cur =>
    if cur = stop then .ok []
    else do
      let next ← IxScan_next s cur
      let rest ← scan_positions s stop n next
      pure (cur :: rest)

/-- The key in the slot an `Iid` points at. -/
def key_at (s : IxState) (iid : Iid) : Except IxError Key := do
  let node ← IxIndexHandle.FetchNode s iid.page_no
  pure (IxNodeHandle.get_key node iid.slot_no.toNat)

/-- The pairs met on the leaf list from the leaf `page_no` on, following `next_leaf` up to
and including `file_hdr.last_leaf`. -/
def leaf_pairs_from (s : IxState) : Nat → Int → Except IxError (List (Key × Rid))
  | 0, _ => .error .outOfFuel
  | fuel + 1, page_no => do
    let node ← IxIndexHandle.FetchNode s page_no
    if page_no = s.file_hdr.last_leaf then pure node.pairs
    else do
      let rest ← leaf_pairs_from s fuel node.next_leaf
      pure (node.pairs ++ rest)

/-- The sequence of `(key, rid)` pairs read along the leaf list, from `first_leaf` to
`last_leaf`. -/
def leaf_pairs (s : IxState) (fuel : Nat) : Except IxError (List (Key × Rid)) :=
  leaf_pairs_from s fuel s.file_hdr.first_leaf

/-- A 4-byte key holding `n` as a big-endian `int32` (§8, concrete scenarios). -/
def be32 (n : Nat) : Key := [n / 16777216 % 256, n / 65536 % 256, n / 256 % 256, n % 256]

/-- The call `insert_entry(n, Rid{n, 0})` on 4-byte keys. -/
def ins (n : Nat) : IxOp := .insert (be32 n) ⟨n, 0⟩

/-- The call `delete_entry(n)` on 4-byte keys. -/
def del (n : Nat) : IxOp := .delete (be32 n)

/-- The tree of order 3 after the keys 1, 2, 3 have been inserted into the empty single-leaf
tree. -/
def tree_1_2_3 : IxState :=
  match run_ops 8 (single_leaf 4 3 []) [ins 1, ins 2, ins 3] with
  | .ok s => s
  | .error _ => single_leaf 4 3 []

/-! ## Replacers (`lru_replacer.cpp`, `clock_replacer.cpp`)

The class declarations of the two replacers are not part of the sources at hand; the fields
below are the members the method bodies use.  The mutex of a replacer serialises its methods
and does not appear. -/

/-- The members of an `LRUReplacer`: `max_size_`, the list `LRUlist_` (front first) and the
keys of the map `LRUhash_` (an `std::unordered_map` holds a key at most once; the list
iterators it maps to are never read). -/
structure LRUReplacer where
  max_size_ : Nat
  LRUlist_ : List Int
  LRUhash_ : List Int
deriving DecidableEq, Repr

namespace LRUReplacer

/-- `LRUReplacer::LRUReplacer(num_pages)`. -/
def new (num_pages : Nat) : LRUReplacer :=
  { max_size_ := num_pages, LRUlist_ := [], LRUhash_ := [] }

/-- `std::unordered_map::insert` on the key set: a key that is present stays as it is. -/
def hash_insert (h : List Int) (frame_id : Int) : List Int :=
  if frame_id ∈ h then h else frame_id :: h

/-- `LRUReplacer::Victim`: `none` stands for the result `false`, `some f` for `true` with
`*frame_id = f`. -/
def Victim (r : LRUReplacer) : Option Int × LRUReplacer :=
  match r.LRUlist_ with
  | [] => (none, r)
  | front :: rest => (some front, { r with LRUlist_ := rest, LRUhash_ := r.LRUhash_.erase front })

/-- `LRUReplacer::Pin`: the loop erases the first list entry equal to `frame_id`. -/
def Pin (r : LRUReplacer) (frame_id : Int) : LRUReplacer :=
  { r with LRUlist_ := r.LRUlist_.erase frame_id, LRUhash_ := r.LRUhash_.erase frame_id }

/-- `LRUReplacer::Unpin`. -/
def Unpin (r : LRUReplacer) (frame_id : Int) : LRUReplacer :=
  if r.LRUlist_.length + 1 > r.max_size_ ∨ r.LRUhash_.length + 1 > r.max_size_ then r
  else { r with LRUlist_ := r.LRUlist_ ++ [frame_id], LRUhash_ := hash_insert r.LRUhash_ frame_id }

/-- `LRUReplacer::Size`, a subtraction of `size_t` values (64 bits). -/
def Size (r : LRUReplacer) : Nat :=
  (r.max_size_ + 2 ^ 64 - max r.LRUlist_.length r.LRUhash_.length % 2 ^ 64) % 2 ^ 64

end LRUReplacer

/-- A call of one of the three state-changing methods of a replacer. -/
inductive ReplacerOp where
  | victim
  | pin (frame_id : Int)
  | unpin (frame_id : Int)
deriving DecidableEq, Repr

/-- What is known of the frames from the calls made so far: the frames that are eligible
for eviction (unpinned, and neither pinned nor returned by `victim` since), the time of the
latest `unpin` of each frame, and the time now (the number of calls of `unpin` so far). -/
structure LRUHistory where
  eligible : Finset Int
  latest_unpin : Int → Nat
  now : Nat

/-- Before the first call. -/
def LRUHistory.empty : LRUHistory :=
  { eligible := ∅, latest_unpin := fun _ => 0, now := 0 }

/-- One call on an `LRUReplacer`, with the history kept beside it.  The call is refused
(`none`) when it is an `unpin` of a frame that is eligible already, or an `unpin` that would
make more than `max_size_` frames eligible. -/
def LRU_step (rh : LRUReplacer × LRUHistory) : ReplacerOp → Option (LRUReplacer × LRUHistory)
  | .victim =>
    match rh.1.Victim with
    | (none, r) => some (r, rh.2)
    | (some f, r) => some (r, { rh.2 with eligible := rh.2.eligible.erase f })
  | .pin f => some (rh.1.Pin f, { rh.2 with eligible := rh.2.eligible.erase f })
  | .unpin f =>
    if f ∈ rh.2.eligible ∨ rh.1.max_size_ < rh.2.eligible.card + 1 then none
    else some (rh.1.Unpin f,
      { eligible := insert f rh.2.eligible,
        latest_unpin := fun g => if g = f then rh.2.now else rh.2.latest_unpin g,
        now := rh.2.now + 1 })

/-- The calls `ops`, first call first, from the state `rh` on. -/
def LRU_run_from : LRUReplacer × LRUHistory → List ReplacerOp → Option (LRUReplacer × LRUHistory)
  | rh, [] => some rh
  | rh, op :: ops => (LRU_step rh op).bind (fun rh' => LRU_run_from rh' ops)

/-- A sequence of calls on a new `LRUReplacer` of `max_size` frames in which every `unpin` is
of a frame that is not eligible and keeps the eligible frames within `max_size`. -/
def LRU_run (max_size : Nat) (ops : List ReplacerOp) : Option (LRUReplacer × LRUHistory) :=
  LRU_run_from (LRUReplacer.new max_size, LRUHistory.empty) ops

/-- The three states of a slot of the clock. -/
inductive Status where
  | EMPTY_OR_PINNED
  | UNTOUCHED
  | ACCESSED
deriving DecidableEq, Repr

/-- The members of a `ClockReplacer`: the vector `circular_`, `hand_` and `capacity_`.  A
frame id that the source uses as an index is a natural number here; a read outside the
vector gives `EMPTY_OR_PINNED` and a write outside it writes nothing. -/
structure ClockReplacer where
  circular_ : List Status
  hand_ : Nat
  capacity_ : Nat
deriving DecidableEq, Repr

/-- The test `status != Status::EMPTY_OR_PINNED`. -/
def Status.in_use (st : Status) : Bool := st != .EMPTY_OR_PINNED

namespace ClockReplacer

/-- `ClockReplacer::ClockReplacer(num_pages)`. -/
def new (num_pages : Nat) : ClockReplacer :=
  { circular_ := List.replicate num_pages .EMPTY_OR_PINNED, hand_ := 0, capacity_ := num_pages }

/-- The element `circular_[i]`. -/
def slot (r : ClockReplacer) (i : Nat) : Status := r.circular_.getD i .EMPTY_OR_PINNED

/-- `ClockReplacer::Size`: the number of slots that are not `EMPTY_OR_PINNED`. -/
def Size (r : ClockReplacer) : Nat :=
  r.circular_.countP Status.in_use

/-- The `while(true)` loop of `ClockReplacer::Victim`, one iteration per unit of fuel. -/
def Victim_loop : Nat → ClockReplacer → Except IxError (Option Nat × ClockReplacer)
  | 0, _ => .error .outOfFuel
  | fuel + 1, r =>
    match r.slot r.hand_ with
    | .ACCESSED =>
      Victim_loop fuel { r with circular_ := r.circular_.set r.hand_ .UNTOUCHED,
                                hand_ := (r.hand_ + 1) % r.capacity_ }
    | .UNTOUCHED =>
      .ok (some r.hand_, { r with circular_ := r.circular_.set r.hand_ .EMPTY_OR_PINNED,
                                  hand_ := (r.hand_ + 1) % r.capacity_ })
    | .EMPTY_OR_PINNED =>
      Victim_loop fuel { r with hand_ := (r.hand_ + 1) % r.capacity_ }

/-- `ClockReplacer::Victim`: `none` stands for the result `false` (with `*frame_id = -1`),
`some f` for `true` with `*frame_id = f`. -/
def Victim (fuel : Nat) (r : ClockReplacer) : Except IxError (Option Nat × ClockReplacer) :=
  if r.Size = 0 then .ok (none, r) else Victim_loop fuel r

/-- `ClockReplacer::Pin`. -/
def Pin (r : ClockReplacer) (frame_id : Nat) : ClockReplacer :=
  if r.slot frame_id ≠ .ACCESSED then { r with circular_ := r.circular_.set frame_id .EMPTY_OR_PINNED }
  else r

/-- `ClockReplacer::Unpin`. -/
def Unpin (r : ClockReplacer) (frame_id : Nat) : ClockReplacer :=
  if r.slot frame_id = .EMPTY_OR_PINNED then { r with circular_ := r.circular_.set frame_id .ACCESSED }
  else r

end ClockReplacer

/-- What ties the members of an `LRUReplacer` to the history of the calls: the list holds the
eligible frames, each once, in the order of their latest `unpin`, and the keys of the map are
frames of the list. -/
structure LRUInv (rh : LRUReplacer × LRUHistory) : Prop where
  nodup : rh.1.LRUlist_.Nodup
  mem : ∀ g, g ∈ rh.1.LRUlist_ ↔ g ∈ rh.2.eligible
  order : rh.1.LRUlist_.Pairwise (fun a b => rh.2.latest_unpin a < rh.2.latest_unpin b)
  past : ∀ g ∈ rh.2.eligible, rh.2.latest_unpin g < rh.2.now
  hash_nodup : rh.1.LRUhash_.Nodup
  hash_sub : ∀ g ∈ rh.1.LRUhash_, g ∈ rh.1.LRUlist_

/-! ## Record manager (`rm_file_handle.cpp`, `rm_scan.cpp`)

As for the index, a page handle of the source is a view of a buffer-pool frame and is the
page number here; the class `Bitmap`, the class `RmPageHandle`, the headers and the constants
of the record manager are not part of the sources at hand and follow the specification. -/

/-- Modelled from the spec: the constant `RM_NO_PAGE`, the "none" page number of the record
manager (§3 and §4.4 use `INVALID_PAGE_ID` for it; the sources compare with `-1`). -/
def RM_NO_PAGE : Int := -1

/-- Modelled from the spec: the constant `RM_FIRST_RECORD_PAGE` (§6: page 0 is the file
header, pages 1 .. `num_pages - 1` are record pages). -/
def RM_FIRST_RECORD_PAGE : Int := 1

/-- Modelled from the spec: the constant `PAGE_SIZE` of `defs.h`, in bytes. -/
def PAGE_SIZE : Nat := 4096

/-- Modelled from the spec: `sizeof(RmPageHdr)`, two 4-byte integers (§3). -/
def sizeof_RmPageHdr : Nat := 8

/-- Modelled from the spec: the record file header of §3,
`{record_size, num_records_per_page, num_pages, first_free_page_no, bitmap_size}`. -/
structure RmFileHdr where
  record_size : Nat
  num_records_per_page : Nat
  num_pages : Int
  first_free_page_no : Int
  bitmap_size : Nat
deriving DecidableEq, Repr

/-- Modelled from the spec: the record page header of §3, `{next_free_page_no, num_records}`. -/
structure RmPageHdr where
  next_free_page_no : Int
  num_records : Int
deriving DecidableEq, Repr

/-- Modelled from the spec: the record page of §3, `page_hdr · bitmap[bitmap_size] · slots`.
The bitmap is the list of the `8 * bitmap_size` bits of its bytes, and `slots i` is the `i`-th
record-sized region behind the bitmap, as far as the page reaches (`RmFileHdr.slot_in_page`). -/
structure RmPage where
  page_hdr : RmPageHdr
  bitmap : List Bool
  slots : Nat → List Nat

/-- The state an `RmFileHandle` works on: its `file_hdr_`, the page counter
`fd2pageno_[fd_]` of the disk manager, and the record pages of the file as the buffer pool
presents them (`none`: no such page). -/
structure RmState where
  file_hdr : RmFileHdr
  fd2pageno : Int
  pages : Int → Option RmPage

/-- How an operation of the record manager can stop without a result: a page that does not
exist was fetched, `PageNotExistError` was thrown, a bit outside the bitmap or a slot outside
the page was written or read (the source computes an address and uses it), or the bound on
loop iterations ran out. -/
inductive RmError where
  | ioError
  | pageNotExist
  | outOfLayout
  | outOfFuel
deriving DecidableEq, Repr

/-- The `i`-th record-sized region behind the bitmap lies inside the page. -/
def RmFileHdr.slot_in_page (hdr : RmFileHdr) (i : Nat) : Prop :=
  sizeof_RmPageHdr + hdr.bitmap_size + (i + 1) * hdr.record_size ≤ PAGE_SIZE

instance (hdr : RmFileHdr) (i : Nat) : Decidable (hdr.slot_in_page i) := by
  unfold RmFileHdr.slot_in_page
  infer_instance

/-- A zero-filled record page, as the buffer pool hands out for a new page. -/
def RmPage.zero (hdr : RmFileHdr) : RmPage :=
  { page_hdr := { next_free_page_no := 0, num_records := 0 },
    bitmap := List.replicate (8 * hdr.bitmap_size) false,
    slots := fun _ => List.replicate hdr.record_size 0 }

/-- The call `std::copy(buf, buf + record_size, get_slot(slot))` on a page. -/
def RmPage.copy_to_slot (pg : RmPage) (slot : Nat) (buf : List Nat) (record_size : Nat) : RmPage :=
  { pg with slots := fun i => if i = slot then memcpy (pg.slots slot) buf record_size else pg.slots i }

/-- Write the page with number `p`. -/
def RmState.setPage (s : RmState) (p : Int) (pg : RmPage) : RmState :=
  { s with pages := fun q => if q = p then some pg else s.pages q }

/-- Update the page behind the handle `p` in place. -/
def RmState.modify (s : RmState) (p : Int) (f : RmPage → RmPage) : RmState :=
  match s.pages p with
  | some pg => s.setPage p (f pg)
  | none => s

namespace Bitmap

/-- Modelled from the spec: `Bitmap::is_set`, bit `pos` of the bitmap (§3: slot `i` is occupied
iff bit `i` of the bitmap is set). -/
def is_set (bm : List Bool) (pos : Nat) : Bool := bm.getD pos false

/-- Modelled from the spec: `Bitmap::next_bit(bit, bm, max_n, curr)`, the first position
after `curr` and below `max_n` whose bit equals `bit`, and `max_n` when there is none
(§4.4: the search of `bitmap[slot_no+1 .. num_records_per_page]` for the next set bit). -/
def next_bit (bit : Bool) (bm : List Bool) (max_n : Nat) (curr : Int) : Nat :=
  ((List.range max_n).find? (fun (i : Nat) => decide (curr < (i : Int)) && (is_set bm i == bit))).getD max_n

/-- Modelled from the spec: `Bitmap::first_bit(bit, bm, max_n)`, the first position below
`max_n` whose bit equals `bit`, and `max_n` when there is none (§4.4: find the first clear
bitmap bit). -/
def first_bit (bit : Bool) (bm : List Bool) (max_n : Nat) : Nat := next_bit bit bm max_n (-1)

/-- Modelled from the spec: `Bitmap::set`, which sets bit `pos` (§4.4). -/
def set (bm : List Bool) (pos : Nat) : List Bool := bm.set pos true

/-- Modelled from the spec: `Bitmap::reset`, which clears bit `pos` (§4.4). -/
def reset (bm : List Bool) (pos : Nat) : List Bool := bm.set pos false

/-- Modelled from the spec: the number of set bits of the bitmap (§3, `popcount(bitmap)`). -/
def popcount (bm : List Bool) : Nat := bm.countP id

end Bitmap

namespace RmFileHandle

/-- Modelled from the spec: `RmPageHandle::get_slot(slot_no)`, the address of slot `slot_no`
(§3); the result is the index of the region when it lies inside the page. -/
def get_slot (hdr : RmFileHdr) (slot_no : Int) : Except RmError Nat :=
  if 0 ≤ slot_no ∧ hdr.slot_in_page slot_no.toNat then .ok slot_no.toNat else .error .outOfLayout

/-- A bit position the source hands to `Bitmap::set` or `Bitmap::reset`: the index of the bit
when it lies inside the bitmap of the page. -/
def bit_in_bitmap (pg : RmPage) (pos : Int) : Except RmError Nat :=
  if 0 ≤ pos ∧ pos.toNat < pg.bitmap.length then .ok pos.toNat else .error .outOfLayout

/-- `RmFileHandle::fetch_page_handle`: `FetchPage` comes first, the test of `page_no` after. -/
def fetch_page_handle (s : RmState) (page_no : Int) : Except RmError RmPage :=
  match s.pages page_no with
  | none => .error .ioError
  | some pg => if page_no < s.file_hdr.num_pages then .ok pg else .error .pageNotExist

/-- `RmFileHandle::create_new_page_handle`: `NewPage` takes the next page number of the disk
manager and hands out a zero-filled page.  The result is the page number of the handle and
the page as the handle sees it. -/
def create_new_page_handle (s : RmState) : Int × RmPage × RmState :=
  let page_no := s.fd2pageno
  let s := { s with fd2pageno := s.fd2pageno + 1 }
  let rph : RmPage :=
    { RmPage.zero s.file_hdr with page_hdr := { next_free_page_no := -1, num_records := 0 } }
  let s := s.setPage page_no rph
  let s := { s with file_hdr := { s.file_hdr with num_pages := s.file_hdr.num_pages + 1 } }
  let s := { s with file_hdr := { s.file_hdr with first_free_page_no := page_no } }
  (page_no, rph, s)

/-- `RmFileHandle::create_page_handle`. -/
def create_page_handle (s : RmState) : Except RmError (Int × RmPage × RmState) :=
  if s.file_hdr.first_free_page_no = -1 then .ok (create_new_page_handle s)
  else do
    let rph ← fetch_page_handle s s.file_hdr.first_free_page_no
    pure (s.file_hdr.first_free_page_no, rph, s)

/-- `RmFileHandle::release_page_handle`: the `std::swap` of the two page numbers. -/
def release_page_handle (s : RmState) (page_no : Int) : Except RmError RmState := do
  let pg ← fetch_page_handle s page_no
  let s1 := s.modify page_no
    (fun pg => { pg with page_hdr := { pg.page_hdr with next_free_page_no := s.file_hdr.first_free_page_no } })
  pure { s1 with file_hdr := { s1.file_hdr with first_free_page_no := pg.page_hdr.next_free_page_no } }

/-- `RmFileHandle::get_record`: the `record_size` bytes of the record. -/
def get_record (s : RmState) (rid : Rid) : Except RmError (List Nat) := do
  let rph ← fetch_page_handle s rid.page_no
  let slot ← get_slot s.file_hdr rid.slot_no
  pure (memcpy (List.replicate s.file_hdr.record_size 0) (rph.slots slot) s.file_hdr.record_size)

/-- `RmFileHandle::insert_record(buf)`. -/
def insert_record (s : RmState) (buf : List Nat) : Except RmError (Rid × RmState) := do
  let (page_no, rph, s) ← create_page_handle s
  let bit := Bitmap.first_bit false rph.bitmap s.file_hdr.num_records_per_page
  let pos ← bit_in_bitmap rph bit
  let s := s.modify page_no (fun pg => { pg with bitmap := Bitmap.set pg.bitmap pos })
  let slot ← get_slot s.file_hdr bit
  let s := s.modify page_no (fun pg => pg.copy_to_slot slot buf s.file_hdr.record_size)
  let s := s.modify page_no
    (fun pg => { pg with page_hdr := { pg.page_hdr with num_records := pg.page_hdr.num_records + 1 } })
  let s := (if rph.page_hdr.num_records + 1 ≥ s.file_hdr.num_records_per_page then
      { s with file_hdr := { s.file_hdr with first_free_page_no := rph.page_hdr.next_free_page_no } }
    else s)
  pure (⟨page_no, bit⟩, s)

/-- `RmFileHandle::delete_record`. -/
def delete_record (s : RmState) (rid : Rid) : Except RmError RmState := do
  let rph ← fetch_page_handle s rid.page_no
  let s := s.modify rid.page_no
    (fun pg => { pg with page_hdr := { pg.page_hdr with num_records := pg.page_hdr.num_records - 1 } })
  let s ← (if rph.page_hdr.num_records - 1 < s.file_hdr.num_records_per_page then
      release_page_handle s rid.page_no
    else pure s)
  let pos ← bit_in_bitmap rph rid.slot_no
  pure (s.modify rid.page_no (fun pg => { pg with bitmap := Bitmap.reset pg.bitmap pos }))

/-- `RmFileHandle::update_record`. -/
def update_record (s : RmState) (rid : Rid) (buf : List Nat) : Except RmError RmState := do
  let _ ← fetch_page_handle s rid.page_no
  let slot ← get_slot s.file_hdr rid.slot_no
  pure (s.modify rid.page_no (fun pg => pg.copy_to_slot slot buf s.file_hdr.record_size))

end RmFileHandle

/-- A record file with no record page: the header page only, so `num_pages = 1`, and an empty
free list. -/
def empty_record_file (record_size num_records_per_page bitmap_size : Nat) : RmState :=
  { file_hdr := { record_size := record_size, num_records_per_page := num_records_per_page,
                  num_pages := 1, first_free_page_no := RM_NO_PAGE, bitmap_size := bitmap_size },
    fd2pageno := 1,
    pages := fun _ => none }

/-- A call of `insert_record`, `delete_record` or `update_record`. -/
inductive RmOp where
  | insert (buf : List Nat)
  | delete (rid : Rid)
  | update (rid : Rid) (buf : List Nat)
deriving DecidableEq, Repr

/-- The bit of the slot `rid` is set: the rid holds a record. -/
def RmState.holds_record (s : RmState) (rid : Rid) : Bool :=
  match s.pages rid.page_no with
  | some pg => decide (0 ≤ rid.slot_no) && decide (rid.slot_no < s.file_hdr.num_records_per_page) &&
      Bitmap.is_set pg.bitmap rid.slot_no.toNat
  | none => false

/-- A sequence of calls, first call first.  The result lists the rids the calls of
`insert_record` returned, and tells whether every `delete_record` and `update_record` was
of a rid that held a record at the time. -/
def rm_run : RmState → List RmOp → Except RmError (RmState × List Rid × Bool)
  | s, [] => .ok (s, [], true)
  | s, .insert buf :: ops => do
    let (rid, s1) ← RmFileHandle.insert_record s buf
    let (s2, rids, valid) ← rm_run s1 ops
    pure (s2, rid :: rids, valid)
  | s, .delete rid :: ops => do
    let s1 ← RmFileHandle.delete_record s rid
    let (s2, rids, valid) ← rm_run s1 ops
    pure (s2, rids, s.holds_record rid && valid)
  | s, .update rid buf :: ops => do
    let s1 ← RmFileHandle.update_record s rid buf
    let (s2, rids, valid) ← rm_run s1 ops
    pure (s2, rids, s.holds_record rid && valid)

/-- The walk from `file_hdr.first_free_page_no` along `next_free_page_no`: the pages visited
before `RM_NO_PAGE` is reached, `none` when the walk has not ended after `fuel` pages or
meets a page that does not exist. -/
def free_list_from (s : RmState) : Nat → Int → Option (List Int)
  | 0, _ => none
  | fuel + 1, page_no =>
    if page_no = RM_NO_PAGE then some []
    else match s.pages page_no with
      | none => none
      | some pg => (free_list_from s fuel pg.page_hdr.next_free_page_no).map (fun l => page_no :: l)

/-- The free list of the file. -/
def free_list (s : RmState) (fuel : Nat) : Option (List Int) :=
  free_list_from s fuel s.file_hdr.first_free_page_no

/-- What the checks on a record page read: `num_records`, the number of set bits of the
bitmap, and `next_free_page_no`. -/
def RmState.page_counts (s : RmState) (page_no : Int) : Option (Int × Nat × Int) :=
  (s.pages page_no).map
    (fun pg => (pg.page_hdr.num_records, Bitmap.popcount pg.bitmap, pg.page_hdr.next_free_page_no))

namespace RmScan

/-- `RmScan::next` on the member `rid_`, one iteration of its loop per unit of fuel; the
result is the new `rid_`. -/
def next (s : RmState) : Nat → Rid → Except RmError Rid
  | 0, _ => .error .outOfFuel
  | fuel + 1, rid_ =>
    if rid_.page_no < s.file_hdr.num_pages then do
      let rph ← RmFileHandle.fetch_page_handle s rid_.page_no
      let slot_no := Bitmap.next_bit true rph.bitmap s.file_hdr.num_records_per_page rid_.slot_no
      if slot_no < s.file_hdr.num_records_per_page then pure ⟨rid_.page_no, slot_no⟩
      else next s fuel ⟨rid_.page_no + 1, -1⟩
    else pure ⟨RM_NO_PAGE, -1⟩

/-- `RmScan::RmScan`: the `rid_` of the new scan. -/
def new (s : RmState) (fuel : Nat) : Except RmError Rid :=
  next s fuel ⟨RM_FIRST_RECORD_PAGE, -1⟩

/-- `RmScan::is_end`. -/
def is_end (rid_ : Rid) : Bool :=
  if rid_.page_no ≠ RM_NO_PAGE then false else true

end RmScan

/-- The loop of a user of a scan, `for (; !scan.is_end(); scan.next()) use(scan.rid())`, from
the position `rid_` on: the rids read, and `rid_` at the end.  The loop runs at most `steps`
times. -/
def scan_loop (s : RmState) (fuel : Nat) : Nat → Rid → Except RmError (List Rid × Rid)
  | 0, _ => .error .outOfFuel
  | steps + 1, rid_ =>
    if RmScan.is_end rid_ then .ok ([], rid_)
    else do
      let next ← RmScan.next s fuel rid_
      let (rest, last) ← scan_loop s fuel steps next
      pure (rid_ :: rest, last)

/-- A scan of the whole file: construct the scan and call `next` until `is_end`. -/
def scan_records (s : RmState) (fuel : Nat) : Except RmError (List Rid × Rid) := do
  let rid_ ← RmScan.new s fuel
  scan_loop s fuel fuel rid_

/-- The rids of the set bits after position `curr` on one page, in the order of the slots. -/
def page_rids (max_n : Nat) (page_no : Int) (bm : List Bool) (curr : Int) : List Rid :=
  ((List.range max_n).filter
    (fun (i : Nat) => decide (curr < (i : Int)) && (Bitmap.is_set bm i == true))).map
    (fun (i : Nat) => (⟨page_no, (i : Int)⟩ : Rid))

/-- The rids of the set bits after position `(page_no, curr)` on the `k` pages from `page_no`
on, page by page. -/
def rids_after (s : RmState) : Nat → Int → Int → List Rid
  | 0, _, _ => []
  | k + 1, page_no, curr =>
    (match s.pages page_no with
      | some pg => page_rids s.file_hdr.num_records_per_page page_no pg.bitmap curr
      | none => []) ++ rids_after s k (page_no + 1) (-1)

/-- The order of rids: by page number, then by slot number. -/
def Rid.lt (a b : Rid) : Prop :=
  a.page_no < b.page_no ∨ (a.page_no = b.page_no ∧ a.slot_no < b.slot_no)

/-- A record file with one record page, page 1, which holds records in its slots 0 and 2. -/
def two_record_file : RmState :=
  { file_hdr := { record_size := 4, num_records_per_page := 3, num_pages := 2,
                  first_free_page_no := 1, bitmap_size := 1 },
    fd2pageno := 2,
    pages := fun q =>
      if q = 1 then
        some { page_hdr := { next_free_page_no := -1, num_records := 2 },
               bitmap := [true, false, true, false, false, false, false, false],
               slots := fun i => if i = 0 then be32 10 else if i = 2 then be32 30 else be32 0 }
      else none }

/-! ## Disk manager (`disk_manager.cpp`)

The class declaration of `DiskManager` and the exception classes are not part of the
sources at hand; the fields below are the members the method bodies use, and the file system
is what `stat`, `open` and `unlink` show of it. -/

/-- The exceptions the methods of `DiskManager` throw. -/
inductive DiskError where
  | UnixError
  | FileExistsError
  | FileNotFoundError
  | FileNotOpenError
deriving DecidableEq, Repr

/-- Modelled from the spec: the error kinds of the disk manager (§6, §7). -/
inductive ErrorKind where
  | IOError
  | FileExists
  | FileNotFound
  | FileInUse
deriving DecidableEq, Repr

/-- Modelled from the spec: the kind of an exception (§7: `IOError` is the kind of the
disk manager's system calls, which throw `UnixError`; §6: `FileInUse` is also known as
`FileNotOpen` when the file is referenced by its descriptor). -/
def DiskError.kind : DiskError → ErrorKind
  | .UnixError => .IOError
  | .FileExistsError => .FileExists
  | .FileNotFoundError => .FileNotFound
  | .FileNotOpenError => .FileInUse

/-- The members `path2fd_` and `fd2path_` of a `DiskManager`, with the regular files of the
file system (the paths for which `stat` reports a regular file) and the descriptor the next
call of `open` returns (`-1` when it fails). -/
structure DiskManager where
  path2fd_ : List (String × Int)
  fd2path_ : List (Int × String)
  regular_files : List String
  next_fd : Int
deriving DecidableEq, Repr

namespace DiskManager

/-- `DiskManager::is_file`. -/
def is_file (dm : DiskManager) (path : String) : Bool := dm.regular_files.contains path

/-- `DiskManager::destroy_file`; `unlink` of a regular file succeeds. -/
def destroy_file (dm : DiskManager) (path : String) : Except DiskError DiskManager :=
  if (dm.path2fd_.lookup path).isSome then .error .UnixError
  else if is_file dm path = false then .error .FileNotFoundError
  else .ok { dm with regular_files := dm.regular_files.erase path }

/-- `DiskManager::open_file`: the descriptor and the state after the call. -/
def open_file (dm : DiskManager) (path : String) : Except DiskError (Int × DiskManager) :=
  if (dm.path2fd_.lookup path).isSome then .error .UnixError
  else if is_file dm path = false then .error .FileNotFoundError
  else
    let fd := dm.next_fd
    if fd = -1 then .error .UnixError
    else .ok (fd, { dm with path2fd_ := (path, fd) :: dm.path2fd_,
                            fd2path_ := (fd, path) :: dm.fd2path_,
                            next_fd := dm.next_fd + 1 })

end DiskManager

/-! ## The calls of the buffer pool manager -/

/-- A call of `FetchPage`, `NewPage` or `UnpinPage` on a page of the file. -/
inductive BpmCall where
  | FetchPage (page_no : Int)
  | NewPage (page_no : Int)
  | UnpinPage (page_no : Int)
deriving DecidableEq, Repr

/-- Modelled from the spec: the net change of the pin count of a page over a sequence of calls
(§4.3: `fetch_page` and `new_page` return a pinned frame, `unpin_page` takes one pin off). -/
def pin_delta (page_no : Int) : List BpmCall → Int
  | [] => 0
  | .FetchPage p :: calls => (if p = page_no then 1 else 0) + pin_delta page_no calls
  | .NewPage p :: calls => (if p = page_no then 1 else 0) + pin_delta page_no calls
  | .UnpinPage p :: calls => (if p = page_no then -1 else 0) + pin_delta page_no calls

/-- The buffer pool calls of a completed `RmFileHandle::get_record`: the `FetchPage` of
`fetch_page_handle`; the body has no `UnpinPage`. -/
def RmFileHandle.get_record_calls (s : RmState) (rid : Rid) : Except RmError (List BpmCall) := do
  let _ ← RmFileHandle.get_record s rid
  pure [.FetchPage rid.page_no]

/-- The buffer pool calls of `IxIndexHandle::FindLeafPage`, from the fetch of `page_no` on:
every node on the path is fetched and unpinned, the leaf is unpinned after the loop. -/
def IxIndexHandle.FindLeafPage_calls (s : IxState) (key : Key) :
    Nat → Int → Except IxError (Int × List BpmCall)
  | 0, _ => .error .outOfFuel
  | fuel + 1, page_no => do
    let node ← IxIndexHandle.FetchNode s page_no
    if node.is_leaf then pure (page_no, [.FetchPage page_no, .UnpinPage page_no])
    else do
      let (leaf, calls) ← IxIndexHandle.FindLeafPage_calls s key fuel
        (IxNodeHandle.InternalLookup s.file_hdr.col_len node key)
      pure (leaf, .FetchPage page_no :: .UnpinPage page_no :: calls)

/-- The buffer pool calls of a completed `IxIndexHandle::GetValue`: those of `FindLeafPage`,
then the `UnpinPage` of the leaf at its end. -/
def IxIndexHandle.GetValue_calls (s : IxState) (key : Key) (fuel : Nat) :
    Except IxError (List BpmCall) := do
  let (leaf, calls) ← IxIndexHandle.FindLeafPage_calls s key fuel s.file_hdr.root_page
  pure (calls ++ [.UnpinPage leaf])

/-- A disk manager with the regular file `a.db`, which is open with descriptor 3. -/
def disk_with_open_file : DiskManager :=
  { path2fd_ := [("a.db", 3)], fd2path_ := [(3, "a.db")], regular_files := ["a.db"], next_fd := 4 }

/-- The tree of order 4 after the keys 10, 20, 30, 40, 50 have been inserted into the empty
single-leaf tree: the root in page 4 over the leaves `[10, 20]` in page 2 and `[30, 40, 50]`
in page 3. -/
def tree_10_to_50 : IxState :=
  match run_ops 8 (single_leaf 4 4 []) [ins 10, ins 20, ins 30, ins 40, ins 50] with
  | .ok s => s
  | .error _ => single_leaf 4 4 []

/-- The state in which `delete_entry(10)` on `tree_10_to_50` calls `CoalesceOrRedistribute`:
the key is removed from the leaf in page 2 and `maintain_parent` has run. -/
def tree_10_to_50_without_10 : IxState :=
  match IxIndexHandle.maintain_parent 8
      (tree_10_to_50.modify 2 fun n => IxNodeHandle.Remove 4 n (be32 10)) 2 with
  | .ok s => s
  | .error _ => single_leaf 4 4 []

/-- The tree of order 4 after the keys 10, 20, 30, 40 have been inserted into the empty
single-leaf tree: the root in page 4 over the leaves `[10, 20]` in page 2 and `[30, 40]` in
page 3. -/
def tree_10_to_40 : IxState :=
  match run_ops 8 (single_leaf 4 4 []) [ins 10, ins 20, ins 30, ins 40] with
  | .ok s => s
  | .error _ => single_leaf 4 4 []

/-- The state in which `delete_entry(40)` on `tree_10_to_40` calls `CoalesceOrRedistribute`:
the key is removed from the leaf in page 3 and `maintain_parent` has run. -/
def tree_10_to_40_without_40 : IxState :=
  match IxIndexHandle.maintain_parent 8
      (tree_10_to_40.modify 3 fun n => IxNodeHandle.Remove 4 n (be32 40)) 3 with
  | .ok s => s
  | .error _ => single_leaf 4 4 []

/-- Modelled from the spec: the file `single_leaf` with the ends of the leaf list as §3 gives
them, `prev_leaf` of `first_leaf` and `next_leaf` of `last_leaf` being `INVALID_PAGE_ID`. -/
def single_leaf_invalid_ends (col_len btree_order : Nat) (pairs : List (Key × Rid)) : IxState :=
  (single_leaf col_len btree_order pairs).modify init_root_page fun n =>
    { n with prev_leaf := INVALID_PAGE_ID, next_leaf := INVALID_PAGE_ID }

/-- Modelled from the spec: the tree `tree_10_to_40` with the ends of the leaf list as §3 gives
them: `prev_leaf` of the first leaf (page 2) and `next_leaf` of the last leaf (page 3) are
`INVALID_PAGE_ID`. -/
def tree_10_to_40_invalid_ends : IxState :=
  (tree_10_to_40.modify 2 fun n => { n with prev_leaf := INVALID_PAGE_ID }).modify 3 fun n =>
    { n with next_leaf := INVALID_PAGE_ID }

/-! ## Theorems -/

theorem memcmp_self (a : List Nat) (n : Nat) : memcmp a a n = 0 := by
  induction n generalizing a with
  | zero => rfl
  | succ n ih => simp [memcmp, ih]

@[simp] theorem ok_bind {ε α β : Type} (a : α) (f : α → Except ε β) :
    (Except.ok a >>= f) = f a := rfl

@[simp] theorem error_bind {ε α β : Type} (e : ε) (f : α → Except ε β) :
    ((Except.error e : Except ε α) >>= f) = Except.error e := rfl

@[simp] theorem pure_eq_ok {ε α : Type} (a : α) : (pure a : Except ε α) = Except.ok a := rfl

theorem bind_eq_ok {ε α β : Type} {x : Except ε α} {f : α → Except ε β} {b : β} :
    (x >>= f) = Except.ok b ↔ ∃ a, x = Except.ok a ∧ f a = Except.ok b := by
  cases x with
  | error e => simp
  | ok a => simp

theorem FetchNode_eq_ok {s : IxState} {p : Int} {n : IxNode} :
    IxIndexHandle.FetchNode s p = .ok n ↔ s.pages p = some n := by
  unfold IxIndexHandle.FetchNode
  cases h : s.pages p <;> simp

theorem modify_pages_self {s : IxState} {p : Int} {n : IxNode} (f : IxNode → IxNode)
    (h : s.pages p = some n) : (s.modify p f).pages p = some (f n) := by
  simp [IxState.modify, h, IxState.setPage]

@[simp] theorem modify_file_hdr (s : IxState) (p : Int) (f : IxNode → IxNode) :
    (s.modify p f).file_hdr = s.file_hdr := by
  unfold IxState.modify
  split <;> rfl

theorem Remove_single (col_len : Nat) (n : IxNode) (k : Key) (v : Rid) (h : n.pairs = [(k, v)]) :
    IxNodeHandle.Remove col_len n k = { n with pairs := [] } := by
  simp [IxNodeHandle.Remove, IxNodeHandle.lower_bound, h, memcmp_self, IxNodeHandle.GetSize,
    IxNodeHandle.get_key, IxNodeHandle.erase_pair, List.findIdx_cons]

/-! ### Deleting the last key -/

/-- C9: in a tree whose root is a leaf holding exactly the key `k`, `delete_entry(k)` returns
true and leaves `file_hdr.root_page == INVALID_PAGE_ID`. -/
theorem delete_entry_last_key (s : IxState) (r : Int) (root : IxNode) (k : Key) (v : Rid)
    (fuel : Nat)
    (hroot : s.file_hdr.root_page = r) (hpage : s.pages r = some root)
    (hleaf : root.is_leaf = true) (hparent : root.parent = IX_NO_PAGE)
    (hpairs : root.pairs = [(k, v)]) :
    ∃ s', IxIndexHandle.delete_entry s k (fuel + 1) = .ok (true, s') ∧
      s'.file_hdr.root_page = INVALID_PAGE_ID := by
  have hfind : IxIndexHandle.FindLeafPage s k (fuel + 1) = .ok r := by
    simp [IxIndexHandle.FindLeafPage, IxIndexHandle.FindLeafPage_loop, hroot,
      FetchNode_eq_ok.2 hpage, hleaf]
  have hrm := Remove_single s.file_hdr.col_len root k v hpairs
  have hpage' := modify_pages_self (fun n => IxNodeHandle.Remove s.file_hdr.col_len n k) hpage
  simp only [hrm] at hpage'
  have h : IxIndexHandle.delete_entry s k (fuel + 1) = .ok (true,
      { (s.modify r fun n => IxNodeHandle.Remove s.file_hdr.col_len n k) with
        file_hdr := { s.file_hdr with root_page := INVALID_PAGE_ID } }) := by
    unfold IxIndexHandle.delete_entry
    simp [hfind, FetchNode_eq_ok.2 hpage, FetchNode_eq_ok.2 hpage', IxIndexHandle.maintain_parent,
      IxIndexHandle.CoalesceOrRedistribute, IxIndexHandle.AdjustRoot, hparent, hleaf,
      IxNodeHandle.GetSize, hpairs, IxNodeHandle.IsRootPage]
  exact ⟨_, h, rfl⟩

/-- C9 at a concrete tree: the single leaf holding the key 10, order 4. -/
theorem delete_entry_last_key_witness :
    ∃ s', IxIndexHandle.delete_entry (single_leaf 4 4 [(be32 10, ⟨10, 0⟩)]) (be32 10) 1
        = .ok (true, s') ∧ s'.file_hdr.root_page = INVALID_PAGE_ID :=
  delete_entry_last_key (single_leaf 4 4 [(be32 10, ⟨10, 0⟩)]) 2
    { is_leaf := true, parent := IX_NO_PAGE, next_leaf := leaf_header_page,
      prev_leaf := leaf_header_page, next_free_page_no := IX_NO_PAGE,
      pairs := [(be32 10, ⟨10, 0⟩)] }
    (be32 10) ⟨10, 0⟩ 0 rfl rfl rfl rfl rfl

/-! ### The operations at concrete trees (order 4, 4-byte keys) -/

/-- C1 at a failing input: from the empty single-leaf tree of order 4, after inserting
10, 20, 30, 40, 5, 7, 1 the call `insert_entry(2, Rid{2, 0})` returns true, and `get_value(2)`
then finds nothing. -/
theorem insert_then_get_value_misses :
    (do
      let s ← run_ops 8 (single_leaf 4 4 []) [ins 10, ins 20, ins 30, ins 40, ins 5, ins 7, ins 1]
      let (inserted, s) ← IxIndexHandle.insert_entry s (be32 2) ⟨2, 0⟩ 8
      let found ← IxIndexHandle.GetValue s (be32 2) 8
      pure (inserted, found)) = .ok (true, (false, [])) := by
  rfl

/-- C2 at a failing input: after inserting 10, 20, 30, 40, 5, 7 and then 10 again (the call
returns true) the key 10 is met twice on the leaf list. -/
theorem leaf_list_repeats_key :
    (do
      let s ← run_ops 8 (single_leaf 4 4 []) [ins 10, ins 20, ins 30, ins 40, ins 5, ins 7]
      let (inserted, s) ← IxIndexHandle.insert_entry s (be32 10) ⟨10, 0⟩ 8
      let pairs ← leaf_pairs s 8
      pure (inserted, pairs.map Prod.fst))
      = .ok (true, [be32 5, be32 7, be32 10, be32 10, be32 20, be32 30, be32 40]) := by
  rfl

/-- C4 at a failing input: after inserting 10, 20, 30, 40, 5, 7, 1, 2 the root is an internal
node whose `keys[1]` is 10, while its child 1 is the leaf holding the keys 1 and 2. -/
theorem separator_not_subtree_minimum :
    (do
      let s ← run_ops 8 (single_leaf 4 4 [])
        [ins 10, ins 20, ins 30, ins 40, ins 5, ins 7, ins 1, ins 2]
      let root ← IxIndexHandle.FetchNode s s.file_hdr.root_page
      let child ← IxIndexHandle.FetchNode s (IxNodeHandle.ValueAt root 1)
      pure (root.is_leaf, IxNodeHandle.get_key root 1, child.is_leaf, child.pairs.map Prod.fst))
      = .ok (false, be32 10, true, [be32 1, be32 2]) := by
  rfl

/-- C5 at a failing input: after inserting 10, 20, 30, 40, 50, 60, 70, 80, 31, 32 and deleting
80 (a redistribute between internal nodes with the neighbor on the left), child 0 of the
internal node in page 7 is page 9, whose parent field still names page 4. -/
theorem redistribute_leaves_stale_parent :
    (do
      let s ← run_ops 8 (single_leaf 4 4 [])
        [ins 10, ins 20, ins 30, ins 40, ins 50, ins 60, ins 70, ins 80, ins 31, ins 32, del 80]
      let root ← IxIndexHandle.FetchNode s s.file_hdr.root_page
      let node ← IxIndexHandle.FetchNode s (IxNodeHandle.ValueAt root 1)
      let child ← IxIndexHandle.FetchNode s (IxNodeHandle.ValueAt node 0)
      let parent ← IxIndexHandle.FetchNode s child.parent
      pure (IxNodeHandle.ValueAt root 1, node.is_leaf, IxNodeHandle.ValueAt node 0, child.parent,
        parent.pairs.map fun (p : Key × Rid) => p.2.page_no))
      = .ok (7, false, 9, 4, [2, 3]) := by
  rfl

/-- C6 at a failing input: in the tree with the leaves [10, 20] and [30, 40], the first three
positions that the iteration from `lower_bound(20)` visits before it reaches `upper_bound(20)`
hold 20, 30 and 40. -/
theorem scan_of_last_key_in_leaf_runs_on :
    (do
      let s ← run_ops 8 (single_leaf 4 4 []) [ins 10, ins 20, ins 30, ins 40]
      let lower ← IxIndexHandle.lower_bound s (be32 20) 8
      let upper ← IxIndexHandle.upper_bound s (be32 20) 8
      let visited ← scan_positions s upper 3 lower
      let keys ← visited.mapM (key_at s)
      pure (lower, upper, visited, keys))
      = .ok (⟨2, 1⟩, ⟨3, 2⟩, [⟨2, 1⟩, ⟨3, 0⟩, ⟨3, 1⟩], [be32 20, be32 30, be32 40]) := by
  rfl

/-- C7 at a failing input: after inserting 10, 20, 30, 40, 5, 7, 1, 2 the key 1 is stored with
the rid {1, 0} in the leaf that is child 1 of the root; `insert_entry(1, Rid{99, 0})` returns
true and the leaf list then holds the key 1 twice. -/
theorem duplicate_key_accepted :
    (do
      let s ← run_ops 8 (single_leaf 4 4 [])
        [ins 10, ins 20, ins 30, ins 40, ins 5, ins 7, ins 1, ins 2]
      let root ← IxIndexHandle.FetchNode s s.file_hdr.root_page
      let leaf ← IxIndexHandle.FetchNode s (IxNodeHandle.ValueAt root 1)
      let (inserted, s) ← IxIndexHandle.insert_entry s (be32 1) ⟨99, 0⟩ 8
      let pairs ← leaf_pairs s 8
      pure (leaf.pairs, inserted, pairs.map Prod.fst))
      = .ok ([(be32 1, ⟨1, 0⟩), (be32 2, ⟨2, 0⟩)], true,
          [be32 1, be32 2, be32 1, be32 5, be32 7, be32 10, be32 20, be32 30, be32 40]) := by
  rfl

/-- C8 at a failing input: in the tree reached by inserting 10, 20, 30, 40, 5, the calls
`insert_entry(7, Rid{7, 0})` and `delete_entry(7)` both return true, and the leaf list,
which held the keys 5, 10, 20, 30, 40 before, holds 5, 30, 40 after. -/
theorem insert_then_delete_loses_keys :
    (do
      let s ← run_ops 8 (single_leaf 4 4 []) [ins 10, ins 20, ins 30, ins 40, ins 5]
      let before ← leaf_pairs s 8
      let (inserted, s) ← IxIndexHandle.insert_entry s (be32 7) ⟨7, 0⟩ 8
      let (deleted, s) ← IxIndexHandle.delete_entry s (be32 7) 8
      let after ← leaf_pairs s 8
      pure (before.map Prod.fst, inserted, deleted, after.map Prod.fst))
      = .ok ([be32 5, be32 10, be32 20, be32 30, be32 40], true, true,
          [be32 5, be32 30, be32 40]) := by
  rfl

/-- C10 at a failing input: after `delete_entry(10)` on the single leaf holding 10 the tree is
empty (`root_page == INVALID_PAGE_ID`), and `insert_entry(20, Rid{20, 0})` ends in the fetch
of a page that does not exist instead of returning. -/
theorem insert_into_empty_tree_fails :
    (do
      let (_, s) ← IxIndexHandle.delete_entry (single_leaf 4 4 [(be32 10, ⟨10, 0⟩)]) (be32 10) 8
      match IxIndexHandle.insert_entry s (be32 20) ⟨20, 0⟩ 8 with
      | .ok (inserted, _) => pure (s.file_hdr.root_page, some inserted, none)
      | .error e => pure (s.file_hdr.root_page, none, some e))
      = (.ok (INVALID_PAGE_ID, none, some IxError.ioError) :
          Except IxError (Int × Option Bool × Option IxError)) := by
  rfl

/-! ### The sizes of the nodes on the insert path -/

open IxIndexHandle

theorem modify_pages (s : IxState) (p q : Int) (f : IxNode → IxNode) :
    (s.modify p f).pages q = if q = p then (s.pages p).map f else s.pages q := by
  unfold IxState.modify
  cases h : s.pages p with
  | none => by_cases hq : q = p <;> simp [hq, h]
  | some n => by_cases hq : q = p <;> simp [hq, h, IxState.setPage]

@[simp] theorem modify_fd2pageno (s : IxState) (p : Int) (f : IxNode → IxNode) :
    (s.modify p f).fd2pageno = s.fd2pageno := by
  unfold IxState.modify
  split <;> rfl

theorem shape_modify (s : IxState) (p q : Int) (f : IxNode → IxNode) :
    (s.modify p f).shape q =
      if q = p then (s.pages p).map (fun n => ((f n).is_leaf, (f n).pairs)) else s.shape q := by
  unfold IxState.shape
  rw [modify_pages]
  split <;> simp [Option.map_map, Function.comp_def]

theorem shape_modify_ptr (s : IxState) (p : Int) (f : IxNode → IxNode)
    (hf : ∀ n, (f n).is_leaf = n.is_leaf ∧ (f n).pairs = n.pairs) :
    (s.modify p f).shape = s.shape := by
  funext q
  rw [shape_modify]
  split
  · next h => subst h; simp [IxState.shape, hf]
  · rfl

theorem shape_eq_some {s : IxState} {p : Int} {b : Bool} {ps : List (Key × Rid)} :
    s.shape p = some (b, ps) ↔ ∃ n, s.pages p = some n ∧ n.is_leaf = b ∧ n.pairs = ps := by
  unfold IxState.shape
  cases h : s.pages p <;> simp

theorem shape_eq_none {s : IxState} {p : Int} : s.shape p = none ↔ s.pages p = none := by
  unfold IxState.shape
  cases h : s.pages p <;> simp

theorem SizeInv.congr {s s' : IxState} {x : Option Int} (h : SizeInv s x)
    (hord : s'.file_hdr.btree_order = s.file_hdr.btree_order)
    (hfd : s'.fd2pageno = s.fd2pageno) (hsh : s'.shape = s.shape) : SizeInv s' x := by
  constructor
  · rw [hord]; exact h.order
  · rw [hord, hsh]; exact h.le
  · rw [hord, hsh]; exact h.lt
  · rw [hord, hsh]; exact h.child
  · rw [hfd, hsh]; exact h.fresh

/-- Replacing the shape of an existing page. -/
theorem SizeInv.update {s s' : IxState} {x x' : Option Int} (h : SizeInv s x)
    (p : Int) (b b' : Bool) (ps ps' : List (Key × Rid))
    (hord : s'.file_hdr.btree_order = s.file_hdr.btree_order)
    (hfd : s'.fd2pageno = s.fd2pageno)
    (hp : s.shape p = some (b, ps))
    (hsh : ∀ q, s'.shape q = if q = p then some (b', ps') else s.shape q)
    (hx : ∀ q, q ≠ p → x = some q → x' = some q)
    (hle : ps'.length ≤ s.file_hdr.btree_order)
    (hlt : x' ≠ some p → ps'.length < s.file_hdr.btree_order)
    (hsz : s.file_hdr.btree_order / 2 ≤ ps'.length ∨ ps.length ≤ ps'.length)
    (hch : b' = false → ∀ pr ∈ ps', ∃ c cs, s.shape pr.2.page_no = some (c, cs) ∧
      s.file_hdr.btree_order / 2 ≤ cs.length) : SizeInv s' x' := by
  have key : ∀ q c cs, s.shape q = some (c, cs) → s.file_hdr.btree_order / 2 ≤ cs.length →
      ∃ c' cs', s'.shape q = some (c', cs') ∧ s.file_hdr.btree_order / 2 ≤ cs'.length := by
    intro q c cs hq hcs
    rw [hsh]
    by_cases hqp : q = p
    · subst hqp
      rw [hp] at hq
      simp only [Option.some.injEq, Prod.mk.injEq] at hq
      refine ⟨b', ps', by simp, ?_⟩
      rcases hsz with h1 | h1
      · exact h1
      · rw [← hq.2] at hcs; omega
    · exact ⟨c, cs, by simp [hqp, hq], hcs⟩
  constructor
  · rw [hord]; exact h.order
  · intro q c cs hq
    rw [hord]
    rw [hsh] at hq
    by_cases hqp : q = p
    · simp [hqp] at hq; rw [← hq.2]; exact hle
    · simp [hqp] at hq; exact h.le q c cs hq
  · intro q c cs hq hxq
    rw [hord]
    rw [hsh] at hq
    by_cases hqp : q = p
    · subst hqp; simp at hq; rw [← hq.2]; exact hlt hxq
    · simp [hqp] at hq
      exact h.lt q c cs hq (fun hx' => hxq (hx q hqp hx'))
  · intro q cs hq pr hpr
    rw [hord]
    rw [hsh] at hq
    by_cases hqp : q = p
    · subst hqp
      simp at hq
      obtain ⟨c, cs', h1, h2⟩ := hch hq.1 pr (hq.2 ▸ hpr)
      exact key _ c cs' h1 h2
    · simp [hqp] at hq
      obtain ⟨c, cs', h1, h2⟩ := h.child q cs hq pr hpr
      exact key _ c cs' h1 h2
  · intro q hq
    rw [hfd] at hq
    rw [hsh]
    have hne : q ≠ p := by
      intro hqp; subst hqp
      rw [h.fresh q hq] at hp; simp at hp
    simp [hne, h.fresh q hq]

/-- Giving the page at the page counter a shape and advancing the counter. -/
theorem SizeInv.create {s s' : IxState} {x : Option Int} (h : SizeInv s x)
    (b' : Bool) (ps' : List (Key × Rid))
    (hord : s'.file_hdr.btree_order = s.file_hdr.btree_order)
    (hfd : s'.fd2pageno = s.fd2pageno + 1)
    (hsh : ∀ q, s'.shape q = if q = s.fd2pageno then some (b', ps') else s.shape q)
    (hlt : ps'.length < s.file_hdr.btree_order)
    (hch : b' = false → ∀ pr ∈ ps', ∃ c cs, s.shape pr.2.page_no = some (c, cs) ∧
      s.file_hdr.btree_order / 2 ≤ cs.length) : SizeInv s' x := by
  have hnone : s.shape s.fd2pageno = none := h.fresh _ (le_refl _)
  have key : ∀ q c cs, s.shape q = some (c, cs) → s'.shape q = some (c, cs) := by
    intro q c cs hq
    rw [hsh]
    have : q ≠ s.fd2pageno := by
      intro hqp; rw [hqp, hnone] at hq; simp at hq
    simp [this, hq]
  constructor
  · rw [hord]; exact h.order
  · intro q c cs hq
    rw [hord]
    rw [hsh] at hq
    by_cases hqp : q = s.fd2pageno
    · simp [hqp] at hq; rw [← hq.2]; omega
    · simp [hqp] at hq; exact h.le q c cs hq
  · intro q c cs hq hxq
    rw [hord]
    rw [hsh] at hq
    by_cases hqp : q = s.fd2pageno
    · simp [hqp] at hq; rw [← hq.2]; exact hlt
    · simp [hqp] at hq; exact h.lt q c cs hq hxq
  · intro q cs hq pr hpr
    rw [hord]
    rw [hsh] at hq
    by_cases hqp : q = s.fd2pageno
    · simp [hqp] at hq
      obtain ⟨c, cs', h1, h2⟩ := hch hq.1 pr (hq.2 ▸ hpr)
      exact ⟨c, cs', key _ c cs' h1, h2⟩
    · simp [hqp] at hq
      obtain ⟨c, cs', h1, h2⟩ := h.child q cs hq pr hpr
      exact ⟨c, cs', key _ c cs' h1, h2⟩
  · intro q hq
    rw [hfd] at hq
    rw [hsh]
    have hne : q ≠ s.fd2pageno := by omega
    simp [hne]
    exact h.fresh q (by omega)

theorem maintain_child_frame {s s' : IxState} {node : Int} {i : Nat}
    (h : maintain_child s node i = .ok s') : SameFrame s s' := by
  unfold maintain_child at h
  cases hn : FetchNode s node with
  | error e => simp [hn] at h
  | ok nd =>
    simp only [hn, ok_bind] at h
    by_cases hl : nd.is_leaf = true
    · simp [hl] at h
      subst h
      exact ⟨rfl, rfl, rfl, rfl⟩
    · simp [hl] at h
      cases hc : FetchNode s (IxNodeHandle.ValueAt nd i) with
      | error e => simp [hc] at h
      | ok c =>
        simp [hc] at h
        subst h
        exact ⟨by simp, by simp, by simp, shape_modify_ptr _ _ _ (fun _ => ⟨rfl, rfl⟩)⟩

theorem SameFrame.trans {s₁ s₂ s₃ : IxState} (h₁ : SameFrame s₁ s₂) (h₂ : SameFrame s₂ s₃) :
    SameFrame s₁ s₃ :=
  ⟨h₂.1.trans h₁.1, h₂.2.1.trans h₁.2.1, h₂.2.2.1.trans h₁.2.2.1, h₂.2.2.2.trans h₁.2.2.2⟩

theorem maintain_child_range_frame {node : Int} {cnt : Nat} :
    ∀ {start : Nat} {s s' : IxState}, maintain_child_range node start cnt s = .ok s' →
      SameFrame s s' := by
  induction cnt with
  | zero =>
    intro start s s' h
    simp [maintain_child_range] at h
    subst h
    exact ⟨rfl, rfl, rfl, rfl⟩
  | succ n ih =>
    intro start s s' h
    simp only [maintain_child_range] at h
    obtain ⟨s₁, h₁, h₂⟩ := bind_eq_ok.1 h
    exact (maintain_child_frame h₁).trans (ih h₂)

theorem FetchNode_shape {s : IxState} {p : Int} {n : IxNode} {b : Bool} {ps : List (Key × Rid)}
    (h : FetchNode s p = .ok n) (hs : s.shape p = some (b, ps)) : n.is_leaf = b ∧ n.pairs = ps := by
  rw [FetchNode_eq_ok] at h
  simp [IxState.shape, h] at hs
  exact hs

theorem Split_shape {s s' : IxState} {node new_node : Int} {nd : IxNode}
    (hnode : s.pages node = some nd) (hfresh : s.pages s.fd2pageno = none)
    (h : Split s node = .ok (new_node, s')) :
    new_node = s.fd2pageno ∧ s'.file_hdr.btree_order = s.file_hdr.btree_order ∧
    s'.file_hdr.col_len = s.file_hdr.col_len ∧
    s'.fd2pageno = s.fd2pageno + 1 ∧
    ∀ q, s'.shape q =
      if q = s.fd2pageno then
        some (nd.is_leaf, (nd.pairs.drop ((s.file_hdr.btree_order + 1) / 2)).take
          (s.file_hdr.btree_order / 2))
      else if q = node then some (nd.is_leaf, nd.pairs.take ((s.file_hdr.btree_order + 1) / 2))
      else s.shape q := by
  have hne : node ≠ s.fd2pageno := by
    intro he; rw [he, hfresh] at hnode; simp at hnode
  unfold Split at h
  simp only [CreateNode] at h
  -- the state after the new page has been initialised
  generalize hs2 : (IxState.modify _ s.fd2pageno _) = s2 at h
  have h2hdr : s2.file_hdr.btree_order = s.file_hdr.btree_order ∧
      s2.file_hdr.col_len = s.file_hdr.col_len ∧ s2.fd2pageno = s.fd2pageno + 1 := by
    subst hs2; simp
  have h2sh : ∀ q, s2.shape q = if q = s.fd2pageno then some (false, []) else s.shape q := by
    intro q; subst hs2
    rw [shape_modify]
    by_cases hq : q = s.fd2pageno
    · simp [hq, IxNode.zero]
    · simp [hq, IxState.shape]
  have h2node : s2.pages node = some nd := by
    subst hs2
    rw [modify_pages]
    simp [hne, hnode]
  rw [FetchNode_eq_ok.2 h2node] at h
  simp only [ok_bind] at h
  -- the leaf links
  obtain ⟨s3, h3, h⟩ := bind_eq_ok.1 h
  have h3hdr : s3.file_hdr.btree_order = s.file_hdr.btree_order ∧
      s3.file_hdr.col_len = s.file_hdr.col_len ∧ s3.fd2pageno = s.fd2pageno + 1 := by
    by_cases hl : nd.is_leaf = true
    · simp only [hl, if_true] at h3
      obtain ⟨_, _, h3⟩ := bind_eq_ok.1 h3
      simp at h3; subst h3; simpa using h2hdr
    · simp [hl] at h3; subst h3; exact h2hdr
  have h3sh : ∀ q, s3.shape q = if q = s.fd2pageno then some (nd.is_leaf, []) else s.shape q := by
    intro q
    by_cases hl : nd.is_leaf = true
    · simp only [hl, if_true] at h3
      obtain ⟨_, _, h3⟩ := bind_eq_ok.1 h3
      simp at h3; subst h3
      simp only [shape_modify_ptr, and_self, implies_true]
      rw [shape_modify]
      by_cases hq : q = s.fd2pageno
      · have := h2sh s.fd2pageno
        simp [IxState.shape] at this
        obtain ⟨n, hn, hn1, hn2⟩ := this
        simp [hq, hn, hn2, hl]
      · simp [hq, h2sh q]
    · simp [hl] at h3; subst h3
      rw [h2sh q]
      simp at hl
      simp [hl]
  clear h3 h2sh h2node h2hdr hs2
  obtain ⟨nd3, hnd3, h⟩ := bind_eq_ok.1 h
  have hnd3s : nd3.is_leaf = nd.is_leaf ∧ nd3.pairs = nd.pairs :=
    FetchNode_shape hnd3 (by rw [h3sh]; simp [hne, IxState.shape, hnode])
  generalize hs5 : (IxState.modify (IxState.modify s3 _ _) node _) = s5 at h
  have h5hdr : s5.file_hdr.btree_order = s.file_hdr.btree_order ∧
      s5.file_hdr.col_len = s.file_hdr.col_len ∧ s5.fd2pageno = s.fd2pageno + 1 := by
    subst hs5; simpa using h3hdr
  have h5sh : ∀ q, s5.shape q =
      if q = s.fd2pageno then
        some (nd.is_leaf, (nd.pairs.drop ((s.file_hdr.btree_order + 1) / 2)).take
          (s.file_hdr.btree_order / 2))
      else if q = node then some (nd.is_leaf, nd.pairs.take ((s.file_hdr.btree_order + 1) / 2))
      else s.shape q := by
    intro q; subst hs5
    rw [shape_modify]
    by_cases hq : q = node
    · subst hq
      rw [modify_pages]
      simp only [hne, if_false]
      have := h3sh q
      simp only [hne, if_false] at this
      simp [IxState.shape, hnode] at this
      obtain ⟨n, hn, hn1, hn2⟩ := this
      simp [hn, IxNodeHandle.SetSize, hn1, hn2, IxNodeHandle.GetMaxSize, h3hdr.1]
    · simp only [hq, if_false]
      rw [shape_modify]
      by_cases hq' : q = s.fd2pageno
      · have := h3sh s.fd2pageno
        simp [IxState.shape] at this
        obtain ⟨n, hn, hn1, hn2⟩ := this
        simp [hq', hn, IxNodeHandle.insert_pairs, IxNodeHandle.pairs_from, hn1, hn2, hnd3s.2,
          IxNodeHandle.GetMaxSize, h3hdr.1]
      · simp [hq', h3sh q]
  clear hnd3 hnd3s h3sh h3hdr hs5
  obtain ⟨nd5, _, h⟩ := bind_eq_ok.1 h
  obtain ⟨nw, _, h⟩ := bind_eq_ok.1 h
  obtain ⟨s6, h6, h⟩ := bind_eq_ok.1 h
  simp at h
  obtain ⟨rfl, rfl⟩ := h
  have hfr : SameFrame s5 s6 := by
    by_cases hl : nd5.is_leaf = true
    · simp [hl] at h6; subst h6; exact ⟨rfl, rfl, rfl, rfl⟩
    · simp [hl] at h6; exact maintain_child_range_frame h6
  refine ⟨rfl, ?_, ?_, ?_, ?_⟩
  · rw [hfr.1]; exact h5hdr.1
  · rw [hfr.2.1]; exact h5hdr.2.1
  · rw [hfr.2.2.1]; exact h5hdr.2.2
  · intro q; rw [hfr.2.2.2]; exact h5sh q

theorem Insert_is_leaf (c : Nat) (n : IxNode) (k : Key) (v : Rid) :
    (IxNodeHandle.Insert c n k v).is_leaf = n.is_leaf := by
  unfold IxNodeHandle.Insert
  simp only
  split <;> rfl

theorem Insert_length_ge (c : Nat) (n : IxNode) (k : Key) (v : Rid) :
    n.pairs.length ≤ (IxNodeHandle.Insert c n k v).pairs.length := by
  unfold IxNodeHandle.Insert
  simp only
  split
  · exact le_refl _
  · simp only [IxNodeHandle.insert_pairs, List.length_append, List.length_take, List.length_drop,
      List.length_singleton]
    omega

theorem Insert_length_le (c : Nat) (n : IxNode) (k : Key) (v : Rid) :
    (IxNodeHandle.Insert c n k v).pairs.length ≤ n.pairs.length + 1 := by
  unfold IxNodeHandle.Insert
  simp only
  split
  · omega
  · simp only [IxNodeHandle.insert_pairs, List.length_append, List.length_take, List.length_drop,
      List.length_singleton]
    omega

theorem Insert_mem (c : Nat) (n : IxNode) (k : Key) (v : Rid) (pr : Key × Rid)
    (h : pr ∈ (IxNodeHandle.Insert c n k v).pairs) : pr ∈ n.pairs ∨ pr = (k, v) := by
  unfold IxNodeHandle.Insert at h
  simp only at h
  split at h
  · exact Or.inl h
  · simp only [IxNodeHandle.insert_pairs, List.mem_append, List.mem_singleton] at h
    rcases h with (h | h) | h
    · exact Or.inl (List.mem_of_mem_take h)
    · exact Or.inr h
    · exact Or.inl (List.mem_of_mem_drop h)

/-- `Split` of the one page that holds `btree_order` pairs restores the size invariant, and
both halves hold at least `btree_order / 2` pairs. -/
theorem Split_inv {s s' : IxState} {node new_node : Int} {b : Bool} {ps : List (Key × Rid)}
    (hinv : SizeInv s (some node)) (hnode : s.shape node = some (b, ps))
    (hfull : ps.length = s.file_hdr.btree_order)
    (h : Split s node = .ok (new_node, s')) :
    SizeInv s' none ∧ s'.file_hdr.btree_order = s.file_hdr.btree_order ∧
    s'.file_hdr.col_len = s.file_hdr.col_len ∧
    (∃ c cs, s'.shape node = some (c, cs) ∧ s.file_hdr.btree_order / 2 ≤ cs.length) ∧
    (∃ c cs, s'.shape new_node = some (c, cs) ∧ s.file_hdr.btree_order / 2 ≤ cs.length) := by
  obtain ⟨nd, hnd, hb, hps⟩ := shape_eq_some.1 hnode
  have hfresh : s.pages s.fd2pageno = none := shape_eq_none.1 (hinv.fresh _ (le_refl _))
  obtain ⟨hnew, hord, hcol, hfd, hsh⟩ := Split_shape hnd hfresh h
  have hne : node ≠ s.fd2pageno := by
    intro he; rw [he, hfresh] at hnd; simp at hnd
  have ho := hinv.order
  subst hb hps
  -- the state with the new page only
  let s1 : IxState :=
    { file_hdr := s.file_hdr, fd2pageno := s.fd2pageno + 1,
      pages := fun q =>
        if q = s.fd2pageno then
          some { IxNode.zero with
            is_leaf := nd.is_leaf,
            pairs := (nd.pairs.drop ((s.file_hdr.btree_order + 1) / 2)).take
              (s.file_hdr.btree_order / 2) }
        else s.pages q }
  have h1sh : ∀ q, s1.shape q =
      if q = s.fd2pageno then
        some (nd.is_leaf, (nd.pairs.drop ((s.file_hdr.btree_order + 1) / 2)).take
          (s.file_hdr.btree_order / 2))
      else s.shape q := by
    intro q
    by_cases hq : q = s.fd2pageno <;> simp [s1, IxState.shape, hq]
  have hmlen : ((nd.pairs.drop ((s.file_hdr.btree_order + 1) / 2)).take
      (s.file_hdr.btree_order / 2)).length = s.file_hdr.btree_order / 2 := by
    simp only [List.length_take, List.length_drop, hfull]
    omega
  have htlen : (nd.pairs.take ((s.file_hdr.btree_order + 1) / 2)).length =
      (s.file_hdr.btree_order + 1) / 2 := by
    simp only [List.length_take, hfull]
    omega
  have hinv1 : SizeInv s1 (some node) := by
    refine hinv.create nd.is_leaf _ rfl rfl h1sh (by rw [hmlen]; omega) ?_
    intro hl pr hpr
    exact hinv.child node nd.pairs (by rw [hnode, hl]) pr
      (List.mem_of_mem_drop (List.mem_of_mem_take hpr))
  have h1node : s1.shape node = some (nd.is_leaf, nd.pairs) := by
    rw [h1sh]; simp [hne, hnode]
  have hinv' : SizeInv s' none := by
    refine hinv1.update node nd.is_leaf nd.is_leaf nd.pairs
      (nd.pairs.take ((s.file_hdr.btree_order + 1) / 2)) hord hfd h1node ?_ ?_ ?_ ?_ ?_ ?_
    · intro q
      rw [hsh, h1sh]
      by_cases hq : q = s.fd2pageno
      · simp [hq, hne.symm]
      · simp [hq]
    · intro q hq hx
      simp at hx
      exact absurd hx.symm hq
    · rw [htlen]; show _ ≤ s.file_hdr.btree_order; omega
    · intro _; rw [htlen]; show _ < s.file_hdr.btree_order; omega
    · left; rw [htlen]; show s.file_hdr.btree_order / 2 ≤ _; omega
    · intro hl pr hpr
      obtain ⟨c, cs, h1, h2⟩ := hinv.child node nd.pairs (by rw [hnode, hl]) pr
        (List.mem_of_mem_take hpr)
      refine ⟨c, cs, ?_, h2⟩
      rw [h1sh]
      have : pr.2.page_no ≠ s.fd2pageno := by
        intro he
        rw [he, hinv.fresh _ (le_refl _)] at h1
        simp at h1
      simp [this, h1]
  refine ⟨hinv', hord, hcol,
    ⟨nd.is_leaf, nd.pairs.take ((s.file_hdr.btree_order + 1) / 2), ?_, ?_⟩,
    ⟨nd.is_leaf, (nd.pairs.drop ((s.file_hdr.btree_order + 1) / 2)).take
      (s.file_hdr.btree_order / 2), ?_, ?_⟩⟩
  · rw [hsh]; simp [hne]
  · rw [htlen]; omega
  · rw [hsh, hnew]; simp
  · rw [hmlen]

theorem SizeInv.tighten {s : IxState} {p : Int} (h : SizeInv s (some p))
    (hp : ∀ b ps, s.shape p = some (b, ps) → ps.length ≠ s.file_hdr.btree_order) :
    SizeInv s none := by
  refine ⟨h.order, h.le, ?_, h.child, h.fresh⟩
  intro q b ps hq _
  by_cases hqp : q = p
  · subst hqp
    have := h.le q b ps hq
    have := hp b ps hq
    omega
  · exact h.lt q b ps hq (by simpa using fun he => hqp he.symm)

theorem Insert_empty (c : Nat) (n : IxNode) (k : Key) (v : Rid) (h : n.pairs = []) :
    (IxNodeHandle.Insert c n k v).pairs = [(k, v)] := by
  simp [IxNodeHandle.Insert, IxNodeHandle.lower_bound, h, IxNodeHandle.GetSize,
    IxNodeHandle.insert_pairs]

/-- The state in which `InsertIntoParent` has found or made the father. -/
theorem InsertIntoParent_father {s sF : IxState} {old_node father : Int} (old : IxNode)
    (hinv : SizeInv s none)
    (hold : ∃ c cs, s.shape old_node = some (c, cs) ∧ s.file_hdr.btree_order / 2 ≤ cs.length)
    (h : (if IxNodeHandle.IsRootPage old then do
        let (new_root, s) := CreateNode s
        let s := s.modify new_root fun n =>
          { n with is_leaf := false, next_free_page_no := IX_NO_PAGE, next_leaf := IX_NO_PAGE,
                   prev_leaf := IX_NO_PAGE, pairs := [], parent := IX_NO_PAGE }
        let s := { s with file_hdr := { s.file_hdr with root_page := new_root } }
        let s := s.modify new_root fun n =>
          IxNodeHandle.Insert s.file_hdr.col_len n (IxNodeHandle.get_key old 0) ⟨old_node, -1⟩
        let s := s.modify old_node fun n => { n with parent := new_root }
        pure (new_root, s)
      else do
        let _ ← FetchNode s old.parent
        pure (old.parent, s) : Except IxError (Int × IxState)) = .ok (father, sF)) :
    SizeInv sF none ∧ sF.file_hdr.btree_order = s.file_hdr.btree_order ∧
    sF.file_hdr.col_len = s.file_hdr.col_len ∧
    (∃ c cs, sF.shape father = some (c, cs)) ∧
    (∀ q c cs, s.shape q = some (c, cs) → sF.shape q = some (c, cs)) := by
  by_cases hr : IxNodeHandle.IsRootPage old = true
  · simp only [hr, if_true, CreateNode, pure_eq_ok, Except.ok.injEq, Prod.mk.injEq] at h
    obtain ⟨hf, hs⟩ := h
    subst hf
    have hfresh := hinv.fresh _ (le_refl s.fd2pageno)
    have hsh : ∀ q, sF.shape q =
        if q = s.fd2pageno then some (false, [(IxNodeHandle.get_key old 0, ⟨old_node, -1⟩)])
        else s.shape q := by
      intro q
      subst hs
      simp only [shape_modify_ptr, and_self, implies_true]
      rw [shape_modify]
      by_cases hq : q = s.fd2pageno
      · simp only [hq, if_true]
        rw [modify_pages]
        simp [CreateNode, Insert_is_leaf, Insert_empty]
      · simp only [hq, if_false]
        unfold IxState.shape
        rw [modify_pages]
        simp [CreateNode, hq]
    have hord : sF.file_hdr.btree_order = s.file_hdr.btree_order := by subst hs; simp
    have hcol : sF.file_hdr.col_len = s.file_hdr.col_len := by subst hs; simp
    have hfd : sF.fd2pageno = s.fd2pageno + 1 := by subst hs; simp [CreateNode]
    refine ⟨?_, hord, hcol,
      ⟨false, [(IxNodeHandle.get_key old 0, ⟨old_node, -1⟩)], by rw [hsh]; simp⟩, ?_⟩
    · refine hinv.create false _ hord hfd hsh ?_ ?_
      · have := hinv.order
        simp only [List.length_singleton]
        omega
      · intro _ pr hpr
        simp only [List.mem_singleton] at hpr
        subst hpr
        exact hold
    · intro q c cs hq
      rw [hsh]
      have : q ≠ s.fd2pageno := by
        intro he; rw [he, hfresh] at hq; simp at hq
      simp [this, hq]
  · simp only [hr, if_false] at h
    obtain ⟨fa, hfa, h⟩ := bind_eq_ok.1 h
    simp only [pure_eq_ok, Except.ok.injEq, Prod.mk.injEq] at h
    obtain ⟨hf, hs⟩ := h
    subst hf hs
    rw [FetchNode_eq_ok] at hfa
    exact ⟨hinv, rfl, rfl, ⟨fa.is_leaf, fa.pairs, by simp [IxState.shape, hfa]⟩,
      fun _ _ _ hq => hq⟩

theorem InsertIntoParent_inv : ∀ (fuel : Nat) {s s' : IxState} {old_node new_node : Int}
    {key : Key}, SizeInv s none →
    (∃ c cs, s.shape old_node = some (c, cs) ∧ s.file_hdr.btree_order / 2 ≤ cs.length) →
    (∃ c cs, s.shape new_node = some (c, cs) ∧ s.file_hdr.btree_order / 2 ≤ cs.length) →
    InsertIntoParent fuel s old_node key new_node = .ok s' →
    SizeInv s' none ∧ s'.file_hdr.btree_order = s.file_hdr.btree_order ∧
      s'.file_hdr.col_len = s.file_hdr.col_len := by
  intro fuel
  induction fuel with
  | zero => intro s s' o n k _ _ _ h; simp [InsertIntoParent] at h
  | succ fuel ih =>
    intro s s' old_node new_node key hinv hold hnew h
    unfold InsertIntoParent at h
    obtain ⟨old, _, h⟩ := bind_eq_ok.1 h
    obtain ⟨⟨father, sF⟩, hF, h⟩ := bind_eq_ok.1 h
    obtain ⟨hinvF, hordF, hcolF, ⟨fb, fps, hfa⟩, hkeep⟩ := InsertIntoParent_father old hinv hold hF
    obtain ⟨fa, hfa1, hfa2, hfa3⟩ := shape_eq_some.1 hfa
    subst hfa2 hfa3
    simp only at h
    -- the state after the pair has gone into the father
    generalize hsb : (IxState.modify (IxState.modify sF father _) new_node _) = sb at h
    have hbhdr : sb.file_hdr.btree_order = s.file_hdr.btree_order ∧
        sb.file_hdr.col_len = s.file_hdr.col_len ∧ sb.fd2pageno = sF.fd2pageno := by
      subst hsb; simp [hordF, hcolF]
    have hbsh : ∀ q, sb.shape q =
        if q = father then
          some (fa.is_leaf, (IxNodeHandle.Insert sF.file_hdr.col_len fa key ⟨new_node, -1⟩).pairs)
        else sF.shape q := by
      intro q
      subst hsb
      simp only [shape_modify_ptr, and_self, implies_true]
      rw [shape_modify]
      by_cases hq : q = father
      · simp [hq, hfa1, Insert_is_leaf]
      · simp [hq]
    have hinvb : SizeInv sb (some father) := by
      refine hinvF.update father fa.is_leaf fa.is_leaf fa.pairs _ (hbhdr.1.trans hordF.symm)
        hbhdr.2.2 hfa hbsh ?_ ?_ ?_ ?_ ?_
      · intro q _ hx; simp at hx
      · have := hinvF.lt father _ _ hfa (by simp)
        have := Insert_length_le sF.file_hdr.col_len fa key ⟨new_node, -1⟩
        omega
      · intro hx; simp at hx
      · right; exact Insert_length_ge _ _ _ _
      · intro hl pr hpr
        rcases Insert_mem _ _ _ _ _ hpr with hm | hm
        · exact hinvF.child father fa.pairs (by rw [hfa, hl]) pr hm
        · subst hm
          obtain ⟨c, cs, h1, h2⟩ := hnew
          exact ⟨c, cs, hkeep _ _ _ h1, by rw [hordF]; exact h2⟩
    obtain ⟨fa', hfa', h⟩ := bind_eq_ok.1 h
    have hfas' : sb.shape father = some (fa'.is_leaf, fa'.pairs) := by
      rw [FetchNode_eq_ok] at hfa'
      simp [IxState.shape, hfa']
    by_cases hsz : IxNodeHandle.GetSize fa' = IxNodeHandle.GetMaxSize sb.file_hdr
    · simp only [hsz, if_true] at h
      obtain ⟨⟨nn, s2⟩, hsp, h⟩ := bind_eq_ok.1 h
      simp only at h
      obtain ⟨nnd, _, h⟩ := bind_eq_ok.1 h
      obtain ⟨hinv2, hord2, hcol2, ho2, hn2⟩ := Split_inv hinvb hfas' hsz hsp
      obtain ⟨hinv3, hord3, hcol3⟩ := ih hinv2 (by rw [hord2]; exact ho2) (by rw [hord2]; exact hn2) h
      exact ⟨hinv3, by rw [hord3, hord2, hbhdr.1], by rw [hcol3, hcol2, hbhdr.2.1]⟩
    · simp only [hsz, if_false, pure_eq_ok, Except.ok.injEq] at h
      subst h
      refine ⟨hinvb.tighten ?_, hbhdr.1, hbhdr.2.1⟩
      intro b ps hbp
      rw [hfas'] at hbp
      simp only [Option.some.injEq, Prod.mk.injEq] at hbp
      rw [← hbp.2]
      exact hsz

theorem FindLeafPage_loop_leaf {s : IxState} {key : Key} :
    ∀ (fuel : Nat) {p q : Int}, FindLeafPage_loop s key fuel p = .ok q →
      ∃ n, s.pages q = some n ∧ n.is_leaf = true := by
  intro fuel
  induction fuel with
  | zero => intro p q h; simp [FindLeafPage_loop] at h
  | succ fuel ih =>
    intro p q h
    unfold FindLeafPage_loop at h
    obtain ⟨node, hnode, h⟩ := bind_eq_ok.1 h
    by_cases hl : node.is_leaf = true
    · simp only [hl, if_true, pure_eq_ok, Except.ok.injEq] at h
      subst h
      exact ⟨node, FetchNode_eq_ok.1 hnode, hl⟩
    · simp only [hl, if_false] at h
      exact ih h

/-- `insert_entry` keeps the size invariant. -/
theorem insert_entry_inv {s s' : IxState} {key : Key} {value : Rid} {fuel : Nat} {r : Bool}
    (hinv : SizeInv s none) (h : insert_entry s key value fuel = .ok (r, s')) :
    SizeInv s' none ∧ s'.file_hdr.btree_order = s.file_hdr.btree_order := by
  unfold insert_entry at h
  obtain ⟨leaf_node, hfind, h⟩ := bind_eq_ok.1 h
  obtain ⟨lf, hlf, hleaf⟩ := FindLeafPage_loop_leaf fuel hfind
  rw [FetchNode_eq_ok.2 hlf] at h
  simp only [ok_bind] at h
  have hlfs : s.shape leaf_node = some (true, lf.pairs) := by
    simp [IxState.shape, hlf, hleaf]
  generalize hs1 : (IxState.modify s leaf_node _) = s1 at h
  have h1hdr : s1.file_hdr = s.file_hdr ∧ s1.fd2pageno = s.fd2pageno := by
    subst hs1; simp
  have h1sh : ∀ q, s1.shape q =
      if q = leaf_node then
        some (true, (IxNodeHandle.Insert s.file_hdr.col_len lf key value).pairs)
      else s.shape q := by
    intro q
    subst hs1
    rw [shape_modify]
    by_cases hq : q = leaf_node
    · simp [hq, hlf, Insert_is_leaf, hleaf]
    · simp [hq]
  have hinv1 : SizeInv s1 (some leaf_node) := by
    refine hinv.update leaf_node true true lf.pairs _ (by rw [h1hdr.1]) h1hdr.2 hlfs h1sh
      ?_ ?_ ?_ ?_ ?_
    · intro q _ hx; simp at hx
    · have := hinv.lt leaf_node _ _ hlfs (by simp)
      have := Insert_length_le s.file_hdr.col_len lf key value
      omega
    · intro hx; simp at hx
    · right; exact Insert_length_ge _ _ _ _
    · intro hl; simp at hl
  obtain ⟨lf', hlf', h⟩ := bind_eq_ok.1 h
  have hlfs' : s1.shape leaf_node = some (lf'.is_leaf, lf'.pairs) := by
    rw [FetchNode_eq_ok] at hlf'
    simp [IxState.shape, hlf']
  have hord1 : s1.file_hdr.btree_order = s.file_hdr.btree_order := by rw [h1hdr.1]
  by_cases hsame : IxNodeHandle.GetSize lf = IxNodeHandle.GetSize lf'
  · simp only [hsame, if_true, pure_eq_ok, Except.ok.injEq, Prod.mk.injEq] at h
    obtain ⟨_, hs⟩ := h
    subst hs
    refine ⟨hinv1.tighten ?_, hord1⟩
    intro b ps hbp
    rw [hlfs'] at hbp
    simp only [Option.some.injEq, Prod.mk.injEq] at hbp
    rw [← hbp.2]
    have := hinv.lt leaf_node _ _ hlfs (by simp)
    simp only [IxNodeHandle.GetSize] at hsame
    omega
  · simp only [hsame, if_false] at h
    by_cases hfull : IxNodeHandle.GetSize lf' = IxNodeHandle.GetMaxSize s1.file_hdr
    · simp only [hfull, if_true] at h
      obtain ⟨⟨new_node, s2⟩, hsp, h⟩ := bind_eq_ok.1 h
      simp only at h
      obtain ⟨nw, _, h⟩ := bind_eq_ok.1 h
      obtain ⟨s3, hip, h⟩ := bind_eq_ok.1 h
      obtain ⟨hinv2, hord2, hcol2, ho2, hn2⟩ := Split_inv hinv1 hlfs' hfull hsp
      obtain ⟨hinv3, hord3, hcol3⟩ := InsertIntoParent_inv fuel hinv2
        (by rw [hord2]; exact ho2) (by rw [hord2]; exact hn2) hip
      simp only [pure_eq_ok, Except.ok.injEq, Prod.mk.injEq] at h
      obtain ⟨_, hs⟩ := h
      subst hs
      have hord : s3.file_hdr.btree_order = s.file_hdr.btree_order := by
        rw [hord3, hord2, hord1]
      refine ⟨?_, ?_⟩
      · split
        · exact hinv3.congr rfl rfl rfl
        · exact hinv3
      · split
        · exact hord
        · exact hord
    · simp only [hfull, if_false, pure_eq_ok, Except.ok.injEq, Prod.mk.injEq] at h
      obtain ⟨_, hs⟩ := h
      subst hs
      refine ⟨hinv1.tighten ?_, hord1⟩
      intro b ps hbp
      rw [hlfs'] at hbp
      simp only [Option.some.injEq, Prod.mk.injEq] at hbp
      rw [← hbp.2]
      exact hfull

theorem single_leaf_sizeInv {s : IxState} (h : SingleLeafTree s)
    (hord : 2 ≤ s.file_hdr.btree_order) : SizeInv s none := by
  obtain ⟨n, hn, hl, hp, hlen⟩ := h.root
  have hall : ∀ p b ps, s.shape p = some (b, ps) →
      b = true ∧ ps.length < s.file_hdr.btree_order := by
    intro p b ps hsh
    obtain ⟨m, hm, hb, hps⟩ := shape_eq_some.1 hsh
    by_cases hpr : p = s.file_hdr.root_page
    · subst hpr
      rw [hn] at hm
      simp only [Option.some.injEq] at hm
      subst hm
      exact ⟨hb ▸ hl, hps ▸ hlen⟩
    · obtain ⟨h1, _, h3⟩ := h.rest p m hpr hm
      refine ⟨hb ▸ h1, ?_⟩
      rw [← hps, h3]
      simp only [List.length_nil]
      omega
  refine ⟨hord, ?_, ?_, ?_, ?_⟩
  · intro p b ps hsh; exact le_of_lt (hall p b ps hsh).2
  · intro p b ps hsh _; exact (hall p b ps hsh).2
  · intro p ps hsh; have := (hall p false ps hsh).1; simp at this
  · intro p hp; exact shape_eq_none.2 (h.fresh p hp)

theorem insertReachable_sizeInv {s₀ s : IxState} (h₀ : SizeInv s₀ none)
    (h : InsertReachable s₀ s) :
    SizeInv s none ∧ s.file_hdr.btree_order = s₀.file_hdr.btree_order := by
  induction h with
  | init => exact ⟨h₀, rfl⟩
  | insert _ hstep ih =>
    obtain ⟨h1, h2⟩ := insert_entry_inv ih.1 hstep
    exact ⟨h1, h2.trans ih.2⟩

theorem single_leaf_tree (col_len btree_order : Nat) (pairs : List (Key × Rid))
    (h : pairs.length < btree_order) : SingleLeafTree (single_leaf col_len btree_order pairs) := by
  refine ⟨rfl, rfl, ⟨_, rfl, rfl, rfl, h⟩, ?_, ?_⟩
  · intro p n hp hn
    simp only [single_leaf] at hp hn
    simp only [hp, if_false] at hn
    by_cases hq : p = leaf_header_page
    · simp only [hq, if_true, Option.some.injEq] at hn
      subst hn
      exact ⟨rfl, rfl, rfl⟩
    · simp [hq] at hn
  · intro p hp
    simp only [single_leaf] at hp ⊢
    have h1 : p ≠ init_root_page := by simp only [init_root_page]; omega
    have h2 : p ≠ leaf_header_page := by simp only [leaf_header_page]; omega
    simp [h1, h2]

theorem run_ops_insertReachable (fuel : Nat) :
    ∀ (ops : List IxOp) (s₀ s : IxState), (∀ op ∈ ops, ∃ k v, op = IxOp.insert k v) →
      run_ops fuel s₀ ops = .ok s → InsertReachable s₀ s := by
  have gen : ∀ (ops : List IxOp) (s₀ s₁ s : IxState), InsertReachable s₀ s₁ →
      (∀ op ∈ ops, ∃ k v, op = IxOp.insert k v) → run_ops fuel s₁ ops = .ok s →
      InsertReachable s₀ s := by
    intro ops
    induction ops with
    | nil =>
      intro s₀ s₁ s hr _ h
      simp only [run_ops, Except.ok.injEq] at h
      exact h ▸ hr
    | cons op ops ih =>
      intro s₀ s₁ s hr hall h
      obtain ⟨k, v, hop⟩ := hall op (List.mem_cons_self _ _)
      subst hop
      simp only [run_ops, IxOp.run] at h
      obtain ⟨⟨b, s₂⟩, h1, h2⟩ := bind_eq_ok.1 h
      exact ih s₀ s₂ s (InsertReachable.insert hr h1)
        (fun o ho => hall o (List.mem_cons_of_mem _ ho)) h2
  intro ops s₀ s hall h
  exact gen ops s₀ s₀ s InsertReachable.init hall h

/-- C3 (amended): for every order `max_size ≥ 2`, in every state reached from a single-leaf
tree by calls of `insert_entry`, every non-root node of the tree holds at least
`max_size / 2` (rounded down) and fewer than `max_size` pairs. -/
theorem insert_only_node_sizes (s₀ s : IxState) (h₀ : SingleLeafTree s₀)
    (hord : 2 ≤ IxNodeHandle.GetMaxSize s₀.file_hdr) (hr : InsertReachable s₀ s)
    (p : Int) (hp : InTree s p) (hne : p ≠ s.file_hdr.root_page) :
    ∃ n, s.pages p = some n ∧
      IxNodeHandle.GetMaxSize s.file_hdr / 2 ≤ IxNodeHandle.GetSize n ∧
      IxNodeHandle.GetSize n < IxNodeHandle.GetMaxSize s.file_hdr := by
  obtain ⟨hinv, _⟩ := insertReachable_sizeInv (single_leaf_sizeInv h₀ hord) hr
  cases hp with
  | root => exact absurd rfl hne
  | @child q n pr _ hq hl hpr =>
    obtain ⟨c, cs, h1, h2⟩ := hinv.child q n.pairs (by simp [IxState.shape, hq, hl]) pr hpr
    obtain ⟨m, hm, _, hm2⟩ := shape_eq_some.1 h1
    refine ⟨m, hm, ?_, ?_⟩
    · simp only [IxNodeHandle.GetSize, IxNodeHandle.GetMaxSize, hm2]; exact h2
    · simp only [IxNodeHandle.GetSize, IxNodeHandle.GetMaxSize, hm2]
      exact hinv.lt _ _ _ h1 (by simp)

/-- C3 (amended) at a concrete tree: order 3, after the keys 1, 2, 3 have been inserted the
right leaf, in page 3, holds one pair. -/
theorem insert_only_node_sizes_witness :
    ∃ n, tree_1_2_3.pages 3 = some n ∧
      IxNodeHandle.GetMaxSize tree_1_2_3.file_hdr / 2 ≤ IxNodeHandle.GetSize n ∧
      IxNodeHandle.GetSize n < IxNodeHandle.GetMaxSize tree_1_2_3.file_hdr :=
  insert_only_node_sizes (single_leaf 4 3 []) tree_1_2_3
    (single_leaf_tree 4 3 [] (by decide)) (by decide)
    (run_ops_insertReachable 8 [ins 1, ins 2, ins 3] _ _
      (by intro op hop; simp only [List.mem_cons, List.mem_singleton, List.not_mem_nil, or_false,
            ins] at hop; rcases hop with h | h | h <;> exact ⟨_, _, h⟩)
      rfl)
    3
    (@InTree.child tree_1_2_3 tree_1_2_3.file_hdr.root_page
      { is_leaf := false, parent := IX_NO_PAGE, next_leaf := IX_NO_PAGE,
        prev_leaf := IX_NO_PAGE, next_free_page_no := IX_NO_PAGE,
        pairs := [(be32 1, ⟨2, -1⟩), (be32 3, ⟨3, -1⟩)] }
      (be32 3, ⟨3, -1⟩) InTree.root rfl rfl (by simp))
    (by decide)

/-- C3 at two failing inputs, order 3, so `min_size = 2`: after the keys 1, 2, 3 have been
inserted, child 1 of the root holds one pair; and after 1, 2, 3, 4, 5 have been inserted and 2
deleted, child 0 of the root holds three pairs. -/
theorem node_sizes_outside_bounds :
    (do
      let s ← run_ops 8 (single_leaf 4 3 []) [ins 1, ins 2, ins 3]
      let root ← FetchNode s s.file_hdr.root_page
      let node ← FetchNode s (IxNodeHandle.ValueAt root 1)
      pure (root.is_leaf, IxNodeHandle.GetSize node, IxNodeHandle.GetMinSize s.file_hdr))
      = .ok (false, 1, 2) ∧
    (do
      let s ← run_ops 8 (single_leaf 4 3 []) [ins 1, ins 2, ins 3, ins 4, ins 5, del 2]
      let root ← FetchNode s s.file_hdr.root_page
      let node ← FetchNode s (IxNodeHandle.ValueAt root 0)
      pure (root.is_leaf, IxNodeHandle.GetSize node, IxNodeHandle.GetMaxSize s.file_hdr))
      = .ok (false, 3, 3) :=
  ⟨rfl, rfl⟩

/-- C11 at a failing input: on an `LRUReplacer` of two frames, after `Unpin(1)`, `Unpin(1)`
and `Pin(1)`, with no further `Unpin`, `Victim` returns frame 1. -/
theorem lru_victim_returns_pinned_frame :
    ((((LRUReplacer.new 2).Unpin 1).Unpin 1).Pin 1).Victim.1 = some 1 := by
  decide

/-- C15 at a failing input: a new `LRUReplacer` of three frames, in which no frame is
eligible, has `Size() = 3`, and after `Unpin(1)`, with one frame eligible, `Size() = 2`. -/
theorem lru_size_counts_free_capacity :
    (LRUReplacer.new 3).Size = 3 ∧ ((LRUReplacer.new 3).Unpin 1).Size = 2 ∧
      ((LRUReplacer.new 3).Unpin 1).LRUlist_ = [1] := by
  decide

/-- C16 at a failing input: on an `LRUReplacer` of two frames in which frame 1 is eligible,
a second `Unpin(1)` changes the state: the list holds frame 1 twice, and after a `Pin(1)` a
`Victim` returns frame 1, where it returns nothing without the second `Unpin`. -/
theorem lru_unpin_twice_duplicates :
    (((LRUReplacer.new 2).Unpin 1).Unpin 1).LRUlist_ = [1, 1] ∧
      (((LRUReplacer.new 2).Unpin 1).Unpin 1) ≠ ((LRUReplacer.new 2).Unpin 1) ∧
      ((((LRUReplacer.new 2).Unpin 1).Unpin 1).Pin 1).Victim.1 = some 1 ∧
      (((LRUReplacer.new 2).Unpin 1).Pin 1).Victim.1 = none := by
  decide

/-- C12 at a failing input: on a `ClockReplacer` of one frame, `Unpin(0)` makes slot 0
`ACCESSED`, and the `Pin(0)` that follows leaves it `ACCESSED`: `Size()` is 1 and `Victim`
returns frame 0. -/
theorem clock_pin_keeps_accessed :
    (((ClockReplacer.new 1).Unpin 0).Pin 0).slot 0 = .ACCESSED ∧
      (((ClockReplacer.new 1).Unpin 0).Pin 0).Size = 1 ∧
      ((((ClockReplacer.new 1).Unpin 0).Pin 0).Victim 2).map Prod.fst = .ok (some 0) := by
  refine ⟨by decide, by decide, rfl⟩

theorem getD_set_ne {α : Type} (l : List α) (i j : Nat) (x d : α) (h : i ≠ j) :
    (l.set i x).getD j d = l.getD j d := by
  simp [List.getD_eq_getElem?_getD, List.getElem?_set_ne h]

theorem getD_set_eq {α : Type} (l : List α) (i : Nat) (x d : α) (h : i < l.length) :
    (l.set i x).getD i d = x := by
  simp [List.getD_eq_getElem?_getD, h]

theorem set_getD_self {α : Type} (l : List α) (i : Nat) (d : α) :
    l.set i (l.getD i d) = l := by
  induction l generalizing i with
  | nil => rfl
  | cons a l ih => cases i with
    | zero => rfl
    | succ i =>
      have h := ih i
      simp only [List.getD_eq_getElem?_getD] at h
      simp [List.set, h]

theorem getD_map_in_use (l : List Status) (i : Nat) :
    (l.map Status.in_use).getD i false = (l.getD i .EMPTY_OR_PINNED).in_use := by
  induction l generalizing i with
  | nil => rfl
  | cons a l ih => cases i with
    | zero => rfl
    | succ i => simpa using ih i

theorem map_in_use_set (l : List Status) (i : Nat) (x : Status) :
    (l.set i x).map Status.in_use = (l.map Status.in_use).set i x.in_use := by
  induction l generalizing i with
  | nil => rfl
  | cons a l ih => cases i with
    | zero => rfl
    | succ i => simp [List.set, ih]

theorem countP_set_false (bs : List Bool) (f : Nat) (h : bs.getD f false = true) :
    (bs.set f false).countP id + 1 = bs.countP id := by
  induction bs generalizing f with
  | nil => simp at h
  | cons b bs ih => cases f with
    | zero =>
      simp at h
      subst h
      simp [List.set]
    | succ f =>
      have h' : bs.getD f false = true := by simpa using h
      cases b <;> simp [List.set, List.countP_cons, ← ih f h']

theorem add_mod_ne (hand k cap : Nat) (hh : hand < cap) (h0 : 0 < k) (hk : k < cap) :
    (hand + k) % cap ≠ hand := by
  rcases Nat.lt_or_ge (hand + k) cap with h | h
  · rw [Nat.mod_eq_of_lt h]; omega
  · rw [Nat.mod_eq_sub_mod h, Nat.mod_eq_of_lt (by omega)]; omega

theorem succ_mod_add (hand j cap : Nat) : ((hand + 1) % cap + j) % cap = (hand + (j + 1)) % cap := by
  rw [Nat.add_mod, Nat.mod_mod, ← Nat.add_mod]
  congr 1
  omega

theorem Victim_loop_untouched (d : Nat) : ∀ (r : ClockReplacer) (fuel : Nat),
    r.circular_.length = r.capacity_ → r.hand_ < r.capacity_ → d < r.capacity_ → d < fuel →
    (∀ j, j < d → r.slot ((r.hand_ + j) % r.capacity_) ≠ .UNTOUCHED) →
    r.slot ((r.hand_ + d) % r.capacity_) = .UNTOUCHED →
    ∃ r', ClockReplacer.Victim_loop fuel r = .ok (some ((r.hand_ + d) % r.capacity_), r') ∧
      r'.capacity_ = r.capacity_ ∧ r'.hand_ < r.capacity_ ∧
      r'.circular_.map Status.in_use =
        (r.circular_.map Status.in_use).set ((r.hand_ + d) % r.capacity_) false := by
  induction d with
  | zero =>
    intro r fuel hlen hhand _ hfuel _ hu
    obtain ⟨fuel, rfl⟩ : ∃ k, fuel = k + 1 := ⟨fuel - 1, by omega⟩
    simp only [Nat.add_zero, Nat.mod_eq_of_lt hhand] at hu ⊢
    refine ⟨{ r with circular_ := r.circular_.set r.hand_ .EMPTY_OR_PINNED,
                     hand_ := (r.hand_ + 1) % r.capacity_ },
      by simp only [ClockReplacer.Victim_loop, hu], rfl, Nat.mod_lt _ (by omega), ?_⟩
    simp [map_in_use_set, Status.in_use]
  | succ d ih =>
    intro r fuel hlen hhand hd hfuel hno hu
    obtain ⟨fuel, rfl⟩ : ∃ k, fuel = k + 1 := ⟨fuel - 1, by omega⟩
    have h0 : r.slot r.hand_ ≠ .UNTOUCHED := by
      have := hno 0 (by omega)
      simpa [Nat.mod_eq_of_lt hhand] using this
    have hcap : 0 < r.capacity_ := by omega
    have key : ∀ (r1 : ClockReplacer), r1.capacity_ = r.capacity_ →
        r1.hand_ = (r.hand_ + 1) % r.capacity_ → r1.circular_.length = r.capacity_ →
        (∀ i, i ≠ r.hand_ → r1.slot i = r.slot i) →
        r1.circular_.map Status.in_use = r.circular_.map Status.in_use →
        ∃ r', ClockReplacer.Victim_loop fuel r1 = .ok (some ((r.hand_ + (d + 1)) % r.capacity_), r') ∧
          r'.capacity_ = r.capacity_ ∧ r'.hand_ < r.capacity_ ∧
          r'.circular_.map Status.in_use =
            (r.circular_.map Status.in_use).set ((r.hand_ + (d + 1)) % r.capacity_) false := by
      intro r1 hc1 hh1 hl1 hs1 hm1
      have := ih r1 fuel (by rw [hl1, hc1]) (by rw [hh1, hc1]; exact Nat.mod_lt _ hcap)
        (by rw [hc1]; omega) (by omega)
        (by
          intro j hj
          rw [hh1, hc1, succ_mod_add, hs1 _ (add_mod_ne _ _ _ hhand (by omega) (by omega))]
          exact hno (j + 1) (by omega))
        (by
          rw [hh1, hc1, succ_mod_add, hs1 _ (add_mod_ne _ _ _ hhand (by omega) (by omega))]
          exact hu)
      rw [hh1, hc1, succ_mod_add, hm1] at this
      exact this
    cases hs : r.slot r.hand_ with
    | UNTOUCHED => exact absurd hs h0
    | ACCESSED =>
      simp only [ClockReplacer.Victim_loop, hs]
      apply key { r with circular_ := r.circular_.set r.hand_ .UNTOUCHED,
                         hand_ := (r.hand_ + 1) % r.capacity_ } rfl rfl (by simp [hlen])
      · intro i hi
        exact getD_set_ne _ _ _ _ _ (Ne.symm hi)
      · rw [map_in_use_set]
        have : (Status.UNTOUCHED).in_use = (r.circular_.map Status.in_use).getD r.hand_ false := by
          rw [getD_map_in_use]
          unfold ClockReplacer.slot at hs
          rw [hs]; rfl
        rw [this, set_getD_self]
    | EMPTY_OR_PINNED =>
      simp only [ClockReplacer.Victim_loop, hs]
      exact key { r with hand_ := (r.hand_ + 1) % r.capacity_ } rfl rfl hlen (fun _ _ => rfl) rfl

theorem Victim_loop_accessed (d : Nat) : ∀ (r : ClockReplacer) (fuel : Nat),
    r.circular_.length = r.capacity_ → r.hand_ < r.capacity_ → d < r.capacity_ →
    d + r.capacity_ < fuel →
    (∀ i, r.slot i ≠ .UNTOUCHED) →
    (∀ j, j < d → r.slot ((r.hand_ + j) % r.capacity_) = .EMPTY_OR_PINNED) →
    r.slot ((r.hand_ + d) % r.capacity_) = .ACCESSED →
    ∃ r', ClockReplacer.Victim_loop fuel r = .ok (some ((r.hand_ + d) % r.capacity_), r') ∧
      r'.capacity_ = r.capacity_ ∧ r'.hand_ < r.capacity_ ∧
      r'.circular_.map Status.in_use =
        (r.circular_.map Status.in_use).set ((r.hand_ + d) % r.capacity_) false := by
  induction d with
  | zero =>
    intro r fuel hlen hhand _ hfuel hno _ ha
    obtain ⟨fuel, rfl⟩ : ∃ k, fuel = k + 1 := ⟨fuel - 1, by omega⟩
    have hcap : 0 < r.capacity_ := by omega
    simp only [Nat.add_zero, Nat.mod_eq_of_lt hhand] at ha ⊢
    simp only [ClockReplacer.Victim_loop, ha]
    have hback : ((r.hand_ + 1) % r.capacity_ + (r.capacity_ - 1)) % r.capacity_ = r.hand_ := by
      rw [Nat.add_mod, Nat.mod_mod, ← Nat.add_mod,
        show r.hand_ + 1 + (r.capacity_ - 1) = r.hand_ + r.capacity_ by omega,
        Nat.add_mod_right, Nat.mod_eq_of_lt hhand]
    have := Victim_loop_untouched (r.capacity_ - 1)
      { r with circular_ := r.circular_.set r.hand_ .UNTOUCHED,
               hand_ := (r.hand_ + 1) % r.capacity_ } fuel
      (by simp [hlen]) (Nat.mod_lt _ hcap) (by simp; omega) (by omega)
      (by
        intro j hj
        show (r.circular_.set r.hand_ .UNTOUCHED).getD
          (((r.hand_ + 1) % r.capacity_ + j) % r.capacity_) _ ≠ _
        rw [succ_mod_add,
          getD_set_ne _ _ _ _ _ (Ne.symm (add_mod_ne _ _ _ hhand (by omega) (by omega)))]
        exact hno _)
      (by
        show (r.circular_.set r.hand_ .UNTOUCHED).getD
          (((r.hand_ + 1) % r.capacity_ + (r.capacity_ - 1)) % r.capacity_) _ = _
        rw [hback]
        exact getD_set_eq _ _ _ _ (by omega))
    simp only [hback] at this
    obtain ⟨r', h1, h2, h3, h4⟩ := this
    refine ⟨r', h1, h2, h3, ?_⟩
    rw [h4, map_in_use_set]
    have : (Status.UNTOUCHED).in_use = (r.circular_.map Status.in_use).getD r.hand_ false := by
      rw [getD_map_in_use]
      unfold ClockReplacer.slot at ha
      rw [ha]; rfl
    rw [this, set_getD_self]
  | succ d ih =>
    intro r fuel hlen hhand hd hfuel hno he ha
    obtain ⟨fuel, rfl⟩ : ∃ k, fuel = k + 1 := ⟨fuel - 1, by omega⟩
    have hcap : 0 < r.capacity_ := by omega
    have h0 : r.slot r.hand_ = .EMPTY_OR_PINNED := by
      have := he 0 (by omega)
      simpa [Nat.mod_eq_of_lt hhand] using this
    simp only [ClockReplacer.Victim_loop, h0]
    have := ih { r with hand_ := (r.hand_ + 1) % r.capacity_ } fuel hlen (Nat.mod_lt _ hcap)
      (by show d < r.capacity_; omega) (by show d + r.capacity_ < fuel; omega) hno
      (by
        intro j hj
        show r.slot (((r.hand_ + 1) % r.capacity_ + j) % r.capacity_) = _
        rw [succ_mod_add]
        exact he (j + 1) (by omega))
      (by
        show r.slot (((r.hand_ + 1) % r.capacity_ + d) % r.capacity_) = _
        rw [succ_mod_add]
        exact ha)
    simp only [succ_mod_add] at this
    exact this

theorem exists_offset (hand i cap : Nat) (hh : hand < cap) (hi : i < cap) :
    ∃ d, d < cap ∧ (hand + d) % cap = i := by
  rcases Nat.lt_or_ge i hand with h | h
  · refine ⟨i + cap - hand, by omega, ?_⟩
    rw [show hand + (i + cap - hand) = i + cap by omega, Nat.add_mod_right, Nat.mod_eq_of_lt hi]
  · exact ⟨i - hand, by omega, by
      rw [show hand + (i - hand) = i by omega, Nat.mod_eq_of_lt hi]⟩

theorem in_use_eq_false {st : Status} : st.in_use = false ↔ st = .EMPTY_OR_PINNED := by
  cases st <;> simp [Status.in_use]

theorem Size_eq_countP (r : ClockReplacer) :
    r.Size = (r.circular_.map Status.in_use).countP id := by
  simp [ClockReplacer.Size, List.countP_map]

/-- C14: on a `ClockReplacer` whose vector has `capacity_` slots and whose hand is in range,
`Victim` returns nothing and leaves the state as it is when `Size()` is 0; otherwise, within
`2 * capacity_` iterations of its loop, it returns a frame `f` whose slot was not
`EMPTY_OR_PINNED`, that slot is `EMPTY_OR_PINNED` afterwards, every other slot is
`EMPTY_OR_PINNED` afterwards exactly if it was before, `Size()` has gone down by one, and the
hand is in range again. -/
theorem clock_victim_takes_one_frame (r : ClockReplacer)
    (hlen : r.circular_.length = r.capacity_) (hhand : r.hand_ < r.capacity_) :
    (r.Size = 0 → ∀ fuel, r.Victim fuel = .ok (none, r)) ∧
    (r.Size ≠ 0 → ∃ f r', r.Victim (2 * r.capacity_) = .ok (some f, r') ∧ f < r.capacity_ ∧
      r.slot f ≠ .EMPTY_OR_PINNED ∧ r'.slot f = .EMPTY_OR_PINNED ∧
      (∀ g, g ≠ f → (r'.slot g = .EMPTY_OR_PINNED ↔ r.slot g = .EMPTY_OR_PINNED)) ∧
      r'.Size + 1 = r.Size ∧
      r'.circular_.length = r'.capacity_ ∧ r'.hand_ < r'.capacity_) := by
  constructor
  · intro h fuel
    simp [ClockReplacer.Victim, h]
  intro hsz
  have hcap : 0 < r.capacity_ := by omega
  -- the loop finds a frame
  have core : ∃ f r', ClockReplacer.Victim_loop (2 * r.capacity_) r = .ok (some f, r') ∧
      f < r.capacity_ ∧ r.slot f ≠ .EMPTY_OR_PINNED ∧ r'.capacity_ = r.capacity_ ∧
      r'.hand_ < r.capacity_ ∧
      r'.circular_.map Status.in_use = (r.circular_.map Status.in_use).set f false := by
    by_cases hU : ∃ d, d < r.capacity_ ∧ r.slot ((r.hand_ + d) % r.capacity_) = .UNTOUCHED
    · classical
      have hmin := fun m => @Nat.find_min _ _ hU m
      obtain ⟨hd, hu⟩ := Nat.find_spec hU
      obtain ⟨r', h1, h2, h3, h4⟩ := Victim_loop_untouched (Nat.find hU) r (2 * r.capacity_)
        hlen hhand hd (by omega)
        (fun j hj hc => hmin j hj ⟨by omega, hc⟩) hu
      exact ⟨_, r', h1, Nat.mod_lt _ hcap, by rw [hu]; decide, h2, h3, h4⟩
    · have hnoU : ∀ i, r.slot i ≠ .UNTOUCHED := by
        intro i hi
        have hil : i < r.capacity_ := by
          by_contra hge
          unfold ClockReplacer.slot at hi
          rw [List.getD_eq_default _ _ (by omega)] at hi
          exact absurd hi (by decide)
        obtain ⟨d, hd, hdi⟩ := exists_offset r.hand_ i r.capacity_ hhand hil
        exact hU ⟨d, hd, by rw [hdi]; exact hi⟩
      have hA : ∃ d, d < r.capacity_ ∧ r.slot ((r.hand_ + d) % r.capacity_) = .ACCESSED := by
        have hpos : 0 < r.circular_.countP Status.in_use := Nat.pos_of_ne_zero hsz
        obtain ⟨a, ha, hau⟩ := List.countP_pos_iff.mp hpos
        obtain ⟨i, hi, hia⟩ := List.getElem_of_mem ha
        have hsl : r.slot i = a := by
          unfold ClockReplacer.slot
          rw [List.getD_eq_getElem _ _ hi, hia]
        obtain ⟨d, hd, hdi⟩ := exists_offset r.hand_ i r.capacity_ hhand (by omega)
        refine ⟨d, hd, ?_⟩
        rw [hdi, hsl]
        have := hnoU i
        rw [hsl] at this
        cases a
        · simp [Status.in_use] at hau
        · exact absurd rfl this
        · rfl
      classical
      have hmin := fun m => @Nat.find_min _ _ hA m
      obtain ⟨hd, ha⟩ := Nat.find_spec hA
      obtain ⟨r', h1, h2, h3, h4⟩ := Victim_loop_accessed (Nat.find hA) r (2 * r.capacity_)
        hlen hhand hd (by omega) hnoU
        (by
          intro j hj
          have h1 := hnoU ((r.hand_ + j) % r.capacity_)
          have h2 : ¬ r.slot ((r.hand_ + j) % r.capacity_) = .ACCESSED :=
            fun hc => hmin j hj ⟨by omega, hc⟩
          cases h : r.slot ((r.hand_ + j) % r.capacity_)
          · rfl
          · exact absurd h h1
          · exact absurd h h2)
        ha
      exact ⟨_, r', h1, Nat.mod_lt _ hcap, by rw [ha]; decide, h2, h3, h4⟩
  obtain ⟨f, r', h1, hf, hne, hc, hh, hm⟩ := core
  have hl' : r'.circular_.length = r.circular_.length := by
    have := congrArg List.length hm
    simpa using this
  have hget : ∀ g, (r'.slot g).in_use = ((r.circular_.map Status.in_use).set f false).getD g false := by
    intro g
    unfold ClockReplacer.slot
    rw [← getD_map_in_use, hm]
  refine ⟨f, r', by simp [ClockReplacer.Victim, hsz, h1], hf, hne, ?_, ?_, ?_, by omega, by omega⟩
  · rw [← in_use_eq_false, hget, getD_set_eq _ _ _ _ (by simp; omega)]
  · intro g hg
    rw [← in_use_eq_false, ← in_use_eq_false, hget, getD_set_ne _ _ _ _ _ (Ne.symm hg),
      getD_map_in_use]
    rfl
  · rw [Size_eq_countP, Size_eq_countP, hm]
    apply countP_set_false
    rw [getD_map_in_use]
    have : (r.slot f).in_use ≠ false := fun h => hne (in_use_eq_false.mp h)
    simpa [ClockReplacer.slot] using this

theorem clock_victim_takes_one_frame_witness :
    (([Status.ACCESSED, .EMPTY_OR_PINNED, .UNTOUCHED].length = 3 ∧ 1 < 3) ∧
      ∃ f r', (ClockReplacer.mk [.ACCESSED, .EMPTY_OR_PINNED, .UNTOUCHED] 1 3).Victim 6
          = .ok (some f, r') ∧ r'.Size + 1 = 2) :=
  ⟨⟨by decide, by decide⟩,
    have h := (clock_victim_takes_one_frame ⟨[.ACCESSED, .EMPTY_OR_PINNED, .UNTOUCHED], 1, 3⟩
      (by decide) (by decide)).2 (by decide)
    let ⟨f, r', h1, _, _, _, _, h6, _⟩ := h
    ⟨f, r', h1, h6⟩⟩

theorem LRUInv.init (max_size : Nat) : LRUInv (LRUReplacer.new max_size, LRUHistory.empty) :=
  ⟨List.nodup_nil, by simp [LRUReplacer.new, LRUHistory.empty], List.Pairwise.nil,
    by simp [LRUHistory.empty], List.nodup_nil, by simp [LRUReplacer.new]⟩

theorem LRUInv.step {rh rh' : LRUReplacer × LRUHistory} {op : ReplacerOp} (inv : LRUInv rh)
    (h : LRU_step rh op = some rh') : LRUInv rh' := by
  obtain ⟨r, m⟩ := rh
  obtain ⟨nd, mem, ord, past, hnd, hsub⟩ := inv
  simp only at nd mem ord past hnd hsub
  cases op with
  | victim =>
    cases hl : r.LRUlist_ with
    | nil =>
      simp only [LRU_step, LRUReplacer.Victim, hl, Option.some.injEq] at h
      subst h
      exact ⟨by simp [hl], by simpa [hl] using mem, by simp [hl], past, hnd, hsub⟩
    | cons front rest =>
      simp only [LRU_step, LRUReplacer.Victim, hl, Option.some.injEq] at h
      subst h
      rw [hl] at nd mem ord hsub
      have hfr : front ∉ rest := (List.nodup_cons.mp nd).1
      refine ⟨(List.nodup_cons.mp nd).2, ?_, (List.pairwise_cons.mp ord).2, ?_, hnd.erase _, ?_⟩
      · intro g
        simp only [Finset.mem_erase, ← mem, List.mem_cons]
        constructor
        · intro hg
          exact ⟨fun e => hfr (e ▸ hg), Or.inr hg⟩
        · rintro ⟨hne, rfl | hg⟩
          · exact absurd rfl hne
          · exact hg
      · intro g hg
        exact past g (Finset.mem_of_mem_erase hg)
      · intro g hg
        have hg' := (hnd.mem_erase_iff).mp hg
        rcases List.mem_cons.mp (hsub g hg'.2) with e | e
        · exact absurd e hg'.1
        · exact e
  | pin f =>
    simp only [LRU_step, LRUReplacer.Pin, Option.some.injEq] at h
    subst h
    refine ⟨nd.erase _, ?_, ord.sublist (List.erase_sublist _ _), ?_, hnd.erase _, ?_⟩
    · intro g
      simp only [Finset.mem_erase, ← mem, nd.mem_erase_iff]
    · intro g hg
      exact past g (Finset.mem_of_mem_erase hg)
    · intro g hg
      have hg' := (hnd.mem_erase_iff).mp hg
      exact (nd.mem_erase_iff).mpr ⟨hg'.1, hsub g hg'.2⟩
  | unpin f =>
    simp only [LRU_step] at h
    split at h
    · exact absurd h (by simp)
    rename_i hadm
    simp only [not_or, not_lt] at hadm
    obtain ⟨hf, hcard⟩ := hadm
    simp only [Option.some.injEq] at h
    subst h
    have hfl : f ∉ r.LRUlist_ := fun hc => hf ((mem f).mp hc)
    have hlen : r.LRUlist_.length = m.eligible.card := by
      rw [← List.toFinset_card_of_nodup nd]
      congr 1
      ext g
      simp [mem]
    have hhl : r.LRUhash_.length ≤ r.LRUlist_.length :=
      (List.subperm_of_subset hnd hsub).length_le
    have hU : r.Unpin f = { r with LRUlist_ := r.LRUlist_ ++ [f],
                                    LRUhash_ := LRUReplacer.hash_insert r.LRUhash_ f } := by
      unfold LRUReplacer.Unpin
      rw [if_neg]
      omega
    rw [hU]
    refine ⟨?_, ?_, ?_, ?_, ?_, ?_⟩
    · simp only
      exact List.nodup_append.mpr ⟨nd, List.nodup_singleton f, by
        intro a ha hb
        rw [List.mem_singleton] at hb
        exact hfl (hb ▸ ha)⟩
    · intro g
      simp only [List.mem_append, List.mem_singleton, Finset.mem_insert, mem]
      tauto
    · simp only
      refine List.pairwise_append.mpr ⟨?_, List.pairwise_singleton _ _, ?_⟩
      · refine ord.imp_of_mem ?_
        intro a b ha hb hab
        have ha' : a ≠ f := fun e => hfl (e ▸ ha)
        have hb' : b ≠ f := fun e => hfl (e ▸ hb)
        simpa [ha', hb'] using hab
      · intro a ha b hb
        rw [List.mem_singleton] at hb
        subst hb
        have ha' : a ≠ b := fun e => hfl (e ▸ ha)
        simpa [ha'] using past a ((mem a).mp ha)
    · intro g hg
      simp only [Finset.mem_insert] at hg
      simp only
      split
      · omega
      · rcases hg with e | hg
        · contradiction
        · have := past g hg
          omega
    · simp only [LRUReplacer.hash_insert]
      split
      · exact hnd
      · rename_i hn
        exact List.nodup_cons.mpr ⟨hn, hnd⟩
    · intro g hg
      simp only [LRUReplacer.hash_insert] at hg
      simp only [List.mem_append, List.mem_singleton]
      split at hg
      · exact Or.inl (hsub g hg)
      · rcases List.mem_cons.mp hg with e | e
        · exact Or.inr e
        · exact Or.inl (hsub g e)

theorem LRUInv.run {rh rh' : LRUReplacer × LRUHistory} {ops : List ReplacerOp} (inv : LRUInv rh)
    (h : LRU_run_from rh ops = some rh') : LRUInv rh' := by
  induction ops generalizing rh with
  | nil =>
    simp only [LRU_run_from, Option.some.injEq] at h
    exact h ▸ inv
  | cons op ops ih =>
    simp only [LRU_run_from, Option.bind_eq_some] at h
    obtain ⟨rh1, h1, h2⟩ := h
    exact ih (inv.step h1) h2

/-- C13: after any sequence of calls on a new `LRUReplacer` in which every `Unpin` is of a
frame that is not eligible and keeps the number of eligible frames within `max_size_`:
when no frame is eligible, `Victim` returns nothing and leaves the state as it is; otherwise
it returns the eligible frame whose latest `Unpin` is older than that of every other eligible
frame, and the list then holds the eligible frames other than that one. -/
theorem lru_victim_returns_oldest (max_size : Nat) (ops : List ReplacerOp) (r : LRUReplacer)
    (m : LRUHistory) (h : LRU_run max_size ops = some (r, m)) :
    (m.eligible = ∅ → r.Victim = (none, r)) ∧
    (m.eligible ≠ ∅ → ∃ f r', r.Victim = (some f, r') ∧ f ∈ m.eligible ∧
      (∀ g ∈ m.eligible, g ≠ f → m.latest_unpin f < m.latest_unpin g) ∧
      (∀ g, g ∈ r'.LRUlist_ ↔ g ∈ m.eligible ∧ g ≠ f)) := by
  obtain ⟨nd, mem, ord, -, -, -⟩ := (LRUInv.init max_size).run h
  simp only at nd mem ord
  constructor
  · intro he
    have : r.LRUlist_ = [] := by
      apply List.eq_nil_iff_forall_not_mem.mpr
      intro g hg
      have := (mem g).mp hg
      simp [he] at this
    simp [LRUReplacer.Victim, this]
  · intro hne
    cases hl : r.LRUlist_ with
    | nil =>
      exfalso
      apply hne
      ext g
      simp [← mem, hl]
    | cons front rest =>
      rw [hl] at nd mem ord
      have hfr : front ∉ rest := (List.nodup_cons.mp nd).1
      refine ⟨front, { r with LRUlist_ := rest, LRUhash_ := r.LRUhash_.erase front },
        by simp [LRUReplacer.Victim, hl], (mem front).mp (List.mem_cons_self _ _), ?_, ?_⟩
      · intro g hg hgf
        rcases List.mem_cons.mp ((mem g).mpr hg) with e | e
        · exact absurd e hgf
        · exact (List.pairwise_cons.mp ord).1 g e
      · intro g
        simp only [← mem, List.mem_cons]
        constructor
        · intro hg
          exact ⟨Or.inr hg, fun e => hfr (e ▸ hg)⟩
        · rintro ⟨rfl | hg, hn⟩
          · exact absurd rfl hn
          · exact hg

theorem lru_victim_returns_oldest_witness :
    ∃ r m, LRU_run 2 [.unpin 1, .unpin 2, .pin 1, .unpin 1] = some (r, m) ∧
      (m.eligible ≠ ∅ → ∃ f r', r.Victim = (some f, r') ∧ f ∈ m.eligible ∧
        (∀ g ∈ m.eligible, g ≠ f → m.latest_unpin f < m.latest_unpin g) ∧
        (∀ g, g ∈ r'.LRUlist_ ↔ g ∈ m.eligible ∧ g ≠ f)) := by
  obtain ⟨⟨r, m⟩, h⟩ := Option.isSome_iff_exists.mp
    (show (LRU_run 2 [.unpin 1, .unpin 2, .pin 1, .unpin 1]).isSome = true by decide)
  exact ⟨r, m, h, (lru_victim_returns_oldest 2 _ r m h).2⟩

/-- C19 at a failing input: on an empty record file with three slots per page,
`insert_record` returns `Rid{1, 0}` and the `delete_record(Rid{1, 0})` that follows leaves
`first_free_page_no = -1` while page 1 holds no record: the walk along the free list visits no
page, and page 1, which is not full, is not on it (its `next_free_page_no` is 1). -/
theorem free_list_misses_page_after_delete :
    (do
      let (s, rids, valid) ← rm_run (empty_record_file 4 3 1) [.insert [1, 2, 3, 4], .delete ⟨1, 0⟩]
      pure (rids, valid, s.file_hdr.first_free_page_no, free_list s 4, s.page_counts 1,
        s.file_hdr.num_pages))
      = .ok ([⟨1, 0⟩], true, -1, some [], some (0, 0, 1), 2) := by
  rfl

/-- C18 at a failing input: on an empty record file with three slots per page and a bitmap
of one byte, fifteen calls of `insert_record` and `delete_record`, every delete of a rid that
holds a record, leave page 2 with `num_records = 5` and four set bits in its bitmap.  The
deletes of calls 3, 6, 10 and 11 leave the full page 2 at the head of the free list (its
`next_free_page_no` is 2), and the last two inserts both return `Rid{2, 3}`. -/
theorem num_records_differs_from_popcount :
    (do
      let (s, rids, valid) ← rm_run (empty_record_file 4 3 1)
        [.insert (be32 1), .insert (be32 2), .delete ⟨1, 0⟩, .insert (be32 3), .insert (be32 4),
         .delete ⟨1, 1⟩, .insert (be32 5), .insert (be32 6), .insert (be32 7), .delete ⟨2, 0⟩,
         .delete ⟨1, 0⟩, .insert (be32 8), .insert (be32 9), .insert (be32 10), .insert (be32 11)]
      pure (rids, valid, s.page_counts 2, s.file_hdr.first_free_page_no))
      = .ok ([⟨1, 0⟩, ⟨1, 1⟩, ⟨2, 0⟩, ⟨2, 1⟩, ⟨1, 0⟩, ⟨1, 1⟩, ⟨1, 2⟩, ⟨2, 0⟩, ⟨2, 2⟩, ⟨2, 3⟩, ⟨2, 3⟩],
          true, some (5, 4, 2), 2) := by
  rfl

theorem rm_modify_pages_self {s : RmState} {p : Int} {pg : RmPage} (f : RmPage → RmPage)
    (h : s.pages p = some pg) : (s.modify p f).pages p = some (f pg) := by
  simp [RmState.modify, h, RmState.setPage]

theorem rm_modify_pages_ne (s : RmState) {p q : Int} (f : RmPage → RmPage) (h : q ≠ p) :
    (s.modify p f).pages q = s.pages q := by
  unfold RmState.modify
  split
  · simp [RmState.setPage, h]
  · rfl

@[simp] theorem rm_modify_file_hdr (s : RmState) (p : Int) (f : RmPage → RmPage) :
    (s.modify p f).file_hdr = s.file_hdr := by
  unfold RmState.modify
  split <;> rfl

theorem fetch_page_handle_eq_ok {s : RmState} {p : Int} {pg : RmPage} :
    RmFileHandle.fetch_page_handle s p = .ok pg ↔ s.pages p = some pg ∧ p < s.file_hdr.num_pages := by
  unfold RmFileHandle.fetch_page_handle
  cases h : s.pages p with
  | none => simp
  | some pg' =>
    by_cases hp : p < s.file_hdr.num_pages <;> simp [hp]

theorem create_page_handle_ok {s s1 : RmState} {p : Int} {rph : RmPage}
    (h : RmFileHandle.create_page_handle s = .ok (p, rph, s1)) :
    s1.pages p = some rph ∧ (∀ q, q ≠ p → s1.pages q = s.pages q) ∧
      s1.file_hdr.record_size = s.file_hdr.record_size ∧
      s1.file_hdr.num_records_per_page = s.file_hdr.num_records_per_page ∧
      s1.file_hdr.bitmap_size = s.file_hdr.bitmap_size ∧
      (s.file_hdr.first_free_page_no = -1 → p = s.fd2pageno ∧
        rph = { RmPage.zero s.file_hdr with
                page_hdr := { next_free_page_no := -1, num_records := 0 } }) ∧
      (s.file_hdr.first_free_page_no ≠ -1 → p = s.file_hdr.first_free_page_no ∧
        s.pages p = some rph ∧ p < s.file_hdr.num_pages) := by
  unfold RmFileHandle.create_page_handle at h
  split at h
  · rename_i hf
    simp only [RmFileHandle.create_new_page_handle, Except.ok.injEq, Prod.mk.injEq] at h
    obtain ⟨rfl, rfl, rfl⟩ := h
    refine ⟨by simp [RmState.setPage], ?_, rfl, rfl, rfl, fun _ => ⟨rfl, rfl⟩,
      fun hn => absurd hf hn⟩
    intro q hq
    simp [RmState.setPage, hq]
  · rename_i hf
    simp only [bind, Except.bind] at h
    split at h
    · exact absurd h (by simp)
    rename_i pg hfetch
    simp only [pure, Except.pure, Except.ok.injEq, Prod.mk.injEq] at h
    obtain ⟨rfl, rfl, rfl⟩ := h
    have := fetch_page_handle_eq_ok.mp hfetch
    exact ⟨this.1, fun _ _ => rfl, rfl, rfl, rfl, fun hn => absurd hn hf, fun _ => ⟨rfl, this⟩⟩

theorem first_bit_clear {bm : List Bool} {n : Nat}
    (h : ∃ i, i < n ∧ Bitmap.is_set bm i = false) :
    Bitmap.first_bit false bm n < n ∧ Bitmap.is_set bm (Bitmap.first_bit false bm n) = false ∧
      ∀ j, j < Bitmap.first_bit false bm n → Bitmap.is_set bm j = true := by
  unfold Bitmap.first_bit Bitmap.next_bit
  cases hf : (List.range n).find?
      (fun (i : Nat) => decide ((-1 : Int) < (i : Int)) && (Bitmap.is_set bm i == false)) with
  | none =>
    exfalso
    obtain ⟨i, hi, hc⟩ := h
    have := List.find?_range_eq_none.mp hf i hi
    simp [hc] at this
    omega
  | some b =>
    obtain ⟨h1, h2, h3⟩ := List.find?_range_eq_some.mp hf
    simp only [Option.getD_some]
    simp only [Bool.and_eq_true, decide_eq_true_eq, beq_iff_eq] at h1
    refine ⟨List.mem_range.mp h2, h1.2, ?_⟩
    intro j hj
    have := h3 j hj
    simp only [Bool.not_eq_true', Bool.and_eq_false_iff, decide_eq_false_iff_not, not_lt,
      beq_eq_false_iff_ne, ne_eq, Bool.not_eq_false] at this
    rcases this with h0 | h0
    · omega
    · exact h0

theorem range_map_getD (l : List Nat) :
    (List.range l.length).map (fun i => l.getD i 0) = l := by
  apply List.ext_getElem
  · simp
  · intro i h1 h2
    simp [List.getD_eq_getElem?_getD, List.getElem?_eq_getElem h2]

theorem memcpy_read_back (old buf : List Nat) (n : Nat) (h : buf.length = n) :
    memcpy (List.replicate n 0) (memcpy old buf n) n = buf := by
  subst h
  unfold memcpy
  rw [range_map_getD]
  have : (List.range buf.length).map (fun i => (buf ++ List.drop buf.length old).getD i 0)
      = (List.range buf.length).map (fun i => buf.getD i 0) := by
    apply List.map_congr_left
    intro i hi
    have hi' := List.mem_range.mp hi
    simp [List.getD_eq_getElem?_getD, List.getElem?_append_left hi']
  rw [this, range_map_getD]
  simp

/-- C17: let `create_page_handle` hand out the page `p` (the head of the free list, or the
page `NewPage` allocates when `first_free_page_no` is `INVALID_PAGE_ID`), let `p` be a page of
the file whose bitmap has a clear bit below `num_records_per_page`, let the slots fit the
page and `buf` have `record_size` bytes.  Then `insert_record(buf)` returns `Rid{p, b}` with
`b` the lowest clear bit of the bitmap of `p`; afterwards bit `b` is set, `get_record` of that
rid returns `buf`, and every other slot of `p` and every other page are as before. -/
theorem insert_record_fills_lowest_clear_slot (s s1 : RmState) (buf : List Nat) (p : Int)
    (rph : RmPage)
    (hbuf : buf.length = s.file_hdr.record_size)
    (hlayout : sizeof_RmPageHdr + s.file_hdr.bitmap_size +
      s.file_hdr.num_records_per_page * s.file_hdr.record_size ≤ PAGE_SIZE)
    (hcreate : RmFileHandle.create_page_handle s = .ok (p, rph, s1))
    (hp : p < s1.file_hdr.num_pages)
    (hclear : ∃ i, i < s.file_hdr.num_records_per_page ∧ i < rph.bitmap.length ∧
      Bitmap.is_set rph.bitmap i = false) :
    (s.file_hdr.first_free_page_no = INVALID_PAGE_ID → p = s.fd2pageno) ∧
    (s.file_hdr.first_free_page_no ≠ INVALID_PAGE_ID →
      p = s.file_hdr.first_free_page_no ∧ s.pages p = some rph) ∧
    ∃ (b : Nat) (s' : RmState) (pg' : RmPage),
      RmFileHandle.insert_record s buf = .ok (⟨p, b⟩, s') ∧
      b < s.file_hdr.num_records_per_page ∧ Bitmap.is_set rph.bitmap b = false ∧
      (∀ j, j < b → Bitmap.is_set rph.bitmap j = true) ∧
      s'.pages p = some pg' ∧ Bitmap.is_set pg'.bitmap b = true ∧
      RmFileHandle.get_record s' ⟨p, b⟩ = .ok buf ∧
      (∀ i, i ≠ b → pg'.slots i = rph.slots i) ∧
      (∀ q, q ≠ p → s'.pages q = s.pages q) := by
  obtain ⟨hpg, hother, hrs, hn, hbs, hfresh, hhead⟩ := create_page_handle_ok hcreate
  refine ⟨fun h => (hfresh h).1, fun h => ⟨(hhead h).1, (hhead h).2.1⟩, ?_⟩
  obtain ⟨i0, hi0n, hi0l, hi0c⟩ := hclear
  rw [← hn] at hi0n
  obtain ⟨hb, hbc, hbmin⟩ := first_bit_clear ⟨i0, hi0n, hi0c⟩
  generalize hbdef : Bitmap.first_bit false rph.bitmap s1.file_hdr.num_records_per_page = b
    at hb hbc hbmin
  have hbl : b < rph.bitmap.length := by
    by_contra hge
    have := hbmin i0 (by omega)
    rw [hi0c] at this
    exact absurd this (by decide)
  have hslot : s1.file_hdr.slot_in_page b := by
    unfold RmFileHdr.slot_in_page
    rw [hrs, hbs]
    have : (b + 1) * s.file_hdr.record_size ≤
        s.file_hdr.num_records_per_page * s.file_hdr.record_size :=
      Nat.mul_le_mul_right _ (by omega)
    omega
  have hbit : RmFileHandle.bit_in_bitmap rph (b : Int) = .ok b := by
    simp [RmFileHandle.bit_in_bitmap, hbl]
  have hgs : ∀ hdr : RmFileHdr, hdr = s1.file_hdr → RmFileHandle.get_slot hdr (b : Int) = .ok b := by
    rintro hdr rfl
    simp [RmFileHandle.get_slot, hslot]
  -- the page after the three writes
  let pg' : RmPage :=
    { page_hdr := { rph.page_hdr with num_records := rph.page_hdr.num_records + 1 },
      bitmap := Bitmap.set rph.bitmap b,
      slots := fun i => if i = b then memcpy (rph.slots b) buf s1.file_hdr.record_size
        else rph.slots i }
  let s2 : RmState :=
    ((s1.modify p (fun pg => { pg with bitmap := Bitmap.set pg.bitmap b })).modify p
      (fun pg => pg.copy_to_slot b buf s1.file_hdr.record_size)).modify p
      (fun pg => { pg with page_hdr := { pg.page_hdr with num_records := pg.page_hdr.num_records + 1 } })
  have hs2p : s2.pages p = some pg' :=
    rm_modify_pages_self _ (rm_modify_pages_self _ (rm_modify_pages_self _ hpg))
  have hs2q : ∀ q, q ≠ p → s2.pages q = s.pages q := by
    intro q hq
    simp only [s2, rm_modify_pages_ne _ _ hq]
    exact hother q hq
  obtain ⟨s', hins, hpages, h_rs, h_bs, h_np⟩ : ∃ s', RmFileHandle.insert_record s buf
      = .ok (⟨p, b⟩, s') ∧ s'.pages = s2.pages ∧
      s'.file_hdr.record_size = s1.file_hdr.record_size ∧
      s'.file_hdr.bitmap_size = s1.file_hdr.bitmap_size ∧
      s'.file_hdr.num_pages = s1.file_hdr.num_pages := by
    unfold RmFileHandle.insert_record
    rw [hcreate]
    simp only [ok_bind, hbdef, hbit, rm_modify_file_hdr, hgs _ rfl, pure_eq_ok]
    refine ⟨_, rfl, ?_⟩
    split <;> exact ⟨rfl, by simp, by simp, by simp⟩
  have hset : Bitmap.is_set pg'.bitmap b = true := by
    simp only [pg', Bitmap.is_set, Bitmap.set]
    exact getD_set_eq _ _ _ _ hbl
  have hget : ∀ s' : RmState, s'.pages p = some pg' → s'.file_hdr.record_size = s1.file_hdr.record_size →
      s'.file_hdr.bitmap_size = s1.file_hdr.bitmap_size → s'.file_hdr.num_pages = s1.file_hdr.num_pages →
      RmFileHandle.get_record s' ⟨p, b⟩ = .ok buf := by
    intro s' h1 h2 h3 h4
    have hf : RmFileHandle.fetch_page_handle s' p = .ok pg' :=
      fetch_page_handle_eq_ok.mpr ⟨h1, by rw [h4]; exact hp⟩
    have hg : RmFileHandle.get_slot s'.file_hdr (b : Int) = .ok b := by
      have : s'.file_hdr.slot_in_page b := by
        unfold RmFileHdr.slot_in_page at hslot ⊢
        rw [h2, h3]
        exact hslot
      simp [RmFileHandle.get_slot, this]
    unfold RmFileHandle.get_record
    simp only [hf, hg, ok_bind, pure_eq_ok, h2, pg', if_true]
    rw [memcpy_read_back _ _ _ (by rw [hbuf, hrs])]
  refine ⟨b, s', pg', hins, hn ▸ hb, hbc, hbmin, by rw [hpages]; exact hs2p, hset,
    hget s' (by rw [hpages]; exact hs2p) h_rs h_bs h_np, ?_, ?_⟩
  · intro i hi
    simp [pg', hi]
  · intro q hq
    rw [hpages]
    exact hs2q q hq

theorem insert_record_fills_lowest_clear_slot_witness :
    ∃ (b : Nat) (s' : RmState) (pg' : RmPage),
      RmFileHandle.insert_record (empty_record_file 4 3 1) (be32 7) = .ok (⟨1, b⟩, s') ∧
      b < 3 ∧ s'.pages 1 = some pg' ∧ Bitmap.is_set pg'.bitmap b = true ∧
      RmFileHandle.get_record s' ⟨1, b⟩ = .ok (be32 7) :=
  let ⟨b, s', pg', h1, h2, _, _, h5, h6, h7, _, _⟩ :=
    (insert_record_fills_lowest_clear_slot (empty_record_file 4 3 1)
      (RmFileHandle.create_new_page_handle (empty_record_file 4 3 1)).2.2 (be32 7) 1
      (RmFileHandle.create_new_page_handle (empty_record_file 4 3 1)).2.1
      rfl (by decide) rfl (by decide) ⟨0, by decide, by decide, by decide⟩).2.2
  ⟨b, s', pg', h1, h2, h5, h6, h7⟩

theorem find?_eq_head?_filter {α : Type} (p : α → Bool) (l : List α) :
    l.find? p = (l.filter p).head? := by
  induction l with
  | nil => rfl
  | cons a l ih =>
    simp only [List.find?_cons, List.filter_cons]
    cases hp : p a
    · exact ih
    · rfl

theorem filter_after_head (bm : Nat → Bool) (l : List Nat) (hl : l.Pairwise (· < ·)) (c : Int)
    (i : Nat) (t : List Nat)
    (h : l.filter (fun (j : Nat) => decide (c < (j : Int)) && bm j) = i :: t) :
    l.filter (fun (j : Nat) => decide ((i : Int) < (j : Int)) && bm j) = t := by
  induction l with
  | nil => simp at h
  | cons a l ih =>
    obtain ⟨ha, hl'⟩ := List.pairwise_cons.mp hl
    simp only [List.filter_cons] at h ⊢
    by_cases hp : (decide (c < (a : Int)) && bm a) = true
    · rw [if_pos hp] at h
      obtain ⟨rfl, rfl⟩ := List.cons.inj h
      rw [if_neg (by simp)]
      apply List.filter_congr
      intro x hx
      have hax := ha x hx
      simp only [Bool.and_eq_true, decide_eq_true_eq] at hp
      have h1 : (a : Int) < (x : Int) := by omega
      have h2 : c < (x : Int) := by omega
      simp [h1, h2]
    · rw [if_neg hp] at h
      have hi : i ∈ l := by
        have : i ∈ l.filter (fun (j : Nat) => decide (c < (j : Int)) && bm j) := by
          rw [h]; exact List.mem_cons_self _ _
        exact (List.mem_filter.mp this).1
      have hai := ha i hi
      rw [if_neg]
      · exact ih hl' h
      · have : ¬ (i : Int) < (a : Int) := by omega
        simp [this]

theorem page_rids_after_head (n : Nat) (p : Int) (bm : List Bool) (c : Int) (r : Rid)
    (t : List Rid) (h : page_rids n p bm c = r :: t) :
    r.page_no = p ∧ 0 ≤ r.slot_no ∧ page_rids n p bm r.slot_no = t := by
  unfold page_rids at h ⊢
  cases hf : (List.range n).filter
      (fun (i : Nat) => decide (c < (i : Int)) && (Bitmap.is_set bm i == true)) with
  | nil =>
    rw [hf] at h
    cases h
  | cons i t' =>
    rw [hf] at h
    simp only [List.map_cons, List.cons.injEq] at h
    obtain ⟨rfl, rfl⟩ := h
    refine ⟨rfl, Int.ofNat_nonneg i, ?_⟩
    have := filter_after_head (fun j => Bitmap.is_set bm j == true) (List.range n)
      (List.pairwise_lt_range n) c i t' hf
    rw [this]

theorem RmScan_next_spec (s : RmState) (k : Nat) : ∀ (p c : Int) (fuel : Nat),
    p + k = s.file_hdr.num_pages → k < fuel →
    (∀ q, p ≤ q → q < s.file_hdr.num_pages → ∃ pg, s.pages q = some pg) →
    RmScan.next s fuel ⟨p, c⟩ = .ok ((rids_after s k p c).headD ⟨RM_NO_PAGE, -1⟩) := by
  induction k with
  | zero =>
    intro p c fuel hp hf _
    obtain ⟨fuel, rfl⟩ : ∃ m, fuel = m + 1 := ⟨fuel - 1, by omega⟩
    have : ¬ p < s.file_hdr.num_pages := by omega
    simp [RmScan.next, rids_after, this]
  | succ k ih =>
    intro p c fuel hp hf hpages
    obtain ⟨fuel, rfl⟩ : ∃ m, fuel = m + 1 := ⟨fuel - 1, by omega⟩
    have hlt : p < s.file_hdr.num_pages := by omega
    obtain ⟨pg, hpg⟩ := hpages p le_rfl hlt
    have hfetch : RmFileHandle.fetch_page_handle s p = .ok pg :=
      fetch_page_handle_eq_ok.mpr ⟨hpg, hlt⟩
    have hrec := ih (p + 1) (-1) fuel (by omega) (by omega)
      (fun q h1 h2 => hpages q (by omega) h2)
    simp only [RmScan.next, hlt, if_true, hfetch, ok_bind, rids_after, hpg]
    unfold Bitmap.next_bit page_rids
    rw [find?_eq_head?_filter]
    cases hfl : (List.range s.file_hdr.num_records_per_page).filter
        (fun (i : Nat) => decide (c < (i : Int)) && (Bitmap.is_set pg.bitmap i == true)) with
    | nil =>
      simp only [List.head?_nil, Option.getD_none, lt_self_iff_false, if_false, List.map_nil,
        List.nil_append]
      exact hrec
    | cons i t =>
      have hi : i < s.file_hdr.num_records_per_page := by
        have : i ∈ (List.range s.file_hdr.num_records_per_page).filter
            (fun (i : Nat) => decide (c < (i : Int)) && (Bitmap.is_set pg.bitmap i == true)) := by
          rw [hfl]; exact List.mem_cons_self _ _
        exact List.mem_range.mp (List.mem_filter.mp this).1
      simp [hi]

theorem rids_after_tail (s : RmState) (k : Nat) : ∀ (p c : Int) (r : Rid) (rest : List Rid),
    rids_after s k p c = r :: rest →
    ∃ k' : Nat, r.page_no + k' = p + k ∧ p ≤ r.page_no ∧ 0 ≤ r.slot_no ∧
      rids_after s k' r.page_no r.slot_no = rest := by
  induction k with
  | zero =>
    intro p c r rest h
    cases h
  | succ k ih =>
    intro p c r rest h
    simp only [rids_after] at h
    cases hpr : (match s.pages p with
      | some pg => page_rids s.file_hdr.num_records_per_page p pg.bitmap c
      | none => []) with
    | nil =>
      rw [hpr, List.nil_append] at h
      obtain ⟨k', h1, h2, h3, h4⟩ := ih (p + 1) (-1) r rest h
      exact ⟨k', by omega, by omega, h3, h4⟩
    | cons x t =>
      rw [hpr, List.cons_append] at h
      obtain ⟨rfl, rfl⟩ := List.cons.inj h
      cases hpg : s.pages p with
      | none =>
        rw [hpg] at hpr
        cases hpr
      | some pg =>
        rw [hpg] at hpr
        obtain ⟨h1, h2, h3⟩ := page_rids_after_head _ _ _ _ _ _ hpr
        refine ⟨k + 1, by omega, by omega, h2, ?_⟩
        simp only [rids_after, h1, hpg, h3]

theorem scan_loop_spec (s : RmState) (fuel : Nat) (L : List Rid) : ∀ (k : Nat) (p c : Int)
    (steps : Nat), rids_after s k p c = L → p + k = s.file_hdr.num_pages → 1 ≤ p →
    L.length < steps → s.file_hdr.num_pages.toNat < fuel →
    (∀ q, p ≤ q → q < s.file_hdr.num_pages → ∃ pg, s.pages q = some pg) →
    scan_loop s fuel steps (L.headD ⟨RM_NO_PAGE, -1⟩) = .ok (L, ⟨RM_NO_PAGE, -1⟩) := by
  induction L with
  | nil =>
    intro k p c steps _ _ _ hs _ _
    obtain ⟨steps, rfl⟩ : ∃ m, steps = m + 1 := ⟨steps - 1, by omega⟩
    rfl
  | cons r rest ih =>
    intro k p c steps hL hk hp hs hfuel hpages
    obtain ⟨steps, rfl⟩ : ∃ m, steps = m + 1 := ⟨steps - 1, by omega⟩
    obtain ⟨k', h1, h2, h3, h4⟩ := rids_after_tail s k p c r rest hL
    have hnext := RmScan_next_spec s k' r.page_no r.slot_no fuel (by omega) (by omega)
      (fun q hq1 hq2 => hpages q (by omega) hq2)
    rw [h4] at hnext
    have hend : RmScan.is_end r = false := by
      have : r.page_no ≠ RM_NO_PAGE := by
        unfold RM_NO_PAGE
        omega
      simp [RmScan.is_end, this]
    have hrec := ih k' r.page_no r.slot_no steps h4 (by omega) (by omega)
      (by simp only [List.length_cons] at hs; omega) hfuel
      (fun q hq1 hq2 => hpages q (by omega) hq2)
    simp only [List.headD_cons, scan_loop, hend, Bool.false_eq_true, if_false]
    rw [show (⟨r.page_no, r.slot_no⟩ : Rid) = r from rfl] at hnext
    rw [hnext]
    simp only [ok_bind]
    rw [hrec]
    rfl

theorem mem_page_rids (n : Nat) (p : Int) (bm : List Bool) (c : Int) (rid : Rid) :
    rid ∈ page_rids n p bm c ↔ rid.page_no = p ∧ c < rid.slot_no ∧ 0 ≤ rid.slot_no ∧
      rid.slot_no < n ∧ Bitmap.is_set bm rid.slot_no.toNat = true := by
  unfold page_rids
  simp only [List.mem_map, List.mem_filter, List.mem_range, Bool.and_eq_true, decide_eq_true_eq,
    beq_iff_eq]
  constructor
  · rintro ⟨i, ⟨hi, hc, hs⟩, rfl⟩
    exact ⟨rfl, hc, by simp, by simpa using hi, by simpa using hs⟩
  · rintro ⟨h1, h2, h3, h4, h5⟩
    refine ⟨rid.slot_no.toNat, ⟨by omega, by omega, h5⟩, ?_⟩
    cases rid with
    | mk pn sn =>
      simp only at h1 h3 ⊢
      subst h1
      congr 1
      omega

theorem mem_rids_after (s : RmState) (k : Nat) : ∀ (p c : Int) (rid : Rid),
    rid ∈ rids_after s k p c ↔ ∃ pg, s.pages rid.page_no = some pg ∧ p ≤ rid.page_no ∧
      rid.page_no < p + k ∧ (rid.page_no = p → c < rid.slot_no) ∧ 0 ≤ rid.slot_no ∧
      rid.slot_no < s.file_hdr.num_records_per_page ∧
      Bitmap.is_set pg.bitmap rid.slot_no.toNat = true := by
  induction k with
  | zero =>
    intro p c rid
    simp only [rids_after, List.not_mem_nil, false_iff]
    rintro ⟨pg, _, h1, h2, _⟩
    omega
  | succ k ih =>
    intro p c rid
    simp only [rids_after, List.mem_append, ih]
    constructor
    · rintro (h | ⟨pg, h1, h2, h3, h4, h5, h6, h7⟩)
      · cases hpg : s.pages p with
        | none => rw [hpg] at h; cases h
        | some pg =>
          rw [hpg] at h
          obtain ⟨h1, h2, h3, h4, h5⟩ := (mem_page_rids _ _ _ _ _).mp h
          exact ⟨pg, by rw [h1]; exact hpg, by omega, by omega, fun _ => h2, h3, h4, h5⟩
      · exact ⟨pg, h1, by omega, by omega, fun h => by omega, h5, h6, h7⟩
    · rintro ⟨pg, h1, h2, h3, h4, h5, h6, h7⟩
      by_cases hp : rid.page_no = p
      · left
        rw [← hp, h1]
        exact (mem_page_rids _ _ _ _ _).mpr ⟨rfl, h4 hp, h5, h6, h7⟩
      · right
        exact ⟨pg, h1, by omega, by omega, fun _ => by omega, h5, h6, h7⟩

theorem page_rids_sorted (n : Nat) (p : Int) (bm : List Bool) (c : Int) :
    (page_rids n p bm c).Pairwise Rid.lt := by
  unfold page_rids
  apply List.Pairwise.map _ _ ((List.pairwise_lt_range n).filter _)
  intro a b hab
  exact Or.inr ⟨rfl, by simpa using hab⟩

theorem rids_after_sorted (s : RmState) (k : Nat) : ∀ (p c : Int),
    (rids_after s k p c).Pairwise Rid.lt := by
  induction k with
  | zero => intro p c; exact List.Pairwise.nil
  | succ k ih =>
    intro p c
    simp only [rids_after]
    refine List.pairwise_append.mpr ⟨?_, ih _ _, ?_⟩
    · cases s.pages p with
      | none => exact List.Pairwise.nil
      | some pg => exact page_rids_sorted _ _ _ _
    · intro a ha b hb
      have hb' := ((mem_rids_after s k _ _ b).mp hb).choose_spec.2.1
      have ha' : a.page_no = p := by
        cases hpg : s.pages p with
        | none => rw [hpg] at ha; cases ha
        | some pg =>
          rw [hpg] at ha
          exact ((mem_page_rids _ _ _ _ _).mp ha).1
      exact Or.inl (by omega)

theorem rids_after_length (s : RmState) (k : Nat) : ∀ (p c : Int),
    (rids_after s k p c).length ≤ k * s.file_hdr.num_records_per_page := by
  induction k with
  | zero => intro p c; simp [rids_after]
  | succ k ih =>
    intro p c
    simp only [rids_after, List.length_append]
    have h1 := ih (p + 1) (-1)
    have h2 : (match s.pages p with
        | some pg => page_rids s.file_hdr.num_records_per_page p pg.bitmap c
        | none => []).length ≤ s.file_hdr.num_records_per_page := by
      cases s.pages p with
      | none => simp
      | some pg =>
        simp only [page_rids, List.length_map]
        exact (List.length_filter_le _ _).trans (by simp)
    rw [Nat.succ_mul]
    omega

/-- C20: on a record file whose pages 1 .. `num_pages - 1` exist, constructing a scan and
calling `next` until `is_end` ends after finitely many steps with `rid_ = {-1, -1}`; the rids
read are exactly the rids on the pages 1 .. `num_pages - 1` whose bit is set, in strictly
increasing order of `(page_no, slot_no)`, each once; and when no bit is set the new scan is at
its end. -/
theorem scan_yields_records_in_order (s : RmState) (hnp : 1 ≤ s.file_hdr.num_pages)
    (hpages : ∀ p, 1 ≤ p → p < s.file_hdr.num_pages → ∃ pg, s.pages p = some pg) :
    ∃ L, scan_records s
        (s.file_hdr.num_pages.toNat * (s.file_hdr.num_records_per_page + 1) + 1)
        = .ok (L, ⟨-1, -1⟩) ∧
      (∀ rid, rid ∈ L ↔
        (1 ≤ rid.page_no ∧ rid.page_no < s.file_hdr.num_pages ∧ s.holds_record rid = true)) ∧
      L.Pairwise Rid.lt ∧ L.Nodup ∧
      ((∀ rid, 1 ≤ rid.page_no → rid.page_no < s.file_hdr.num_pages →
          s.holds_record rid = false) →
        ∃ r, RmScan.new s
          (s.file_hdr.num_pages.toNat * (s.file_hdr.num_records_per_page + 1) + 1) = .ok r ∧
          RmScan.is_end r = true) := by
  generalize hfuel : s.file_hdr.num_pages.toNat * (s.file_hdr.num_records_per_page + 1) + 1 = fuel
  have hN : s.file_hdr.num_pages.toNat ≤
      s.file_hdr.num_pages.toNat * (s.file_hdr.num_records_per_page + 1) :=
    Nat.le_mul_of_pos_right _ (by omega)
  have hK : (1 : Int) + ((s.file_hdr.num_pages - 1).toNat : Nat) = s.file_hdr.num_pages := by
    omega
  have hnew := RmScan_next_spec s (s.file_hdr.num_pages - 1).toNat 1 (-1) fuel hK (by omega)
    hpages
  have hlen := rids_after_length s (s.file_hdr.num_pages - 1).toNat 1 (-1)
  have hlen' : (s.file_hdr.num_pages - 1).toNat * s.file_hdr.num_records_per_page ≤
      s.file_hdr.num_pages.toNat * (s.file_hdr.num_records_per_page + 1) :=
    Nat.mul_le_mul (by omega) (by omega)
  have hloop := scan_loop_spec s fuel _ (s.file_hdr.num_pages - 1).toNat 1 (-1) fuel rfl hK
    le_rfl (by omega) (by omega) hpages
  have hmem : ∀ rid, rid ∈ rids_after s (s.file_hdr.num_pages - 1).toNat 1 (-1) ↔
      (1 ≤ rid.page_no ∧ rid.page_no < s.file_hdr.num_pages ∧ s.holds_record rid = true) := by
    intro rid
    rw [mem_rids_after]
    unfold RmState.holds_record
    constructor
    · rintro ⟨pg, h1, h2, h3, h4, h5, h6, h7⟩
      refine ⟨h2, by omega, ?_⟩
      rw [h1]
      simp [h5, h6, h7]
    · rintro ⟨h1, h2, h3⟩
      cases hpg : s.pages rid.page_no with
      | none => rw [hpg] at h3; cases h3
      | some pg =>
        rw [hpg] at h3
        simp only [Bool.and_eq_true, decide_eq_true_eq] at h3
        exact ⟨pg, rfl, h1, by omega, fun _ => by omega, h3.1.1, h3.1.2, h3.2⟩
  have hsorted := rids_after_sorted s (s.file_hdr.num_pages - 1).toNat 1 (-1)
  refine ⟨rids_after s (s.file_hdr.num_pages - 1).toNat 1 (-1), ?_, hmem, hsorted, ?_, ?_⟩
  · unfold scan_records RmScan.new
    rw [show RM_FIRST_RECORD_PAGE = 1 from rfl, hnew]
    exact hloop
  · refine hsorted.imp ?_
    intro a b hab e
    subst e
    rcases hab with h | ⟨_, h⟩ <;> omega
  · intro hnone
    have : rids_after s (s.file_hdr.num_pages - 1).toNat 1 (-1) = [] := by
      apply List.eq_nil_iff_forall_not_mem.mpr
      intro rid hrid
      obtain ⟨h1, h2, h3⟩ := (hmem rid).mp hrid
      rw [hnone rid h1 h2] at h3
      cases h3
    refine ⟨⟨RM_NO_PAGE, -1⟩, ?_, rfl⟩
    unfold RmScan.new
    rw [show RM_FIRST_RECORD_PAGE = 1 from rfl, hnew, this]
    rfl

theorem scan_yields_records_in_order_witness :
    ∃ L, scan_records two_record_file 9 = .ok (L, ⟨-1, -1⟩) ∧
      (∀ rid, rid ∈ L ↔
        (1 ≤ rid.page_no ∧ rid.page_no < 2 ∧ two_record_file.holds_record rid = true)) ∧
      L.Pairwise Rid.lt :=
  let ⟨L, h1, h2, h3, _, _⟩ := scan_yields_records_in_order two_record_file (by decide)
    (fun p hp1 hp2 => ⟨_, show two_record_file.pages p = _ by
      have : p = 1 := by
        have : two_record_file.file_hdr.num_pages = 2 := rfl
        omega
      subst this
      rfl⟩)
  ⟨L, h1, h2, h3⟩

/-- C23 at a failing input: with the file `a.db` open, `open_file("a.db")` and
`destroy_file("a.db")` both throw `UnixError`, whose kind is `IOError` and not `FileInUse`. -/
theorem open_file_in_use_throws_unix_error :
    DiskManager.open_file disk_with_open_file "a.db" = .error .UnixError ∧
      DiskManager.destroy_file disk_with_open_file "a.db" = .error .UnixError ∧
      DiskError.UnixError.kind = .IOError ∧ DiskError.UnixError.kind ≠ .FileInUse := by
  refine ⟨rfl, rfl, rfl, by decide⟩

/-- C22 at two failing inputs: a completed `get_record(Rid{1, 0})` has issued one `FetchPage`
and no `UnpinPage` on page 1, a net pin count of +1; and a completed `GetValue` on a single-leaf
tree has issued one `FetchPage` and two `UnpinPage` on the leaf page 2, a net pin count
of -1. -/
theorem pin_count_not_conserved :
    (do
      let calls ← RmFileHandle.get_record_calls two_record_file ⟨1, 0⟩
      pure (calls, pin_delta 1 calls)) = .ok ([.FetchPage 1], 1) ∧
    (do
      let calls ← IxIndexHandle.GetValue_calls (single_leaf 4 4 [(be32 10, ⟨10, 0⟩)]) (be32 10) 4
      pure (calls, pin_delta 2 calls))
      = .ok ([.FetchPage 2, .UnpinPage 2, .UnpinPage 2], -1) := by
  refine ⟨rfl, rfl⟩

/-- C27 at a failing input: with two slots per page, three inserts fill page 1 and put one
record on page 2; `delete_record(Rid{1, 0})` then leaves `first_free_page_no = -1` (page 1 has
`next_free_page_no = 2`), and the insert that follows returns `Rid{3, 0}` on a new page. -/
theorem delete_from_full_page_not_reused :
    (do
      let (s, rids, _) ← rm_run (empty_record_file 4 2 1)
        [.insert (be32 1), .insert (be32 2), .insert (be32 3)]
      pure (rids, s.file_hdr.first_free_page_no, s.page_counts 1, s.page_counts 2))
      = .ok ([⟨1, 0⟩, ⟨1, 1⟩, ⟨2, 0⟩], 2, some (2, 2, -1), some (1, 1, -1)) ∧
    (do
      let (s, _, valid) ← rm_run (empty_record_file 4 2 1)
        [.insert (be32 1), .insert (be32 2), .insert (be32 3), .delete ⟨1, 0⟩]
      pure (valid, s.file_hdr.first_free_page_no, s.page_counts 1))
      = .ok (true, -1, some (1, 1, 2)) ∧
    (do
      let (_, rids, _) ← rm_run (empty_record_file 4 2 1)
        [.insert (be32 1), .insert (be32 2), .insert (be32 3), .delete ⟨1, 0⟩, .insert (be32 4)]
      pure rids)
      = .ok [⟨1, 0⟩, ⟨1, 1⟩, ⟨2, 0⟩, ⟨3, 0⟩] := by
  refine ⟨rfl, rfl, rfl⟩

/-- C30 at a failing input: order 4; after the keys 10, 20, 30, 40 and then 5 have been
inserted, the root is an internal node whose `keys[0]` is 10, while the first key of its
child 0 is 5. -/
theorem leftmost_separator_stale_after_insert :
    (do
      let s ← run_ops 8 (single_leaf 4 4 []) [ins 10, ins 20, ins 30, ins 40, ins 5]
      let root ← IxIndexHandle.FetchNode s s.file_hdr.root_page
      let child ← IxIndexHandle.FetchNode s (IxNodeHandle.ValueAt root 0)
      pure (root.is_leaf, IxNodeHandle.get_key root 0, IxNodeHandle.get_key child 0,
        child.pairs.map Prod.fst))
      = .ok (false, be32 10, be32 5, [be32 5, be32 10, be32 20]) := by
  rfl

/-- C21: on a record file in which page `rid.page_no` exists and lies below `num_pages`, and
slot `rid.slot_no` lies inside the page, `update_record(rid, buf)` completes; afterwards the
slot holds the first `record_size` bytes of `buf` (so `get_record(rid)` returns `buf` when
`buf` has `record_size` bytes), and the page header, the bitmap and every other slot of the
page, every other page, the file header and the page counter are unchanged. -/
theorem update_record_changes_one_slot (s : RmState) (rid : Rid) (buf : List Nat) (pg : RmPage)
    (hpg : s.pages rid.page_no = some pg) (hlt : rid.page_no < s.file_hdr.num_pages)
    (hslot : 0 ≤ rid.slot_no ∧ s.file_hdr.slot_in_page rid.slot_no.toNat) :
    ∃ s' pg', RmFileHandle.update_record s rid buf = .ok s' ∧
      s'.pages rid.page_no = some pg' ∧
      pg'.slots rid.slot_no.toNat =
        memcpy (pg.slots rid.slot_no.toNat) buf s.file_hdr.record_size ∧
      (buf.length = s.file_hdr.record_size → RmFileHandle.get_record s' rid = .ok buf) ∧
      pg'.page_hdr = pg.page_hdr ∧ pg'.bitmap = pg.bitmap ∧
      (∀ i, i ≠ rid.slot_no.toNat → pg'.slots i = pg.slots i) ∧
      (∀ q, q ≠ rid.page_no → s'.pages q = s.pages q) ∧
      s'.file_hdr = s.file_hdr ∧ s'.fd2pageno = s.fd2pageno := by
  have hfetch : RmFileHandle.fetch_page_handle s rid.page_no = .ok pg :=
    fetch_page_handle_eq_ok.mpr ⟨hpg, hlt⟩
  have hgs : RmFileHandle.get_slot s.file_hdr rid.slot_no = .ok rid.slot_no.toNat := by
    simp [RmFileHandle.get_slot, hslot]
  have hupd : RmFileHandle.update_record s rid buf = .ok (s.modify rid.page_no
      (fun pg => pg.copy_to_slot rid.slot_no.toNat buf s.file_hdr.record_size)) := by
    unfold RmFileHandle.update_record
    simp only [hfetch, hgs, ok_bind, pure_eq_ok]
  have hpage := rm_modify_pages_self
    (fun pg => pg.copy_to_slot rid.slot_no.toNat buf s.file_hdr.record_size) hpg
  refine ⟨_, _, hupd, hpage, by simp [RmPage.copy_to_slot], ?_, rfl, rfl, ?_, ?_, by simp, ?_⟩
  · intro hbuf
    have hfetch' : RmFileHandle.fetch_page_handle (s.modify rid.page_no
        (fun pg => pg.copy_to_slot rid.slot_no.toNat buf s.file_hdr.record_size)) rid.page_no
        = .ok (pg.copy_to_slot rid.slot_no.toNat buf s.file_hdr.record_size) :=
      fetch_page_handle_eq_ok.mpr ⟨hpage, by simpa using hlt⟩
    unfold RmFileHandle.get_record
    simp only [hfetch', rm_modify_file_hdr, hgs, ok_bind, pure_eq_ok]
    simp only [RmPage.copy_to_slot, if_true]
    rw [memcpy_read_back _ _ _ hbuf]
  · intro i hi
    simp [RmPage.copy_to_slot, hi]
  · intro q hq
    exact rm_modify_pages_ne _ _ hq
  · unfold RmState.modify
    rw [hpg]
    rfl

theorem update_record_changes_one_slot_witness :
    ∃ s' pg', RmFileHandle.update_record two_record_file ⟨1, 2⟩ (be32 77) = .ok s' ∧
      s'.pages 1 = some pg' ∧
      RmFileHandle.get_record s' ⟨1, 2⟩ = .ok (be32 77) ∧
      pg'.slots 0 = be32 10 ∧ s'.file_hdr = two_record_file.file_hdr :=
  let ⟨s', pg', h1, h2, _, h4, _, _, h7, _, h9, _⟩ :=
    update_record_changes_one_slot two_record_file ⟨1, 2⟩ (be32 77)
      { page_hdr := { next_free_page_no := -1, num_records := 2 },
        bitmap := [true, false, true, false, false, false, false, false],
        slots := fun i => if i = 0 then be32 10 else if i = 2 then be32 30 else be32 0 }
      rfl (by decide) ⟨by decide, by decide⟩
  ⟨s', pg', h1, h2, h4 rfl, (h7 0 (by decide)).trans rfl, h9⟩

theorem Victim_loop_out_of_fuel (k : Nat) : ∀ (r : ClockReplacer),
    r.circular_.length = r.capacity_ → r.hand_ < r.capacity_ → k ≤ r.capacity_ →
    (∀ j, j < k → r.slot ((r.hand_ + j) % r.capacity_) ≠ .UNTOUCHED) →
    ClockReplacer.Victim_loop k r = .error .outOfFuel := by
  induction k with
  | zero => intro r _ _ _ _; rfl
  | succ k ih =>
    intro r hlen hhand hk hno
    have hcap : 0 < r.capacity_ := by omega
    have h0 : r.slot r.hand_ ≠ .UNTOUCHED := by
      have := hno 0 (by omega)
      simpa [Nat.mod_eq_of_lt hhand] using this
    cases hs : r.slot r.hand_ with
    | UNTOUCHED => exact absurd hs h0
    | ACCESSED =>
      simp only [ClockReplacer.Victim_loop, hs]
      apply ih { r with circular_ := r.circular_.set r.hand_ .UNTOUCHED,
                        hand_ := (r.hand_ + 1) % r.capacity_ }
        (by simp [hlen]) (Nat.mod_lt _ hcap) (by show k ≤ r.capacity_; omega)
      intro j hj
      show (r.circular_.set r.hand_ .UNTOUCHED).getD
        (((r.hand_ + 1) % r.capacity_ + j) % r.capacity_) _ ≠ _
      rw [succ_mod_add,
        getD_set_ne _ _ _ _ _ (Ne.symm (add_mod_ne _ _ _ hhand (by omega) (by omega)))]
      exact hno (j + 1) (by omega)
    | EMPTY_OR_PINNED =>
      simp only [ClockReplacer.Victim_loop, hs]
      apply ih { r with hand_ := (r.hand_ + 1) % r.capacity_ } hlen (Nat.mod_lt _ hcap)
        (by show k ≤ r.capacity_; omega)
      intro j hj
      show r.slot (((r.hand_ + 1) % r.capacity_ + j) % r.capacity_) ≠ _
      rw [succ_mod_add]
      exact hno (j + 1) (by omega)

theorem slot_out_of_range (r : ClockReplacer) (hlen : r.circular_.length = r.capacity_) (i : Nat)
    (h : r.slot i ≠ .EMPTY_OR_PINNED) : i < r.capacity_ := by
  by_contra hge
  apply h
  unfold ClockReplacer.slot
  exact List.getD_eq_default _ _ (by omega)

theorem first_from_hand (r : ClockReplacer) (hhand : r.hand_ < r.capacity_) (st : Status)
    (h : ∃ i, i < r.capacity_ ∧ r.slot i = st) :
    ∃ d, d < r.capacity_ ∧ (∀ j, j < d → r.slot ((r.hand_ + j) % r.capacity_) ≠ st) ∧
      r.slot ((r.hand_ + d) % r.capacity_) = st := by
  classical
  obtain ⟨i, hi, hs⟩ := h
  have hex : ∃ d, d < r.capacity_ ∧ r.slot ((r.hand_ + d) % r.capacity_) = st := by
    obtain ⟨d, hd, hdi⟩ := exists_offset r.hand_ i r.capacity_ hhand hi
    exact ⟨d, hd, by rw [hdi]; exact hs⟩
  obtain ⟨hd, hu⟩ := Nat.find_spec hex
  refine ⟨Nat.find hex, hd, ?_, hu⟩
  intro j hj hc
  exact @Nat.find_min _ _ hex j hj ⟨by omega, hc⟩

theorem exists_accessed (r : ClockReplacer) (hlen : r.circular_.length = r.capacity_)
    (hsz : r.Size ≠ 0) (hnoU : ∀ i, r.slot i ≠ .UNTOUCHED) :
    ∃ i, i < r.capacity_ ∧ r.slot i = .ACCESSED := by
  have hpos : 0 < r.circular_.countP Status.in_use := Nat.pos_of_ne_zero hsz
  obtain ⟨a, ha, hau⟩ := List.countP_pos_iff.mp hpos
  obtain ⟨i, hi, hia⟩ := List.getElem_of_mem ha
  have hsl : r.slot i = a := by
    unfold ClockReplacer.slot
    rw [List.getD_eq_getElem _ _ hi, hia]
  refine ⟨i, by omega, ?_⟩
  have := hnoU i
  rw [hsl] at this ⊢
  cases a
  · simp [Status.in_use] at hau
  · exact absurd rfl this
  · rfl

/-- C29: on a `ClockReplacer` whose vector has `capacity_` slots and whose hand is in range,
`Victim` returns without a single iteration of its loop when `Size()` is 0, and returns a
frame within `2 * capacity_` iterations of its loop, one slot inspected per iteration, when
`Size()` is not 0. -/
theorem clock_victim_terminates (r : ClockReplacer)
    (hlen : r.circular_.length = r.capacity_) (hhand : r.hand_ < r.capacity_) :
    (r.Size = 0 → r.Victim 0 = .ok (none, r)) ∧
    (r.Size ≠ 0 → ∃ f r', r.Victim (2 * r.capacity_) = .ok (some f, r')) := by
  constructor
  · intro h
    simp [ClockReplacer.Victim, h]
  intro hsz
  simp only [ClockReplacer.Victim, hsz, if_false]
  by_cases hU : ∃ i, i < r.capacity_ ∧ r.slot i = .UNTOUCHED
  · obtain ⟨d, hd, hmin, hu⟩ := first_from_hand r hhand _ hU
    obtain ⟨r', h1, -⟩ := Victim_loop_untouched d r (2 * r.capacity_) hlen hhand hd (by omega)
      hmin hu
    exact ⟨_, r', h1⟩
  · have hnoU : ∀ i, r.slot i ≠ .UNTOUCHED := fun i hi =>
      hU ⟨i, slot_out_of_range r hlen i (by rw [hi]; decide), hi⟩
    obtain ⟨d, hd, hmin, ha⟩ := first_from_hand r hhand _ (exists_accessed r hlen hsz hnoU)
    obtain ⟨r', h1, -⟩ := Victim_loop_accessed d r (2 * r.capacity_) hlen hhand hd (by omega)
      hnoU
      (by
        intro j hj
        have h1 := hnoU ((r.hand_ + j) % r.capacity_)
        have h2 := hmin j hj
        cases h : r.slot ((r.hand_ + j) % r.capacity_)
        · rfl
        · exact absurd h h1
        · exact absurd h h2)
      ha
    exact ⟨_, r', h1⟩

theorem clock_victim_terminates_witness :
    ([Status.EMPTY_OR_PINNED, .ACCESSED, .ACCESSED].length = 3 ∧ 2 < 3) ∧
      ∃ f r', (ClockReplacer.mk [.EMPTY_OR_PINNED, .ACCESSED, .ACCESSED] 2 3).Victim 6
        = .ok (some f, r') :=
  ⟨⟨by decide, by decide⟩,
    (clock_victim_terminates ⟨[.EMPTY_OR_PINNED, .ACCESSED, .ACCESSED], 2, 3⟩
      (by decide) (by decide)).2 (by decide)⟩

/-- C28: on a `ClockReplacer` whose vector has `capacity_` slots, whose hand is in range and
whose `Size()` is not 0: when some slot is `UNTOUCHED`, `Victim` returns the first slot at or
after the hand (cyclically) that is `UNTOUCHED`; when no slot is `UNTOUCHED`, it returns the
first slot at or after the hand that is `ACCESSED`, and its loop has not returned after
`capacity_` iterations, one for every slot. -/
theorem clock_victim_prefers_untouched (r : ClockReplacer)
    (hlen : r.circular_.length = r.capacity_) (hhand : r.hand_ < r.capacity_)
    (hsz : r.Size ≠ 0) :
    ((∃ i, r.slot i = .UNTOUCHED) → ∃ d r', d < r.capacity_ ∧
      (∀ j, j < d → r.slot ((r.hand_ + j) % r.capacity_) ≠ .UNTOUCHED) ∧
      r.slot ((r.hand_ + d) % r.capacity_) = .UNTOUCHED ∧
      r.Victim (2 * r.capacity_) = .ok (some ((r.hand_ + d) % r.capacity_), r')) ∧
    ((∀ i, r.slot i ≠ .UNTOUCHED) → ∃ d r', d < r.capacity_ ∧
      (∀ j, j < d → r.slot ((r.hand_ + j) % r.capacity_) ≠ .ACCESSED) ∧
      r.slot ((r.hand_ + d) % r.capacity_) = .ACCESSED ∧
      r.Victim (2 * r.capacity_) = .ok (some ((r.hand_ + d) % r.capacity_), r') ∧
      ClockReplacer.Victim_loop r.capacity_ r = .error .outOfFuel) := by
  simp only [ClockReplacer.Victim, hsz, if_false]
  constructor
  · rintro ⟨i, hi⟩
    obtain ⟨d, hd, hmin, hu⟩ := first_from_hand r hhand _
      ⟨i, slot_out_of_range r hlen i (by rw [hi]; decide), hi⟩
    obtain ⟨r', h1, -⟩ := Victim_loop_untouched d r (2 * r.capacity_) hlen hhand hd (by omega)
      hmin hu
    exact ⟨d, r', hd, hmin, hu, h1⟩
  · intro hnoU
    obtain ⟨d, hd, hmin, ha⟩ := first_from_hand r hhand _ (exists_accessed r hlen hsz hnoU)
    obtain ⟨r', h1, -⟩ := Victim_loop_accessed d r (2 * r.capacity_) hlen hhand hd (by omega)
      hnoU
      (by
        intro j hj
        have h1 := hnoU ((r.hand_ + j) % r.capacity_)
        have h2 := hmin j hj
        cases h : r.slot ((r.hand_ + j) % r.capacity_)
        · rfl
        · exact absurd h h1
        · exact absurd h h2)
      ha
    exact ⟨d, r', hd, hmin, ha, h1,
      Victim_loop_out_of_fuel r.capacity_ r hlen hhand le_rfl (fun j _ => hnoU _)⟩

theorem clock_victim_prefers_untouched_witness :
    ((((ClockReplacer.new 3).Unpin 0).Unpin 1).Unpin 2).circular_
        = [.ACCESSED, .ACCESSED, .ACCESSED] ∧
      (∃ d r', d < 3 ∧
        ((((ClockReplacer.new 3).Unpin 0).Unpin 1).Unpin 2).slot ((0 + d) % 3) = .ACCESSED ∧
        ((((ClockReplacer.new 3).Unpin 0).Unpin 1).Unpin 2).Victim 6
          = .ok (some ((0 + d) % 3), r')) ∧
      (do
        let (f, r) ← ((((ClockReplacer.new 3).Unpin 0).Unpin 1).Unpin 2).Victim 6
        let (g, _) ← r.Victim 6
        pure (f, g)) = .ok (some 0, some 1) :=
  ⟨by decide,
    let ⟨d, r', h1, _, h3, h4, _⟩ :=
      (clock_victim_prefers_untouched ((((ClockReplacer.new 3).Unpin 0).Unpin 1).Unpin 2)
        (by decide) (by decide) (by decide)).2
        (fun i => by
          rcases i with _ | _ | _ | i
          · decide
          · decide
          · decide
          · show Status.EMPTY_OR_PINNED ≠ Status.UNTOUCHED
            decide)
    ⟨d, r', h1, h3, h4⟩,
    rfl⟩

/-! ### Split, Redistribute and Coalesce on their own -/

theorem isSome_modify_pages (s : IxState) (p q : Int) (f : IxNode → IxNode) :
    ((s.modify p f).pages q).isSome = (s.pages q).isSome := by
  rw [modify_pages]
  split
  · next h => subst h; cases s.pages q <;> rfl
  · rfl

theorem exists_ok_bind_FetchNode {α : Type} {s : IxState} {p : Int}
    {f : IxNode → Except IxError α} (h1 : (s.pages p).isSome = true)
    (h2 : ∀ n, s.pages p = some n → ∃ r, f n = .ok r) :
    ∃ r, (FetchNode s p >>= f) = .ok r := by
  cases hp : s.pages p with
  | none => simp [hp] at h1
  | some n =>
    obtain ⟨r, hr⟩ := h2 n hp
    exact ⟨r, by rw [FetchNode_eq_ok.2 hp]; exact hr⟩

theorem exists_ok_bind {α β : Type} {x : Except IxError α} {f : α → Except IxError β}
    (h1 : ∃ a, x = .ok a) (h2 : ∀ a, x = .ok a → ∃ r, f a = .ok r) :
    ∃ r, (x >>= f) = .ok r := by
  obtain ⟨a, ha⟩ := h1
  obtain ⟨r, hr⟩ := h2 a ha
  exact ⟨r, by rw [ha]; exact hr⟩

theorem ValueAt_congr {n n' : IxNode} (h : n.pairs = n'.pairs) (i : Nat) :
    IxNodeHandle.ValueAt n i = IxNodeHandle.ValueAt n' i := by
  simp [IxNodeHandle.ValueAt, IxNodeHandle.get_rid, h]

theorem SameFrame.pages {s s' : IxState} (h : SameFrame s s') {p : Int} {n : IxNode}
    (hp : s.pages p = some n) :
    ∃ n', s'.pages p = some n' ∧ n'.is_leaf = n.is_leaf ∧ n'.pairs = n.pairs := by
  have := congrFun h.2.2.2 p
  simp only [IxState.shape, hp, Option.map_some'] at this
  cases hp' : s'.pages p with
  | none => simp [hp'] at this
  | some n' =>
    simp only [hp', Option.map_some', Option.some.injEq, Prod.mk.injEq] at this
    exact ⟨n', rfl, this.1, this.2⟩

theorem SameFrame.isSome {s s' : IxState} (h : SameFrame s s') (p : Int) :
    (s'.pages p).isSome = (s.pages p).isSome := by
  have := congrFun h.2.2.2 p
  simp only [IxState.shape] at this
  cases hp : s.pages p <;> cases hp' : s'.pages p <;> simp [hp, hp'] at this ⊢

theorem maintain_child_ok {s : IxState} {node : Int} {nd : IxNode} {i : Nat}
    (hn : s.pages node = some nd)
    (hc : nd.is_leaf = false → (s.pages (IxNodeHandle.ValueAt nd i)).isSome = true) :
    ∃ s', maintain_child s node i = .ok s' := by
  unfold maintain_child
  rw [FetchNode_eq_ok.2 hn]
  simp only [ok_bind]
  cases hl : nd.is_leaf with
  | true => exact ⟨_, rfl⟩
  | false =>
    simp only [Bool.not_false, if_true]
    exact exists_ok_bind_FetchNode (hc hl) (fun _ _ => ⟨_, rfl⟩)

theorem maintain_child_range_ok (node : Int) : ∀ (cnt start : Nat) (s : IxState) (nd : IxNode),
    s.pages node = some nd →
    (nd.is_leaf = false → ∀ i, start ≤ i → i < start + cnt →
      (s.pages (IxNodeHandle.ValueAt nd i)).isSome = true) →
    ∃ s', maintain_child_range node start cnt s = .ok s' := by
  intro cnt
  induction cnt with
  | zero => intro start s nd _ _; exact ⟨s, rfl⟩
  | succ cnt ih =>
    intro start s nd hn hc
    simp only [maintain_child_range]
    refine exists_ok_bind (maintain_child_ok hn (fun hl => hc hl start le_rfl (by omega))) ?_
    intro s1 h1
    have hf := maintain_child_frame h1
    obtain ⟨nd1, hn1, hl1, hp1⟩ := hf.pages hn
    refine ih (start + 1) s1 nd1 hn1 ?_
    intro hl i hi1 hi2
    rw [hf.isSome, ValueAt_congr hp1]
    exact hc (hl1 ▸ hl) i (by omega) (by omega)

theorem isSome_shape (s : IxState) (q : Int) : (s.shape q).isSome = (s.pages q).isSome := by
  simp [IxState.shape]

theorem ValueAt_mem {n : IxNode} {i : Nat} (h : i < n.pairs.length) :
    ∃ pr ∈ n.pairs, IxNodeHandle.ValueAt n i = pr.2.page_no := by
  refine ⟨n.pairs[i], List.getElem_mem h, ?_⟩
  simp [IxNodeHandle.ValueAt, IxNodeHandle.get_rid, List.get?_eq_getElem?, List.getElem?_eq_getElem h]

theorem Split_ok {s : IxState} {node : Int} {nd : IxNode}
    (hnode : s.pages node = some nd) (hfresh : s.pages s.fd2pageno = none)
    (hnext : nd.is_leaf = true → (s.pages nd.next_leaf).isSome = true)
    (hchild : nd.is_leaf = false →
      ∀ pr ∈ nd.pairs.drop ((s.file_hdr.btree_order + 1) / 2),
        (s.pages pr.2.page_no).isSome = true) :
    ∃ r, Split s node = .ok r := by
  have hne : node ≠ s.fd2pageno := by
    intro he; rw [he, hfresh] at hnode; simp at hnode
  unfold Split
  simp only [CreateNode]
  generalize hs2 : (IxState.modify _ s.fd2pageno _) = s2
  have h2hdr : s2.file_hdr.btree_order = s.file_hdr.btree_order := by
    subst hs2; simp
  have h2sh : ∀ q, s2.shape q = if q = s.fd2pageno then some (false, []) else s.shape q := by
    intro q; subst hs2
    rw [shape_modify]
    by_cases hq : q = s.fd2pageno
    · simp [hq, IxNode.zero]
    · simp [hq, IxState.shape]
  have h2node : s2.pages node = some nd := by
    subst hs2
    rw [modify_pages]
    simp [hne, hnode]
  rw [FetchNode_eq_ok.2 h2node]
  simp only [ok_bind]
  refine exists_ok_bind ?_ ?_
  · by_cases hl : nd.is_leaf = true
    · simp only [hl, if_true]
      refine exists_ok_bind_FetchNode ?_ (fun _ _ => ⟨_, rfl⟩)
      rw [isSome_modify_pages, ← isSome_shape, h2sh]
      split
      · rfl
      · rw [isSome_shape]; exact hnext hl
    · simp only [hl]
      exact ⟨_, rfl⟩
  intro s3 h3
  have h3hdr : s3.file_hdr.btree_order = s.file_hdr.btree_order := by
    by_cases hl : nd.is_leaf = true
    · simp only [hl, if_true] at h3
      obtain ⟨_, _, h3⟩ := bind_eq_ok.1 h3
      simp at h3; subst h3; simpa using h2hdr
    · simp [hl] at h3; subst h3; exact h2hdr
  have h3sh : ∀ q, s3.shape q = if q = s.fd2pageno then some (nd.is_leaf, []) else s.shape q := by
    intro q
    by_cases hl : nd.is_leaf = true
    · simp only [hl, if_true] at h3
      obtain ⟨_, _, h3⟩ := bind_eq_ok.1 h3
      simp at h3; subst h3
      simp only [shape_modify_ptr, and_self, implies_true]
      rw [shape_modify]
      by_cases hq : q = s.fd2pageno
      · have := h2sh s.fd2pageno
        simp [IxState.shape] at this
        obtain ⟨n, hn, hn1, hn2⟩ := this
        simp [hq, hn, hn2, hl]
      · simp [hq, h2sh q]
    · simp [hl] at h3; subst h3
      rw [h2sh q]
      simp at hl
      simp [hl]
  clear h3 h2sh h2node h2hdr hs2
  obtain ⟨n3, hn3, hn3l, hn3p⟩ : ∃ n3, s3.pages node = some n3 ∧ n3.is_leaf = nd.is_leaf ∧
      n3.pairs = nd.pairs := by
    have := h3sh node
    simp only [hne, if_false, IxState.shape, hnode, Option.map_some'] at this
    cases h : s3.pages node with
    | none => simp [h] at this
    | some n3 =>
      simp only [h, Option.map_some', Option.some.injEq, Prod.mk.injEq] at this
      exact ⟨n3, rfl, this.1, this.2⟩
  rw [FetchNode_eq_ok.2 hn3]
  simp only [ok_bind]
  generalize hs5 : (IxState.modify (IxState.modify s3 _ _) node _) = s5
  have h5sh : ∀ q, s5.shape q =
      if q = s.fd2pageno then
        some (nd.is_leaf, (nd.pairs.drop ((s.file_hdr.btree_order + 1) / 2)).take
          (s.file_hdr.btree_order / 2))
      else if q = node then some (nd.is_leaf, nd.pairs.take ((s.file_hdr.btree_order + 1) / 2))
      else s.shape q := by
    intro q; subst hs5
    rw [shape_modify]
    by_cases hq : q = node
    · subst hq
      rw [modify_pages]
      simp only [hne, if_false]
      simp [hn3, IxNodeHandle.SetSize, hn3l, hn3p, IxNodeHandle.GetMaxSize, h3hdr]
    · simp only [hq, if_false]
      rw [shape_modify]
      by_cases hq' : q = s.fd2pageno
      · have := h3sh s.fd2pageno
        simp [IxState.shape] at this
        obtain ⟨n, hn, hn1, hn2⟩ := this
        simp [hq', hn, IxNodeHandle.insert_pairs, IxNodeHandle.pairs_from, hn1, hn2, hn3p,
          IxNodeHandle.GetMaxSize, h3hdr]
      · simp [hq', h3sh q]
  clear hs5
  obtain ⟨n5, hn5, hn5l⟩ : ∃ n5, s5.pages node = some n5 ∧ n5.is_leaf = nd.is_leaf := by
    have := h5sh node
    simp only [hne, if_false, if_true, IxState.shape] at this
    cases h : s5.pages node with
    | none => simp [h] at this
    | some n5 =>
      simp only [h, Option.map_some', Option.some.injEq, Prod.mk.injEq] at this
      exact ⟨n5, rfl, this.1⟩
  obtain ⟨nw, hnw, hnwl, hnwp⟩ : ∃ nw, s5.pages s.fd2pageno = some nw ∧
      nw.is_leaf = nd.is_leaf ∧ nw.pairs = (nd.pairs.drop ((s.file_hdr.btree_order + 1) / 2)).take
          (s.file_hdr.btree_order / 2) := by
    have := h5sh s.fd2pageno
    simp only [if_true, IxState.shape] at this
    cases h : s5.pages s.fd2pageno with
    | none => simp [h] at this
    | some nw =>
      simp only [h, Option.map_some', Option.some.injEq, Prod.mk.injEq] at this
      exact ⟨nw, rfl, this.1, this.2⟩
  rw [FetchNode_eq_ok.2 hn5]
  simp only [ok_bind]
  rw [FetchNode_eq_ok.2 hnw]
  simp only [ok_bind]
  refine exists_ok_bind ?_ (fun _ _ => ⟨_, rfl⟩)
  cases hl : nd.is_leaf with
  | true =>
    simp only [hn5l, hl, Bool.not_true, Bool.false_eq_true, if_false]
    exact ⟨_, rfl⟩
  | false =>
    simp only [hn5l, hl, Bool.not_false, if_true]
    apply maintain_child_range_ok s.fd2pageno _ 0 s5 nw hnw
    intro _ i _ hi
    obtain ⟨pr, hpr, hv⟩ := ValueAt_mem (n := nw) (i := i)
      (by simpa [IxNodeHandle.GetSize] using hi)
    rw [hv, ← isSome_shape, h5sh]
    have hex : (s.pages pr.2.page_no).isSome = true :=
      hchild hl pr (List.mem_of_mem_take (hnwp ▸ hpr))
    split
    · rfl
    · split
      · rfl
      · rw [isSome_shape]; exact hex

/-- C24: let `node` hold exactly `max_size` pairs, let the page number `NewPage` hands out be
unused, and let the pages `Split` fetches exist (the next leaf of a leaf, the children moved
out of an internal node).  Then `Split` returns a new node; afterwards `node` holds
`⌈max_size / 2⌉` pairs, the new node `⌊max_size / 2⌋`, and the pairs of `node` followed by the
pairs of the new node are the pairs `node` held before, in the same order. -/
theorem split_halves_the_pairs (s : IxState) (node : Int) (nd : IxNode)
    (hnode : s.pages node = some nd)
    (hfull : nd.pairs.length = s.file_hdr.btree_order)
    (hfresh : s.pages s.fd2pageno = none)
    (hnext : nd.is_leaf = true → (s.pages nd.next_leaf).isSome = true)
    (hchild : nd.is_leaf = false →
      ∀ pr ∈ nd.pairs.drop ((s.file_hdr.btree_order + 1) / 2),
        (s.pages pr.2.page_no).isSome = true) :
    ∃ new_node s' l r, Split s node = .ok (new_node, s') ∧ new_node ≠ node ∧
      s'.pages node = some l ∧ s'.pages new_node = some r ∧
      l.pairs.length = (s.file_hdr.btree_order + 1) / 2 ∧
      r.pairs.length = s.file_hdr.btree_order / 2 ∧
      l.pairs ++ r.pairs = nd.pairs := by
  have hne : node ≠ s.fd2pageno := by
    intro he; rw [he, hfresh] at hnode; simp at hnode
  obtain ⟨⟨new_node, s'⟩, hs⟩ := Split_ok hnode hfresh hnext hchild
  obtain ⟨hnew, -, -, -, hsh⟩ := Split_shape hnode hfresh hs
  subst hnew
  have hlsh : s'.shape node =
      some (nd.is_leaf, nd.pairs.take ((s.file_hdr.btree_order + 1) / 2)) := by
    rw [hsh]; simp [hne]
  have hrsh : s'.shape s.fd2pageno =
      some (nd.is_leaf, (nd.pairs.drop ((s.file_hdr.btree_order + 1) / 2)).take
        (s.file_hdr.btree_order / 2)) := by
    rw [hsh]; simp
  obtain ⟨l, hl, -, hlp⟩ := shape_eq_some.1 hlsh
  obtain ⟨r, hr, -, hrp⟩ := shape_eq_some.1 hrsh
  refine ⟨_, s', l, r, hs, Ne.symm hne, hl, hr, ?_, ?_, ?_⟩
  · rw [hlp, List.length_take, hfull]; omega
  · rw [hrp, List.length_take, List.length_drop, hfull]; omega
  · rw [hlp, hrp, ← List.take_add, List.take_of_length_le]
    rw [hfull]; omega

theorem split_halves_the_pairs_witness :
    ∃ new_node s' l r,
      Split (single_leaf 4 3 [(be32 1, ⟨1, 0⟩), (be32 2, ⟨2, 0⟩), (be32 3, ⟨3, 0⟩)]) 2
        = .ok (new_node, s') ∧ new_node ≠ 2 ∧
      s'.pages 2 = some l ∧ s'.pages new_node = some r ∧
      l.pairs.length = 2 ∧ r.pairs.length = 1 ∧
      l.pairs ++ r.pairs = [(be32 1, ⟨1, 0⟩), (be32 2, ⟨2, 0⟩), (be32 3, ⟨3, 0⟩)] :=
  split_halves_the_pairs
    (single_leaf 4 3 [(be32 1, ⟨1, 0⟩), (be32 2, ⟨2, 0⟩), (be32 3, ⟨3, 0⟩)]) 2
    { is_leaf := true, parent := IX_NO_PAGE, next_leaf := leaf_header_page,
      prev_leaf := leaf_header_page, next_free_page_no := IX_NO_PAGE,
      pairs := [(be32 1, ⟨1, 0⟩), (be32 2, ⟨2, 0⟩), (be32 3, ⟨3, 0⟩)] }
    rfl rfl rfl (fun _ => rfl) (fun h => absurd h (by decide))

theorem FetchNode_modify (s : IxState) (p q : Int) (f : IxNode → IxNode) :
    FetchNode (s.modify p f) q =
      if q = p then (FetchNode s p).map f else FetchNode s q := by
  unfold FetchNode
  rw [modify_pages]
  by_cases h : q = p
  · subst h
    cases s.pages q <;> simp [Except.map]
  · simp [h]

theorem Redistribute_right {s : IxState} {node br par : Int} {nd nb pa : IxNode}
    (hnd : s.pages node = some nd) (hnb : s.pages br = some nb) (hpa : s.pages par = some pa)
    (hleaf : nd.is_leaf = true) (h1 : node ≠ br) (h2 : node ≠ par) (h3 : br ≠ par) :
    Redistribute s br node par 0 = .ok (((s.modify node fun n =>
        IxNodeHandle.insert_pairs n (IxNodeHandle.GetSize nd) (IxNodeHandle.pairs_from nb 0 1)).modify
        br fun n => IxNodeHandle.erase_pair n 0).modify par fun n =>
          IxNodeHandle.set_key n (IxNodeHandle.find_child pa br)
            (IxNodeHandle.get_key (IxNodeHandle.erase_pair nb 0) 0)) := by
  have hfn := FetchNode_eq_ok.2 hnd
  have hfb := FetchNode_eq_ok.2 hnb
  have hfp := FetchNode_eq_ok.2 hpa
  have hl : ∀ a b, (IxNodeHandle.insert_pairs nd a b).is_leaf = true := fun _ _ => hleaf
  unfold Redistribute maintain_child
  simp only [if_true, FetchNode_modify, hfn, hfb, hfp, h1, h2, h3, Ne.symm h1, Ne.symm h2,
    Ne.symm h3, if_false, ok_bind, Except.map, pure_eq_ok, hl, Bool.not_true,
    Bool.false_eq_true]

theorem Redistribute_left {s : IxState} {node br par : Int} {nd nb pa : IxNode} {index : Nat}
    (hnd : s.pages node = some nd) (hnb : s.pages br = some nb) (hpa : s.pages par = some pa)
    (hleaf : nd.is_leaf = true) (h1 : node ≠ br) (h2 : node ≠ par) (h3 : br ≠ par)
    (hi : index ≠ 0) :
    Redistribute s br node par index = .ok (((s.modify node fun n =>
        IxNodeHandle.insert_pairs n 0
          (IxNodeHandle.pairs_from nb (IxNodeHandle.GetSize nb - 1) 1)).modify
        br fun n => IxNodeHandle.erase_pair n (IxNodeHandle.GetSize nb - 1)).modify par fun n =>
          IxNodeHandle.set_key n index
            (IxNodeHandle.get_key (IxNodeHandle.insert_pairs nd 0
              (IxNodeHandle.pairs_from nb (IxNodeHandle.GetSize nb - 1) 1)) 0)) := by
  have hfn := FetchNode_eq_ok.2 hnd
  have hfb := FetchNode_eq_ok.2 hnb
  have hfp := FetchNode_eq_ok.2 hpa
  have hl : ∀ a b, (IxNodeHandle.insert_pairs nd a b).is_leaf = true := fun _ _ => hleaf
  unfold Redistribute maintain_child
  simp only [hi, if_true, FetchNode_modify, hfn, hfb, hfp, h1, h2, h3, Ne.symm h1, Ne.symm h2,
    Ne.symm h3, if_false, ok_bind, Except.map, pure_eq_ok, hl, Bool.not_true,
    Bool.false_eq_true]

theorem find_child_zero {pa : IxNode} {node : Int} (h0 : IxNodeHandle.find_child pa node = 0)
    (hlen : 1 < pa.pairs.length) :
    ∃ p0 p1 rest, pa.pairs = p0 :: p1 :: rest ∧ p0.2.page_no = node ∧
      (IxNodeHandle.get_rid pa 1) = p1.2 := by
  cases hp : pa.pairs with
  | nil => simp [hp] at hlen
  | cons p0 t =>
    cases t with
    | nil => simp [hp] at hlen
    | cons p1 rest =>
      refine ⟨p0, p1, rest, rfl, ?_, by simp [IxNodeHandle.get_rid, hp]⟩
      unfold IxNodeHandle.find_child at h0
      rw [hp, List.findIdx_cons] at h0
      by_contra hne
      simp [hne] at h0

theorem redistribute_core (fuel : Nat) (s : IxState) (node br : Int) (nd pa nb : IxNode)
    (hnd : s.pages node = some nd) (hroot : nd.parent ≠ IX_NO_PAGE)
    (hsmall : nd.pairs.length < IxNodeHandle.GetMinSize s.file_hdr)
    (hpa : s.pages nd.parent = some pa)
    (hbr : br = if IxNodeHandle.find_child pa node = 0 then
        (IxNodeHandle.get_rid pa (IxNodeHandle.find_child pa node + 1)).page_no
      else (IxNodeHandle.get_rid pa (IxNodeHandle.find_child pa node - 1)).page_no)
    (hnb : s.pages br = some nb)
    (hsum : IxNodeHandle.GetMinSize s.file_hdr * 2 ≤ nd.pairs.length + nb.pairs.length) :
    CoalesceOrRedistribute (fuel + 1) s node =
      (Redistribute s br node nd.parent (IxNodeHandle.find_child pa node)).map
        (fun s' => (false, s')) := by
  have hfn := FetchNode_eq_ok.2 hnd
  have hfp := FetchNode_eq_ok.2 hpa
  have hr : IxNodeHandle.IsRootPage nd = false := by
    simp [IxNodeHandle.IsRootPage, hroot]
  have hs : ¬ IxNodeHandle.GetSize nd ≥ IxNodeHandle.GetMinSize s.file_hdr := by
    simp only [IxNodeHandle.GetSize]; omega
  simp only [CoalesceOrRedistribute, hfn, ok_bind, hr, Bool.false_eq_true, if_false, hs, hfp]
  rw [← hbr, FetchNode_eq_ok.2 hnb]
  have hge : IxNodeHandle.GetSize nd + IxNodeHandle.GetSize nb ≥
      IxNodeHandle.GetMinSize s.file_hdr * 2 := by
    simp only [IxNodeHandle.GetSize]; omega
  simp only [ok_bind, hge, if_true]
  cases Redistribute s br node nd.parent (IxNodeHandle.find_child pa node) <;> rfl

theorem find_child_slot {pa : IxNode} {node : Int}
    (h : IxNodeHandle.find_child pa node < pa.pairs.length) :
    (IxNodeHandle.get_rid pa (IxNodeHandle.find_child pa node)).page_no = node := by
  have := @List.findIdx_getElem _ (fun p : Key × Rid => decide (p.2.page_no = node)) pa.pairs h
  unfold IxNodeHandle.find_child at h ⊢
  simp only [IxNodeHandle.get_rid, List.get?_eq_getElem?, List.getElem?_eq_getElem h,
    Option.map_some', Option.getD_some]
  simpa using this

theorem eraseIdx_length_append {α : Type} (l : List α) (a : α) :
    (l ++ [a]).eraseIdx l.length = l := by
  induction l with
  | nil => rfl
  | cons b l ih => simp [List.eraseIdx, ih]

/-- C25: let `node` be a leaf that is not the root and holds fewer than `min_size` pairs, let
it be a child of its parent, let `br` be the sibling `CoalesceOrRedistribute` chooses (the
right one when `node` is child 0, the left one otherwise), and let the two hold at least
`2 * min_size` pairs together.  Then `CoalesceOrRedistribute(node)`, the call `delete_entry`
makes after it has removed the key, moves one pair: with the sibling on the right its first
pair goes to the end of `node` and the parent's key for the sibling becomes the sibling's new
first key; with the sibling on the left its last pair goes to the front of `node` and the
parent's key for `node` becomes the key of that pair.  No other page and no other pair
changes. -/
theorem redistribute_moves_one_pair (fuel : Nat) (s : IxState) (node br : Int)
    (nd pa nb : IxNode)
    (hnd : s.pages node = some nd) (hleaf : nd.is_leaf = true) (hroot : nd.parent ≠ IX_NO_PAGE)
    (hsmall : nd.pairs.length < IxNodeHandle.GetMinSize s.file_hdr)
    (hpa : s.pages nd.parent = some pa)
    (hidx : IxNodeHandle.find_child pa node < pa.pairs.length)
    (hright : IxNodeHandle.find_child pa node = 0 → 1 < pa.pairs.length)
    (hbr : br = if IxNodeHandle.find_child pa node = 0 then
        (IxNodeHandle.get_rid pa (IxNodeHandle.find_child pa node + 1)).page_no
      else (IxNodeHandle.get_rid pa (IxNodeHandle.find_child pa node - 1)).page_no)
    (hnb : s.pages br = some nb)
    (hsum : IxNodeHandle.GetMinSize s.file_hdr * 2 ≤ nd.pairs.length + nb.pairs.length)
    (h1 : node ≠ br) (h2 : node ≠ nd.parent) (h3 : br ≠ nd.parent) :
    ∃ s', CoalesceOrRedistribute (fuel + 1) s node = .ok (false, s') ∧
      s'.file_hdr = s.file_hdr ∧
      (∀ q, q ≠ node → q ≠ br → q ≠ nd.parent → s'.pages q = s.pages q) ∧
      (IxNodeHandle.get_rid pa (IxNodeHandle.find_child pa node)).page_no = node ∧
      (IxNodeHandle.find_child pa node = 0 → ∃ pr pr' rest, nb.pairs = pr :: pr' :: rest ∧
        (IxNodeHandle.get_rid pa 1).page_no = br ∧
        s'.pages node = some { nd with pairs := nd.pairs ++ [pr] } ∧
        s'.pages br = some { nb with pairs := pr' :: rest } ∧
        s'.pages nd.parent =
          some { pa with pairs := pa.pairs.set 1 (pr'.1, IxNodeHandle.get_rid pa 1) }) ∧
      (IxNodeHandle.find_child pa node ≠ 0 → ∃ front pr, nb.pairs = front ++ [pr] ∧
        s'.pages node = some { nd with pairs := pr :: nd.pairs } ∧
        s'.pages br = some { nb with pairs := front } ∧
        s'.pages nd.parent = some
          { pa with
            pairs := pa.pairs.set (IxNodeHandle.find_child pa node)
              (pr.1, IxNodeHandle.get_rid pa (IxNodeHandle.find_child pa node)) }) := by
  have hcore := redistribute_core fuel s node br nd pa nb hnd hroot hsmall hpa hbr hnb hsum
  have hlen : 2 ≤ nb.pairs.length := by omega
  by_cases h0 : IxNodeHandle.find_child pa node = 0
  · rw [h0, Redistribute_right hnd hnb hpa hleaf h1 h2 h3] at hcore
    obtain ⟨p0, p1, rest', hpp, hp0, hp1⟩ := find_child_zero h0 (hright h0)
    have hbr1 : (IxNodeHandle.get_rid pa 1).page_no = br := by
      rw [hbr, h0]; rfl
    have hfc : IxNodeHandle.find_child pa br = 1 := by
      have hne : ¬ p0.2.page_no = br := by rw [hp0]; exact h1
      have he : p1.2.page_no = br := by rw [← hp1]; exact hbr1
      simp [IxNodeHandle.find_child, hpp, List.findIdx_cons, hne, he]
    obtain ⟨pr, pr', rest, hnbp⟩ : ∃ pr pr' rest, nb.pairs = pr :: pr' :: rest := by
      cases hq : nb.pairs with
      | nil => simp [hq] at hlen
      | cons a t =>
        cases t with
        | nil => simp [hq] at hlen
        | cons b t => exact ⟨a, b, t, rfl⟩
    refine ⟨_, hcore, by simp, ?_, find_child_slot hidx, ?_, fun h => absurd h0 h⟩
    · intro q hq1 hq2 hq3
      simp [modify_pages, hq1, hq2, hq3]
    · intro _
      refine ⟨pr, pr', rest, hnbp, hbr1, ?_, ?_, ?_⟩
      · simp [modify_pages, h1, h2, hnd, IxNodeHandle.insert_pairs, IxNodeHandle.pairs_from,
          IxNodeHandle.GetSize, hnbp]
      · simp [modify_pages, h3, Ne.symm h1, hnb, IxNodeHandle.erase_pair, hnbp]
      · simp [modify_pages, Ne.symm h2, Ne.symm h3, hpa, IxNodeHandle.set_key, hfc,
          IxNodeHandle.get_key, IxNodeHandle.erase_pair, hnbp]
  · rw [Redistribute_left hnd hnb hpa hleaf h1 h2 h3 h0] at hcore
    obtain ⟨front, pr, hnbp⟩ : ∃ front pr, nb.pairs = front ++ [pr] := by
      have hne : nb.pairs ≠ [] := by
        intro h; simp [h] at hlen
      exact ⟨nb.pairs.dropLast, nb.pairs.getLast hne, (List.dropLast_append_getLast hne).symm⟩
    refine ⟨_, hcore, by simp, ?_, find_child_slot hidx, fun h => absurd h h0, ?_⟩
    · intro q hq1 hq2 hq3
      simp [modify_pages, hq1, hq2, hq3]
    · intro _
      refine ⟨front, pr, hnbp, ?_, ?_, ?_⟩
      · simp [modify_pages, h1, h2, hnd, IxNodeHandle.insert_pairs, IxNodeHandle.pairs_from,
          IxNodeHandle.GetSize, hnbp]
      · simp [modify_pages, h3, Ne.symm h1, hnb, IxNodeHandle.erase_pair, hnbp,
          IxNodeHandle.GetSize, eraseIdx_length_append]
      · simp [modify_pages, Ne.symm h2, Ne.symm h3, hpa, IxNodeHandle.set_key,
          IxNodeHandle.get_key, IxNodeHandle.insert_pairs, IxNodeHandle.pairs_from,
          IxNodeHandle.GetSize, hnbp]

theorem redistribute_moves_one_pair_witness :
    (∃ s', CoalesceOrRedistribute 8 tree_10_to_50_without_10 2 = .ok (false, s') ∧
      s'.shape 2 = some (true, [(be32 20, ⟨20, 0⟩), (be32 30, ⟨30, 0⟩)]) ∧
      s'.shape 3 = some (true, [(be32 40, ⟨40, 0⟩), (be32 50, ⟨50, 0⟩)]) ∧
      s'.shape 4 = some (false, [(be32 20, ⟨2, -1⟩), (be32 40, ⟨3, -1⟩)])) ∧
    (do
      let (deleted, s) ← delete_entry tree_10_to_50 (be32 10) 8
      pure (deleted, s.shape 2, s.shape 3, s.shape 4))
      = .ok (true, some (true, [(be32 20, ⟨20, 0⟩), (be32 30, ⟨30, 0⟩)]),
          some (true, [(be32 40, ⟨40, 0⟩), (be32 50, ⟨50, 0⟩)]),
          some (false, [(be32 20, ⟨2, -1⟩), (be32 40, ⟨3, -1⟩)])) := by
  refine ⟨?_, rfl⟩
  obtain ⟨s', h1, -, -, -, h5, -⟩ := redistribute_moves_one_pair 7 tree_10_to_50_without_10 2 3
    { is_leaf := true, parent := 4, next_leaf := 3, prev_leaf := 1,
      next_free_page_no := IX_NO_PAGE, pairs := [(be32 20, ⟨20, 0⟩)] }
    { is_leaf := false, parent := IX_NO_PAGE, next_leaf := IX_NO_PAGE, prev_leaf := IX_NO_PAGE,
      next_free_page_no := IX_NO_PAGE, pairs := [(be32 20, ⟨2, -1⟩), (be32 30, ⟨3, -1⟩)] }
    { is_leaf := true, parent := 4, next_leaf := 1, prev_leaf := 2,
      next_free_page_no := IX_NO_PAGE,
      pairs := [(be32 30, ⟨30, 0⟩), (be32 40, ⟨40, 0⟩), (be32 50, ⟨50, 0⟩)] }
    rfl rfl (by decide) (by decide) rfl (by decide) (fun _ => by decide) rfl rfl (by decide)
    (by decide) (by decide) (by decide)
  obtain ⟨pr, pr', rest, e, -, hn, hb, hp⟩ := h5 rfl
  simp only [List.cons.injEq] at e
  obtain ⟨rfl, rfl, rfl⟩ := e
  exact ⟨s', h1, by rw [IxState.shape, hn]; rfl, by rw [IxState.shape, hb]; rfl,
    by rw [IxState.shape, hp]; rfl⟩

theorem maintain_child_range_leaf (node : Int) (n : IxNode) : ∀ (cnt start : Nat) (s : IxState),
    s.pages node = some n → n.is_leaf = true → maintain_child_range node start cnt s = .ok s := by
  intro cnt
  induction cnt with
  | zero => intro start s _ _; rfl
  | succ cnt ih =>
    intro start s hn hl
    simp only [maintain_child_range, maintain_child, FetchNode_eq_ok.2 hn, ok_bind, hl,
      Bool.not_true, Bool.false_eq_true, if_false, pure_eq_ok]
    exact ih (start + 1) s hn hl

theorem FetchNode_release (s : IxState) (p : Int) :
    FetchNode (release_node_handle s) p = FetchNode s p := rfl

theorem Coalesce_leaf (recurse : IxState → Int → Except IxError (Bool × IxState))
    (s : IxState) (br node par L R : Int) (index : Nat) (Ln Rn pa nx : IxNode)
    (hsw : (if index = 0 then (br, node) else (node, br)) = (R, L))
    (hL : s.pages L = some Ln) (hR : s.pages R = some Rn) (hpa : s.pages par = some pa)
    (hLl : Ln.is_leaf = true) (hRl : Rn.is_leaf = true)
    (hprev : Rn.prev_leaf = L) (hnx : s.pages Rn.next_leaf = some nx)
    (h1 : L ≠ R) (h2 : L ≠ par) (h4 : Rn.next_leaf ≠ L) (h6 : Rn.next_leaf ≠ par) :
    ∃ S, Coalesce recurse s br node par index = recurse S par ∧
      S.file_hdr = { s.file_hdr with
        last_leaf := if R = s.file_hdr.last_leaf then L else s.file_hdr.last_leaf,
        num_pages := s.file_hdr.num_pages - 1 } ∧
      S.pages L = some { Ln with pairs := Ln.pairs ++ Rn.pairs, next_leaf := Rn.next_leaf } ∧
      S.pages Rn.next_leaf = some { nx with prev_leaf := L } ∧
      S.pages par = some (IxNodeHandle.erase_pair pa (IxNodeHandle.find_child pa R)) ∧
      (∀ q, q ≠ L → q ≠ Rn.next_leaf → q ≠ par → S.pages q = s.pages q) := by
  have hs1 : (if R = s.file_hdr.last_leaf then
      { s with file_hdr := { s.file_hdr with last_leaf := L } } else s) =
      { s with file_hdr := { s.file_hdr with
          last_leaf := if R = s.file_hdr.last_leaf then L else s.file_hdr.last_leaf } } := by
    split <;> rfl
  unfold Coalesce
  rw [hsw]
  simp only []
  rw [hs1]
  generalize hg : ({ s with file_hdr := { s.file_hdr with
      last_leaf := if R = s.file_hdr.last_leaf then L else s.file_hdr.last_leaf } } : IxState) = s1
  have hp1 : s1.pages = s.pages := by subst hg; rfl
  have hh1 : s1.file_hdr = { s.file_hdr with
      last_leaf := if R = s.file_hdr.last_leaf then L else s.file_hdr.last_leaf } := by
    subst hg; rfl
  have hL1 : s1.pages L = some Ln := by rw [hp1]; exact hL
  have hfL : FetchNode s1 L = .ok Ln := FetchNode_eq_ok.2 hL1
  have hfR : FetchNode s1 R = .ok Rn := FetchNode_eq_ok.2 (by rw [hp1]; exact hR)
  have hfP : FetchNode s1 par = .ok pa := FetchNode_eq_ok.2 (by rw [hp1]; exact hpa)
  have hfN : FetchNode s1 Rn.next_leaf = .ok nx := FetchNode_eq_ok.2 (by rw [hp1]; exact hnx)
  simp only [hfL, hfR, ok_bind]
  rw [maintain_child_range_leaf L _ _ _ _
    (modify_pages_self _ hL1) (by simpa [IxNodeHandle.insert_pairs] using hLl)]
  simp only [ok_bind, FetchNode_modify, hfR, Ne.symm h1, if_false, hRl, if_true, erase_leaf,
    hprev, hfL, Except.map, h4, h6, hfN, pure_eq_ok, hfP, Ne.symm h2,
    h1, h2, FetchNode_release, Ne.symm h4, Ne.symm h6]
  refine ⟨_, rfl, ?_, ?_, ?_, ?_, ?_⟩
  · simp [release_node_handle, hh1]
  · simp [release_node_handle, modify_pages, h2, Ne.symm h4, hL1, IxNodeHandle.insert_pairs,
      IxNodeHandle.pairs_from, IxNodeHandle.GetSize]
  · simp [release_node_handle, modify_pages, h6, h4, hp1, hnx]
  · simp [release_node_handle, modify_pages, Ne.symm h6, Ne.symm h2, hp1, hpa]
  · intro q hq1 hq2 hq3
    simp [release_node_handle, modify_pages, hq1, hq2, hq3, hp1]

theorem parent_keeps_root {fuel : Nat} {S : IxState} {par : Int} {pa : IxNode}
    (hpa : S.pages par = some pa) (hl : pa.is_leaf = false)
    (h : (pa.parent = IX_NO_PAGE ∧ pa.pairs.length ≠ 1) ∨
      (pa.parent ≠ IX_NO_PAGE ∧ IxNodeHandle.GetMinSize S.file_hdr ≤ pa.pairs.length)) :
    CoalesceOrRedistribute (fuel + 1) S par = .ok (false, S) := by
  have hf := FetchNode_eq_ok.2 hpa
  rcases h with ⟨hr, hn⟩ | ⟨hr, hn⟩
  · have hroot : IxNodeHandle.IsRootPage pa = true := by simp [IxNodeHandle.IsRootPage, hr]
    simp only [CoalesceOrRedistribute, hf, ok_bind, hroot, if_true, AdjustRoot, hl,
      Bool.false_eq_true, false_and, if_false, IxNodeHandle.GetSize, hn, and_false, pure_eq_ok]
  · have hroot : IxNodeHandle.IsRootPage pa = false := by simp [IxNodeHandle.IsRootPage, hr]
    have hge : IxNodeHandle.GetSize pa ≥ IxNodeHandle.GetMinSize S.file_hdr := hn
    simp only [CoalesceOrRedistribute, hf, ok_bind, hroot, Bool.false_eq_true, if_false, hge,
      if_true, pure_eq_ok]

theorem parent_root_collapses {fuel : Nat} {S : IxState} {par : Int} {pa c : IxNode}
    (hpa : S.pages par = some pa) (hl : pa.is_leaf = false) (hr : pa.parent = IX_NO_PAGE)
    (h1 : pa.pairs.length = 1) (hc : S.pages (IxNodeHandle.ValueAt pa 0) = some c)
    (hne : IxNodeHandle.ValueAt pa 0 ≠ par) :
    ∃ S', CoalesceOrRedistribute (fuel + 1) S par = .ok (true, S') ∧
      S'.file_hdr = { S.file_hdr with root_page := IxNodeHandle.ValueAt pa 0,
                                      num_pages := S.file_hdr.num_pages - 1 } ∧
      S'.pages (IxNodeHandle.ValueAt pa 0) = some { c with parent := IX_NO_PAGE } ∧
      (∀ q, q ≠ IxNodeHandle.ValueAt pa 0 → q ≠ par → S'.pages q = S.pages q) := by
  have hf := FetchNode_eq_ok.2 hpa
  have hroot : IxNodeHandle.IsRootPage pa = true := by simp [IxNodeHandle.IsRootPage, hr]
  have hfc : FetchNode S (IxNodeHandle.ValueAt pa 0) = .ok c := FetchNode_eq_ok.2 hc
  have hfc' : FetchNode ({ S.modify par (fun n => IxNodeHandle.erase_pair n 0) with
      file_hdr := { S.file_hdr with root_page := IxNodeHandle.ValueAt pa 0 } } : IxState)
      (IxNodeHandle.ValueAt pa 0) = .ok c := by
    apply FetchNode_eq_ok.2
    show (S.modify par _).pages _ = _
    rw [modify_pages]
    simp [hne, hc]
  simp only [CoalesceOrRedistribute, hf, ok_bind, hroot, if_true, AdjustRoot, hl,
    Bool.false_eq_true, false_and, if_false, IxNodeHandle.GetSize, h1, not_false_eq_true,
    and_self, modify_file_hdr, hfc', pure_eq_ok]
  refine ⟨_, rfl, ?_, ?_, ?_⟩
  · simp [release_node_handle, IxState.modify, hc, hpa, hne, IxState.setPage]
  · simp [release_node_handle, modify_pages, hne, hc]
  · intro q hq1 hq2
    simp [release_node_handle, modify_pages, hq1, hq2]

theorem coalesce_core (fuel : Nat) (s : IxState) (node br : Int) (nd pa nb : IxNode)
    (hnd : s.pages node = some nd) (hroot : nd.parent ≠ IX_NO_PAGE)
    (hsmall : nd.pairs.length < IxNodeHandle.GetMinSize s.file_hdr)
    (hpa : s.pages nd.parent = some pa)
    (hbr : br = if IxNodeHandle.find_child pa node = 0 then
        (IxNodeHandle.get_rid pa (IxNodeHandle.find_child pa node + 1)).page_no
      else (IxNodeHandle.get_rid pa (IxNodeHandle.find_child pa node - 1)).page_no)
    (hnb : s.pages br = some nb)
    (hsum : nd.pairs.length + nb.pairs.length < IxNodeHandle.GetMinSize s.file_hdr * 2) :
    CoalesceOrRedistribute (fuel + 1) s node =
      (Coalesce (CoalesceOrRedistribute fuel) s br node nd.parent
        (IxNodeHandle.find_child pa node)).map (fun r => (true, r.2)) := by
  have hfn := FetchNode_eq_ok.2 hnd
  have hfp := FetchNode_eq_ok.2 hpa
  have hr : IxNodeHandle.IsRootPage nd = false := by
    simp [IxNodeHandle.IsRootPage, hroot]
  have hs : ¬ IxNodeHandle.GetSize nd ≥ IxNodeHandle.GetMinSize s.file_hdr := by
    simp only [IxNodeHandle.GetSize]; omega
  simp only [CoalesceOrRedistribute, hfn, ok_bind, hr, Bool.false_eq_true, if_false, hs, hfp]
  rw [← hbr, FetchNode_eq_ok.2 hnb]
  have hge : ¬ IxNodeHandle.GetSize nd + IxNodeHandle.GetSize nb ≥
      IxNodeHandle.GetMinSize s.file_hdr * 2 := by
    simp only [IxNodeHandle.GetSize]; omega
  simp only [ok_bind, hge, if_false]
  cases Coalesce (CoalesceOrRedistribute fuel) s br node nd.parent
    (IxNodeHandle.find_child pa node) <;> rfl

theorem length_eraseIdx_lt {α : Type} (l : List α) (i : Nat) (h : i < l.length) :
    (l.eraseIdx i).length = l.length - 1 := by
  rw [List.length_eraseIdx, if_pos h]

/-- C26: let `node` be a leaf that is not the root and holds fewer than `min_size` pairs, let
`br` be the sibling `CoalesceOrRedistribute` chooses, a leaf too, and let the two hold fewer
than `2 * min_size` pairs together; call the left one of the two `L` and the right one `R`,
let `R` follow `L` in the leaf list, and let the parent be the root or keep `min_size`
entries.  Then `CoalesceOrRedistribute(node)`, the call `delete_entry` makes after it has
removed the key, returns true; afterwards `L` holds its pairs followed by those of `R`, `R` is
out of the leaf list (`L` points to the leaf after `R`, which points back to `L`), `last_leaf`
is `L` if it was `R`, and the parent has lost the entry of `R`, unless the parent was the root
with these two children only: then `L` is the root and has no parent. -/
theorem coalesce_merges_right_leaf (fuel : Nat) (s : IxState) (node br L R : Int)
    (nd nb pa Ln Rn nx : IxNode)
    (hnd : s.pages node = some nd) (hnb : s.pages br = some nb)
    (hndl : nd.is_leaf = true) (hnbl : nb.is_leaf = true) (hroot : nd.parent ≠ IX_NO_PAGE)
    (hsmall : nd.pairs.length < IxNodeHandle.GetMinSize s.file_hdr)
    (hpa : s.pages nd.parent = some pa) (hpal : pa.is_leaf = false)
    (hidx : IxNodeHandle.find_child pa node < pa.pairs.length)
    (hright : IxNodeHandle.find_child pa node = 0 → 1 < pa.pairs.length)
    (hbr : br = if IxNodeHandle.find_child pa node = 0 then
        (IxNodeHandle.get_rid pa (IxNodeHandle.find_child pa node + 1)).page_no
      else (IxNodeHandle.get_rid pa (IxNodeHandle.find_child pa node - 1)).page_no)
    (hsw : (L, R, Ln, Rn) = if IxNodeHandle.find_child pa node = 0 then (node, br, nd, nb)
      else (br, node, nb, nd))
    (hsum : nd.pairs.length + nb.pairs.length < IxNodeHandle.GetMinSize s.file_hdr * 2)
    (hprev : Rn.prev_leaf = L) (hnx : s.pages Rn.next_leaf = some nx)
    (h1 : node ≠ br) (h2 : node ≠ nd.parent) (h3 : br ≠ nd.parent)
    (h4 : Rn.next_leaf ≠ L) (h6 : Rn.next_leaf ≠ nd.parent)
    (hup : pa.parent = IX_NO_PAGE ∨ IxNodeHandle.GetMinSize s.file_hdr ≤ pa.pairs.length - 1) :
    ∃ s' Lres, CoalesceOrRedistribute (fuel + 2) s node = .ok (true, s') ∧
      s'.pages L = some Lres ∧ Lres.pairs = Ln.pairs ++ Rn.pairs ∧
      Lres.next_leaf = Rn.next_leaf ∧ Lres.prev_leaf = Ln.prev_leaf ∧ Lres.is_leaf = true ∧
      s'.pages Rn.next_leaf = some { nx with prev_leaf := L } ∧
      (IxNodeHandle.get_rid pa (IxNodeHandle.find_child pa R)).page_no = R ∧
      s'.file_hdr.last_leaf = (if R = s.file_hdr.last_leaf then L else s.file_hdr.last_leaf) ∧
      s'.file_hdr.first_leaf = s.file_hdr.first_leaf ∧
      (pa.parent = IX_NO_PAGE ∧ pa.pairs.length = 2 →
        s'.file_hdr.root_page = L ∧ Lres.parent = INVALID_PAGE_ID) ∧
      (¬ (pa.parent = IX_NO_PAGE ∧ pa.pairs.length = 2) →
        s'.file_hdr.root_page = s.file_hdr.root_page ∧ Lres.parent = Ln.parent ∧
        s'.pages nd.parent =
          some (IxNodeHandle.erase_pair pa (IxNodeHandle.find_child pa R))) := by
  have hcore := coalesce_core (fuel + 1) s node br nd pa nb hnd hroot hsmall hpa hbr hnb hsum
  -- the two leaves in their order
  obtain ⟨hL, hR, hLl, hRl, hLR, hLp, hswap, hfR, hcol⟩ :
      s.pages L = some Ln ∧ s.pages R = some Rn ∧ Ln.is_leaf = true ∧ Rn.is_leaf = true ∧
      L ≠ R ∧ L ≠ nd.parent ∧
      (if IxNodeHandle.find_child pa node = 0 then (br, node) else (node, br)) = (R, L) ∧
      IxNodeHandle.find_child pa R < pa.pairs.length ∧
      (pa.pairs.length = 2 →
        IxNodeHandle.ValueAt (IxNodeHandle.erase_pair pa (IxNodeHandle.find_child pa R)) 0
          = L) := by
    by_cases h0 : IxNodeHandle.find_child pa node = 0
    · simp only [h0, if_true, Prod.mk.injEq] at hsw ⊢
      obtain ⟨rfl, rfl, rfl, rfl⟩ := hsw
      obtain ⟨p0, p1, rest', hpp, hp0, hp1⟩ := find_child_zero h0 (hright h0)
      have hbr1 : (IxNodeHandle.get_rid pa 1).page_no = R := by
        rw [hbr, h0]
        simp
      have hfc : IxNodeHandle.find_child pa R = 1 := by
        have hne : ¬ p0.2.page_no = R := by rw [hp0]; exact h1
        have he : p1.2.page_no = R := by rw [← hp1]; exact hbr1
        simp [IxNodeHandle.find_child, hpp, List.findIdx_cons, hne, he]
      refine ⟨hnd, hnb, hndl, hnbl, h1, h2, ⟨rfl, rfl⟩, by rw [hfc]; exact hright h0, ?_⟩
      intro h2len
      rw [hfc]
      simp [IxNodeHandle.ValueAt, IxNodeHandle.get_rid, IxNodeHandle.erase_pair, hpp, hp0]
    · simp only [h0, if_false, Prod.mk.injEq] at hsw ⊢
      obtain ⟨rfl, rfl, rfl, rfl⟩ := hsw
      refine ⟨hnb, hnd, hnbl, hndl, Ne.symm h1, h3, ⟨rfl, rfl⟩, hidx, ?_⟩
      intro h2len
      have hi1 : IxNodeHandle.find_child pa R = 1 := by omega
      rw [hi1]
      rw [hi1] at hbr
      cases hp : pa.pairs with
      | nil => simp [hp] at h2len
      | cons p0 t =>
        cases t with
        | nil => simp [hp] at h2len
        | cons p1 rest' =>
          simp [IxNodeHandle.ValueAt, IxNodeHandle.get_rid, IxNodeHandle.erase_pair, hp, hbr]
  have hslot : (IxNodeHandle.get_rid pa (IxNodeHandle.find_child pa R)).page_no = R :=
    find_child_slot hfR
  have hRp : R ≠ nd.parent := by
    by_cases h0 : IxNodeHandle.find_child pa node = 0
    · simp only [h0, if_true, Prod.mk.injEq] at hswap
      rw [← hswap.1]; exact h3
    · simp only [h0, if_false, Prod.mk.injEq] at hswap
      rw [← hswap.1]; exact h2
  obtain ⟨S, hS, hSh, hSL, hSn, hSp, hSq⟩ := Coalesce_leaf (CoalesceOrRedistribute (fuel + 1)) s
    br node nd.parent L R (IxNodeHandle.find_child pa node) Ln Rn pa nx hswap hL hR hpa hLl hRl
    hprev hnx hLR hLp h4 h6
  rw [hS] at hcore
  have hplen : (IxNodeHandle.erase_pair pa (IxNodeHandle.find_child pa R)).pairs.length
      = pa.pairs.length - 1 := length_eraseIdx_lt _ _ hfR
  have hmin : IxNodeHandle.GetMinSize S.file_hdr = IxNodeHandle.GetMinSize s.file_hdr := by
    rw [hSh]; rfl
  by_cases hc : pa.parent = IX_NO_PAGE ∧ pa.pairs.length = 2
  · obtain ⟨S', hS', hSh', hSL', hSq'⟩ := @parent_root_collapses fuel S nd.parent
      (IxNodeHandle.erase_pair pa (IxNodeHandle.find_child pa R))
      { Ln with pairs := Ln.pairs ++ Rn.pairs, next_leaf := Rn.next_leaf }
      hSp hpal hc.1 (by rw [hplen, hc.2]) (by rw [hcol hc.2]; exact hSL)
      (by rw [hcol hc.2]; exact hLp)
    rw [hcol hc.2] at hSh' hSL' hSq'
    rw [hS'] at hcore
    refine ⟨S', _, hcore, hSL', rfl, rfl, rfl, hLl, ?_, hslot, ?_, ?_,
      fun _ => ⟨by rw [hSh'], rfl⟩, fun h => absurd hc h⟩
    · rw [hSq' _ h4 h6]; exact hSn
    · rw [hSh']; simp [hSh]
    · rw [hSh']; simp [hSh]
  · have hkeep := @parent_keeps_root fuel S nd.parent
      (IxNodeHandle.erase_pair pa (IxNodeHandle.find_child pa R)) hSp hpal
      (by
        rw [hplen, hmin]
        by_cases hr : pa.parent = IX_NO_PAGE
        · left
          refine ⟨hr, ?_⟩
          intro h
          exact hc ⟨hr, by omega⟩
        · right
          refine ⟨hr, ?_⟩
          rcases hup with h | h
          · exact absurd h hr
          · exact h)
    rw [hkeep] at hcore
    refine ⟨S, _, hcore, hSL, rfl, rfl, rfl, hLl, hSn, hslot, by simp [hSh], by simp [hSh],
      fun h => absurd h hc, fun _ => ⟨by simp [hSh], rfl, hSp⟩⟩

theorem coalesce_merges_right_leaf_witness :
    (∃ s' Lres, CoalesceOrRedistribute 8 tree_10_to_40_without_40 3 = .ok (true, s') ∧
      s'.pages 2 = some Lres ∧
      Lres.pairs = [(be32 10, ⟨10, 0⟩), (be32 20, ⟨20, 0⟩)] ++ [(be32 30, ⟨30, 0⟩)] ∧
      Lres.next_leaf = 1 ∧ s'.file_hdr.last_leaf = 2 ∧ s'.file_hdr.root_page = 2 ∧
      Lres.parent = INVALID_PAGE_ID) ∧
    (do
      let s ← run_ops 8 tree_10_to_40 [del 40, del 30]
      let root ← FetchNode s s.file_hdr.root_page
      pure (s.file_hdr.root_page, s.file_hdr.first_leaf, s.file_hdr.last_leaf, root.is_leaf,
        root.parent, root.pairs.map Prod.fst))
      = .ok (2, 2, 2, true, INVALID_PAGE_ID, [be32 10, be32 20]) := by
  refine ⟨?_, rfl⟩
  obtain ⟨s', Lres, h1, h2, h3, h4, -, -, -, -, h9, -, h11, -⟩ :=
    coalesce_merges_right_leaf 6 tree_10_to_40_without_40 3 2 2 3
      { is_leaf := true, parent := 4, next_leaf := 1, prev_leaf := 2,
        next_free_page_no := IX_NO_PAGE, pairs := [(be32 30, ⟨30, 0⟩)] }
      { is_leaf := true, parent := 4, next_leaf := 3, prev_leaf := 1,
        next_free_page_no := IX_NO_PAGE, pairs := [(be32 10, ⟨10, 0⟩), (be32 20, ⟨20, 0⟩)] }
      { is_leaf := false, parent := IX_NO_PAGE, next_leaf := IX_NO_PAGE,
        prev_leaf := IX_NO_PAGE, next_free_page_no := IX_NO_PAGE,
        pairs := [(be32 10, ⟨2, -1⟩), (be32 30, ⟨3, -1⟩)] }
      { is_leaf := true, parent := 4, next_leaf := 3, prev_leaf := 1,
        next_free_page_no := IX_NO_PAGE, pairs := [(be32 10, ⟨10, 0⟩), (be32 20, ⟨20, 0⟩)] }
      { is_leaf := true, parent := 4, next_leaf := 1, prev_leaf := 2,
        next_free_page_no := IX_NO_PAGE, pairs := [(be32 30, ⟨30, 0⟩)] }
      { is_leaf := true, parent := IX_NO_PAGE, next_leaf := 2, prev_leaf := 3,
        next_free_page_no := IX_NO_PAGE, pairs := [] }
      rfl rfl rfl rfl (by decide) (by decide) rfl rfl (by decide) (fun h => absurd h (by decide))
      rfl rfl (by decide) rfl rfl (by decide) (by decide) (by decide) (by decide) (by decide)
      (Or.inl rfl)
  exact ⟨s', Lres, h1, h2, h3, h4, h9.trans rfl, (h11 ⟨rfl, rfl⟩).1, (h11 ⟨rfl, rfl⟩).2⟩

/-! ### The ends of the leaf list -/

/-- `Split` fetches the page `next_leaf` of a leaf names without a test: on a leaf whose
`next_leaf` is `INVALID_PAGE_ID`, in a file without a page of that number, it stops at the
fetch. -/
theorem Split_invalid_next_leaf (s : IxState) (node : Int) (nd : IxNode)
    (hnode : s.pages node = some nd) (hleaf : nd.is_leaf = true)
    (hnext : nd.next_leaf = INVALID_PAGE_ID) (hnone : s.pages INVALID_PAGE_ID = none)
    (hfresh : s.pages s.fd2pageno = none) (hpos : 0 ≤ s.fd2pageno) :
    Split s node = .error .ioError := by
  have hne : node ≠ s.fd2pageno := by
    intro he; rw [he, hfresh] at hnode; simp at hnode
  have hinv : INVALID_PAGE_ID ≠ s.fd2pageno := by
    simp only [INVALID_PAGE_ID]; omega
  simp [Split, CreateNode, FetchNode, modify_pages, hne, hinv, hnode, hleaf, hnext, hnone,
    bind, Except.bind]

/-- `erase_leaf` fetches the two pages `prev_leaf` and `next_leaf` of the leaf name without a
test: on a leaf one of whose two pointers is `INVALID_PAGE_ID`, in a file without a page of
that number, it stops at the fetch. -/
theorem erase_leaf_invalid_neighbour (s : IxState) (leaf : Int) (lf : IxNode)
    (hleaf : s.pages leaf = some lf)
    (hend : lf.prev_leaf = INVALID_PAGE_ID ∨ lf.next_leaf = INVALID_PAGE_ID)
    (hnone : s.pages INVALID_PAGE_ID = none) :
    erase_leaf s leaf = .error .ioError := by
  by_cases hp : lf.prev_leaf = INVALID_PAGE_ID
  · simp [erase_leaf, FetchNode, hleaf, hp, hnone, bind, Except.bind]
  · have hn : lf.next_leaf = INVALID_PAGE_ID := hend.resolve_left hp
    have hfl : FetchNode s leaf = .ok lf := FetchNode_eq_ok.2 hleaf
    cases hprev : FetchNode s lf.prev_leaf with
    | error e =>
      have he : e = .ioError := by
        unfold FetchNode at hprev
        cases h : s.pages lf.prev_leaf <;> rw [h] at hprev <;> simp at hprev
        exact hprev.symm
      subst he
      simp only [erase_leaf, hfl, hprev, ok_bind, error_bind]
    | ok pv =>
      have hinv : FetchNode s INVALID_PAGE_ID = .error .ioError := by
        simp [FetchNode, hnone]
      simp only [erase_leaf, hfl, hprev, ok_bind, FetchNode_modify]
      by_cases hself : leaf = lf.prev_leaf
      · have hl : ¬ INVALID_PAGE_ID = leaf := fun h => hp (hself ▸ h.symm)
        rw [if_pos hself, ← hself]
        simp only [Except.map, ok_bind, hn, if_neg hl, hinv, error_bind]
      · rw [if_neg hself]
        simp only [ok_bind, hn, if_neg (Ne.symm hp), hinv, error_bind]

/-- C31 at failing inputs, order 4.  In the file `IxIndexHandle` works on, after the keys 10,
20, 30, 40 have been inserted `prev_leaf` of `first_leaf` and `next_leaf` of `last_leaf` are
page 1, the list header, and not `INVALID_PAGE_ID`; after the keys 5, 7, 3, 9, 1, 2 have been
inserted and 7 has been deleted, `last_leaf` is the root leaf in page 2, whose `next_leaf` is
page 5, a leaf holding the keys 3 and 5.  In a file whose leaf list ends in
`INVALID_PAGE_ID`, the insert that splits `last_leaf` and the delete that merges `last_leaf`
into its left sibling stop at the fetch of page `INVALID_PAGE_ID`. -/
theorem leaf_list_ends_not_invalid_page_id :
    (do
      let s ← run_ops 8 (single_leaf 4 4 []) [ins 10, ins 20, ins 30, ins 40]
      let first ← FetchNode s s.file_hdr.first_leaf
      let last ← FetchNode s s.file_hdr.last_leaf
      pure (s.file_hdr.first_leaf, first.prev_leaf, s.file_hdr.last_leaf, last.next_leaf))
      = .ok (2, leaf_header_page, 3, leaf_header_page) ∧
    leaf_header_page ≠ INVALID_PAGE_ID ∧
    (do
      let s ← run_ops 8 (single_leaf 4 4 []) [ins 5, ins 7, ins 3, ins 9, ins 1, ins 2, del 7]
      let last ← FetchNode s s.file_hdr.last_leaf
      let next ← FetchNode s last.next_leaf
      pure (s.file_hdr.root_page, s.file_hdr.last_leaf, last.pairs.map Prod.fst,
        last.next_leaf, next.is_leaf, next.pairs.map Prod.fst))
      = .ok (2, 2, [be32 1, be32 2, be32 9], 5, true, [be32 3, be32 5]) ∧
    (run_ops 8 (single_leaf_invalid_ends 4 4 []) [ins 10, ins 20, ins 30]).toBool = true ∧
    run_ops 8 (single_leaf_invalid_ends 4 4 []) [ins 10, ins 20, ins 30, ins 40]
      = .error .ioError ∧
    delete_entry tree_10_to_40_invalid_ends (be32 40) 8 = .error .ioError := by
  refine ⟨rfl, by decide, rfl, rfl, rfl, rfl⟩

end Rucbase
